import Mathlib

/-!
# Verification of `SingleLinkedList<Type>` (single-linked-list.h)

The container is embedded over an explicit memory: a heap of node cells and a table of
list objects.  A list object holds the embedded sentinel node `head_` and the cached
counter `size_`; real nodes live in heap cells and are linked through `next_node`.

* `new Node(...)` takes the first free heap cell and fails (`std::bad_alloc`) when no cell
  is free; `delete` releases a cell.
* `size_t` arithmetic is done modulo `2 ^ 64`.
* A dereference of a null or dangling pointer is undefined behaviour and is reported as
  `none` / `Res.undefined`.
* Loops are run with a fuel bound derived from the heap size.
-/

set_option autoImplicit false

namespace SingleLinkedList

/-! ## Memory model -/

/-- A value of type `Node*`: the null pointer, the address of the sentinel `head_` embedded
in list object number `obj`, or the address of a heap cell. -/
inductive NodePtr where
  | null : NodePtr
  | sentinel (obj : Nat) : NodePtr
  | cell (addr : Nat) : NodePtr
  deriving DecidableEq, Repr

/-- The struct `Node`: a value and the pointer to the next node. -/
structure Node (T : Type) where
  value : T
  next_node : NodePtr
  deriving DecidableEq, Repr

/-- The data members of one `SingleLinkedList<Type>` object: the sentinel `head_` and the
counter `size_`. -/
structure ListObj (T : Type) where
  head_ : Node T
  size_ : Nat
  deriving DecidableEq, Repr

/-- The program memory: heap cells (`none` is a free cell) and the live list objects. -/
structure Mem (T : Type) where
  heap : List (Option (Node T))
  objs : List (ListObj T)
  deriving DecidableEq, Repr

/-- Outcome of an operation that may allocate: normal return with the final memory and the
returned value, `std::bad_alloc` thrown (with the memory at the throw), or undefined
behaviour. -/
inductive Res (T α : Type) where
  | done (m : Mem T) (r : α) : Res T α
  | bad_alloc (m : Mem T) : Res T α
  | undefined : Res T α
  deriving DecidableEq, Repr

/-- Width of `size_t`: arithmetic on `size_` is modulo this number. -/
abbrev SIZE_MODULUS : Nat := 2 ^ 64

variable {T : Type}

/-- Index of the first free heap cell. -/
def firstFree : List (Option (Node T)) → Option Nat
  | [] => none
  | none :: _ => some 0
  | some _ :: h => (firstFree h).map (· + 1)

/-- The expression `new Node(value, next)`: `none` stands for `std::bad_alloc`. -/
def Mem.newNode (m : Mem T) (n : Node T) : Option (Nat × Mem T) :=
  match firstFree m.heap with
  | none => none
  | some a => some (a, { m with heap := m.heap.set a (some n) })

/-- The statement `delete p`. Deleting the null pointer does nothing; deleting anything
that is not an allocated heap node is undefined. -/
def Mem.delete (m : Mem T) : NodePtr → Option (Mem T)
  | .null => some m
  | .sentinel _ => none
  | .cell a =>
    match m.heap[a]? with
    | some (some _) => some { m with heap := m.heap.set a none }
    | _ => none

/-- The node a pointer refers to. -/
def Mem.node (m : Mem T) : NodePtr → Option (Node T)
  | .null => none
  | .sentinel l => (m.objs[l]?).map (·.head_)
  | .cell a =>
    match m.heap[a]? with
    | some (some n) => some n
    | _ => none

/-- The expression `p->next_node`. -/
def Mem.next (m : Mem T) (p : NodePtr) : Option NodePtr :=
  (m.node p).map (·.next_node)

/-- The expression `p->value`. -/
def Mem.value (m : Mem T) (p : NodePtr) : Option T :=
  (m.node p).map (·.value)

/-- The assignment `p->next_node = q`. -/
def Mem.setNext (m : Mem T) (p q : NodePtr) : Option (Mem T) :=
  match p with
  | .null => none
  | .sentinel l =>
    match m.objs[l]? with
    | some o => some { m with objs := m.objs.set l { o with head_ := { o.head_ with next_node := q } } }
    | none => none
  | .cell a =>
    match m.heap[a]? with
    | some (some n) => some { m with heap := m.heap.set a (some { n with next_node := q }) }
    | _ => none

/-- The member `size_` of list object `this`. -/
def Mem.size (m : Mem T) (this : Nat) : Option Nat :=
  (m.objs[this]?).map (·.size_)

/-- The assignment `size_ = n` in list object `this`. -/
def Mem.setSize (m : Mem T) (this n : Nat) : Option (Mem T) :=
  match m.objs[this]? with
  | some o => some { m with objs := m.objs.set this { o with size_ := n } }
  | none => none

/-! ## Iterators (`BasicIterator`) -/

/-- Pre-increment `operator++()`: guarded by `node_ != nullptr`. -/
def incr (m : Mem T) (node_ : NodePtr) : Option NodePtr :=
  if node_ ≠ .null then m.next node_ else some node_

/-- Post-increment `operator++(int)`: the new iterator and the returned old value. -/
def post_incr (m : Mem T) (node_ : NodePtr) : Option (NodePtr × NodePtr) :=
  let old_value := node_
  match incr m node_ with
  | some n => some (n, old_value)
  | none => none

/-- Dereference `operator*()`: `node_->value`. -/
def deref (m : Mem T) (node_ : NodePtr) : Option T :=
  m.value node_

/-! ## Member functions of `SingleLinkedList` -/

/-- `GetSize()`. -/
def GetSize (m : Mem T) (this : Nat) : Option Nat :=
  m.size this

/-- `IsEmpty()`. -/
def IsEmpty (m : Mem T) (this : Nat) : Option Bool :=
  match m.size this with
  | some s => if s = 0 then some true else some false
  | none => none

/-- `begin()` / `cbegin()`: null when `size_ == 0`, otherwise `head_.next_node`. -/
def begin_ (m : Mem T) (this : Nat) : Option NodePtr :=
  match m.size this with
  | some s => if s = 0 then some .null else m.next (.sentinel this)
  | none => none

/-- `end()` / `cend()`. -/
def end_ (_m : Mem T) (_this : Nat) : NodePtr :=
  .null

/-- `before_begin()` / `cbefore_begin()`: the address of `head_`. -/
def before_begin (_m : Mem T) (this : Nat) : NodePtr :=
  .sentinel this

/-- `PushFront(value)`. -/
def PushFront (m : Mem T) (this : Nat) (value : T) : Res T Unit :=
  match m.next (.sentinel this) with
  | none => .undefined
  | some first =>
    match m.newNode ⟨value, first⟩ with
    | none => .bad_alloc m
    | some (a, m1) =>
      match m1.setNext (.sentinel this) (.cell a) with
      | none => .undefined
      | some m2 =>
        match m2.size this with
        | none => .undefined
        | some s =>
          match m2.setSize this ((s + 1) % SIZE_MODULUS) with
          | none => .undefined
          | some m3 => .done m3 ()

/-- `PopFront()`. -/
def PopFront (m : Mem T) (this : Nat) : Option (Mem T) :=
  match m.next (.sentinel this) with
  | none => none
  | some n =>
    if n ≠ .null then
      match m.next n with
      | none => none
      | some nn =>
        match m.setNext (.sentinel this) nn with
        | none => none
        | some m1 =>
          match m1.delete n with
          | none => none
          | some m2 =>
            match m2.size this with
            | none => none
            | some s => m2.setSize this ((s + SIZE_MODULUS - 1) % SIZE_MODULUS)
    else some m

/-- The `while` loop of `Clear()`. -/
def Clear_loop (this : Nat) : Nat → Mem T → Option (Mem T)
  | 0, _ => none
  | fuel + 1, m =>
    match m.next (.sentinel this) with
    | none => none
    | some temp =>
      if temp ≠ .null then
        match m.next temp with
        | none => none
        | some nn =>
          match m.setNext (.sentinel this) nn with
          | none => none
          | some m1 =>
            match m1.delete temp with
            | none => none
            | some m2 => Clear_loop this fuel m2
      else some m

/-- `Clear()`. Every iteration releases one allocated cell, so `heap.length + 1` rounds
are enough for the loop to finish. -/
def Clear (m : Mem T) (this : Nat) : Option (Mem T) :=
  match Clear_loop this (m.heap.length + 1) m with
  | none => none
  | some m1 => m1.setSize this 0

/-- `swap(other)`. -/
def swap (m : Mem T) (this other : Nat) : Option (Mem T) :=
  match m.next (.sentinel this), m.next (.sentinel other) with
  | some temp, some other_next =>
    match m.setNext (.sentinel this) other_next with
    | none => none
    | some m1 =>
      match m1.setNext (.sentinel other) temp with
      | none => none
      | some m2 =>
        match m2.size this, m2.size other with
        | some size_temp, some os =>
          match m2.setSize this os with
          | none => none
          | some m3 => m3.setSize other size_temp
        | _, _ => none
  | _, _ => none

/-- The free function `swap(lhs, rhs)`. -/
def free_swap (m : Mem T) (lhs rhs : Nat) : Option (Mem T) :=
  swap m lhs rhs

/-- `InsertAfter(pos, value)`. -/
def InsertAfter (m : Mem T) (this : Nat) (pos : NodePtr) (value : T) : Res T NodePtr :=
  match m.next pos with
  | none => .undefined
  | some nx =>
    match m.newNode ⟨value, nx⟩ with
    | none => .bad_alloc m
    | some (a, m1) =>
      match m1.setNext pos (.cell a) with
      | none => .undefined
      | some m2 =>
        match m2.size this with
        | none => .undefined
        | some s =>
          match m2.setSize this ((s + 1) % SIZE_MODULUS) with
          | none => .undefined
          | some m3 => .done m3 (.cell a)

/-- `EraseAfter(pos)`. -/
def EraseAfter (m : Mem T) (this : Nat) (pos : NodePtr) : Option (Mem T × NodePtr) :=
  match m.next pos with
  | none => none
  | some n =>
    match m.next n with
    | none => none
    | some nn =>
      match m.setNext pos nn with
      | none => none
      | some m1 =>
        match m1.next n with
        | none => none
        | some after_del =>
          match m1.delete n with
          | none => none
          | some m2 =>
            match m2.size this with
            | none => none
            | some s =>
              match m2.setSize this ((s + SIZE_MODULUS - 1) % SIZE_MODULUS) with
              | none => none
              | some m3 => some (m3, after_del)

/-! ## Construction, copy and assignment -/

/-- The `for` loop of `CopyRange` when the range is an `initializer_list` (the
iterators are pointers into an array, here the remaining values). -/
def CopyRange_loop_values : List T → Mem T → NodePtr → Res T Unit
  | [], m, _ => .done m ()
  | v :: vs, m, tail =>
    match m.newNode ⟨v, .null⟩ with
    | none => .bad_alloc m
    | some (a, m1) =>
      match m1.setNext tail (.cell a) with
      | none => .undefined
      | some m2 =>
        match m2.next tail with
        | none => .undefined
        | some tail1 => CopyRange_loop_values vs m2 tail1

/-- `CopyRange(values.begin(), values.end())`; `std::distance` of two array pointers is
their difference, converted to `size_t`. -/
def CopyRange_values (m : Mem T) (this : Nat) (values : List T) : Res T Unit :=
  match m.setNext (.sentinel this) .null with
  | none => .undefined
  | some m1 =>
    match m1.setSize this 0 with
    | none => .undefined
    | some m2 =>
      match CopyRange_loop_values values m2 (.sentinel this) with
      | .undefined => .undefined
      | .bad_alloc m3 => .bad_alloc m3
      | .done m3 _ =>
        match m3.setSize this (values.length % SIZE_MODULUS) with
        | none => .undefined
        | some m4 => .done m4 ()

/-- The `for` loop of `CopyRange` when the range is given by two list iterators. -/
def CopyRange_loop (last : NodePtr) : Nat → Mem T → NodePtr → NodePtr → Res T Unit
  | 0, _, _, _ => .undefined
  | fuel + 1, m, it, tail =>
    if it ≠ last then
      match deref m it with
      | none => .undefined
      | some v =>
        match m.newNode ⟨v, .null⟩ with
        | none => .bad_alloc m
        | some (a, m1) =>
          match m1.setNext tail (.cell a) with
          | none => .undefined
          | some m2 =>
            match m2.next tail with
            | none => .undefined
            | some tail1 =>
              match incr m2 it with
              | none => .undefined
              | some it1 => CopyRange_loop last fuel m2 it1 tail1
    else .done m ()

/-- `std::distance(first, last)` for forward iterators: the number of increments needed
to get from `first` to `last`. -/
def distance (m : Mem T) (last : NodePtr) : Nat → NodePtr → Option Nat
  | 0, _ => none
  | fuel + 1, it =>
    if it ≠ last then
      match incr m it with
      | none => none
      | some it1 => (distance m last fuel it1).map (· + 1)
    else some 0

/-- `CopyRange(begin, end)` for two list iterators. -/
def CopyRange (m : Mem T) (this : Nat) (first last : NodePtr) : Res T Unit :=
  match m.setNext (.sentinel this) .null with
  | none => .undefined
  | some m1 =>
    match m1.setSize this 0 with
    | none => .undefined
    | some m2 =>
      match CopyRange_loop last (m2.heap.length + 1) m2 first (.sentinel this) with
      | .undefined => .undefined
      | .bad_alloc m3 => .bad_alloc m3
      | .done m3 _ =>
        match distance m3 last (m3.heap.length + 1) first with
        | none => .undefined
        | some d =>
          match m3.setSize this (d % SIZE_MODULUS) with
          | none => .undefined
          | some m4 => .done m4 ()

/-- Storage for a new list object with its default member initialisers
(`Node head_;` with `value{}` and `next_node = nullptr`, `size_ = 0`); the new object
is number `m.objs.length`. -/
def newObject [Inhabited T] (m : Mem T) : Mem T :=
  { m with objs := m.objs ++ [⟨⟨default, .null⟩, 0⟩] }

/-- Release of the storage of the most recently created list object. -/
def dropObject (m : Mem T) : Mem T :=
  { m with objs := m.objs.dropLast }

/-- The default constructor `SingleLinkedList()`: returns the memory and the new object. -/
def construct_default [Inhabited T] (m : Mem T) : Mem T × Nat :=
  (newObject m, m.objs.length)

/-- The constructor `SingleLinkedList(std::initializer_list<Type> values)`. When
`CopyRange` throws, the object does not come into existence (its destructor is not run). -/
def construct_values [Inhabited T] (m : Mem T) (values : List T) : Res T Nat :=
  let this := m.objs.length
  match CopyRange_values (newObject m) this values with
  | .undefined => .undefined
  | .bad_alloc m1 => .bad_alloc (dropObject m1)
  | .done m1 _ => .done m1 this

/-- The copy constructor `SingleLinkedList(const SingleLinkedList& other)`. -/
def construct_copy [Inhabited T] (m : Mem T) (other : Nat) : Res T Nat :=
  let this := m.objs.length
  let m0 := newObject m
  match begin_ m0 other with
  | none => .undefined
  | some first =>
    match CopyRange m0 this first (end_ m0 other) with
    | .undefined => .undefined
    | .bad_alloc m1 => .bad_alloc (dropObject m1)
    | .done m1 _ => .done m1 this

/-- The destructor `~SingleLinkedList()` of the most recently created object: `Clear()`,
then the storage is released. -/
def destructor (m : Mem T) (this : Nat) : Option (Mem T) :=
  match Clear m this with
  | none => none
  | some m1 => some (dropObject m1)

/-- The copy assignment `operator=(rhs)`. -/
def operator_assign [Inhabited T] (m : Mem T) (this rhs : Nat) : Res T Unit :=
  if this ≠ rhs then
    match construct_copy m rhs with
    | .undefined => .undefined
    | .bad_alloc m1 => .bad_alloc m1
    | .done m1 temp =>
      match swap m1 this temp with
      | none => .undefined
      | some m2 =>
        match destructor m2 temp with
        | none => .undefined
        | some m3 => .done m3 ()
  else .done m ()

/-! ## Traversal and comparison -/

/-- The client loop `for (it = first; it != last; ++it) visit(*it)`: the values visited. -/
def traverse (m : Mem T) (last : NodePtr) : Nat → NodePtr → Option (List T)
  | 0, _ => none
  | fuel + 1, it =>
    if it ≠ last then
      match deref m it with
      | none => none
      | some v =>
        match incr m it with
        | none => none
        | some it1 => (traverse m last fuel it1).map (v :: ·)
    else some []

/-- The values seen when iterating list `this` from `begin()` to `end()`. -/
def elements (m : Mem T) (this : Nat) : Option (List T) :=
  match begin_ m this with
  | none => none
  | some first => traverse m (end_ m this) (m.heap.length + 1) first

/-- The four-iterator `std::equal` for forward iterators. -/
def std_equal [BEq T] (m : Mem T) (last1 last2 : NodePtr) : Nat → NodePtr → NodePtr → Option Bool
  | 0, _, _ => none
  | fuel + 1, first1, first2 =>
    if first1 ≠ last1 ∧ first2 ≠ last2 then
      match deref m first1, deref m first2 with
      | some x, some y =>
        if !(x == y) then some false
        else
          match incr m first1, incr m first2 with
          | some n1, some n2 => std_equal m last1 last2 fuel n1 n2
          | _, _ => none
      | _, _ => none
    else some (decide (first1 = last1) && decide (first2 = last2))

/-- The function `std::lexicographical_compare` with the elements' `operator<`. -/
def std_lexicographical_compare (lt : T → T → Bool) (m : Mem T) (last1 last2 : NodePtr) :
    Nat → NodePtr → NodePtr → Option Bool
  | 0, _, _ => none
  | fuel + 1, first1, first2 =>
    if first1 ≠ last1 ∧ first2 ≠ last2 then
      match deref m first1, deref m first2 with
      | some x, some y =>
        if lt x y then some true
        else if lt y x then some false
        else
          match incr m first1, incr m first2 with
          | some n1, some n2 => std_lexicographical_compare lt m last1 last2 fuel n1 n2
          | _, _ => none
      | _, _ => none
    else some (decide (first1 = last1) && decide (first2 ≠ last2))

/-- The free `operator==`. -/
def operator_eq [BEq T] (m : Mem T) (lhs rhs : Nat) : Option Bool :=
  match begin_ m lhs, begin_ m rhs with
  | some b1, some b2 => std_equal m (end_ m lhs) (end_ m rhs) (m.heap.length + 1) b1 b2
  | _, _ => none

/-- The free `operator!=`. -/
def operator_ne [BEq T] (m : Mem T) (lhs rhs : Nat) : Option Bool :=
  (operator_eq m lhs rhs).map (!·)

/-- The free `operator<`. -/
def operator_lt (lt : T → T → Bool) (m : Mem T) (lhs rhs : Nat) : Option Bool :=
  match begin_ m lhs, begin_ m rhs with
  | some b1, some b2 =>
    std_lexicographical_compare lt m (end_ m lhs) (end_ m rhs) (m.heap.length + 1) b1 b2
  | _, _ => none

/-- The free `operator<=`: `(lhs < rhs) || (lhs == rhs)`, with short circuit. -/
def operator_le [BEq T] (lt : T → T → Bool) (m : Mem T) (lhs rhs : Nat) : Option Bool :=
  match operator_lt lt m lhs rhs with
  | none => none
  | some true => some true
  | some false => operator_eq m lhs rhs

/-- The free `operator>`: `rhs < lhs`. -/
def operator_gt (lt : T → T → Bool) (m : Mem T) (lhs rhs : Nat) : Option Bool :=
  operator_lt lt m rhs lhs

/-- The free `operator>=`: `(rhs < lhs) || (lhs == rhs)`, with short circuit. -/
def operator_ge [BEq T] (lt : T → T → Bool) (m : Mem T) (lhs rhs : Nat) : Option Bool :=
  match operator_lt lt m rhs lhs with
  | none => none
  | some true => some true
  | some false => operator_eq m lhs rhs

/-! ## Abstraction: the chain of a list object -/

/-- The heap `h` holds the nodes `c` (address and value of each, in order) linked from
pointer `p` up to pointer `q`: `p` is the first cell, every cell points to the following
one, and the last one points to `q`. -/
def IsSeg (h : List (Option (Node T))) : NodePtr → List (Nat × T) → NodePtr → Prop
  | p, [], q => p = q
  | p, (a, v) :: c, q => p = .cell a ∧ ∃ nx, h[a]? = some (some ⟨v, nx⟩) ∧ IsSeg h nx c q

/-- Addresses of the nodes of a chain. -/
def addrs (c : List (Nat × T)) : List Nat :=
  c.map Prod.fst

/-- Values of the nodes of a chain. -/
def vals (c : List (Nat × T)) : List T :=
  c.map Prod.snd

/-- List object `l` is live, the real nodes reachable from its sentinel are exactly `c`
(from `head_.next_node` to the null pointer) and `size_` is their number. -/
def Owns (m : Mem T) (l : Nat) (c : List (Nat × T)) : Prop :=
  ∃ o, m.objs[l]? = some o ∧ IsSeg m.heap o.head_.next_node c .null ∧ o.size_ = c.length

/-- The heap fits in the address space, so a node count always fits in `size_t`. -/
def HeapBounded (m : Mem T) : Prop :=
  m.heap.length < SIZE_MODULUS

/-- The structural invariant of a memory: every live list object owns a null-terminated
chain whose length is its `size_`, and the chains of different objects share no node. -/
def Inv (m : Mem T) : Prop :=
  HeapBounded m ∧
  ∃ f : Nat → List (Nat × T),
    (∀ l, l < m.objs.length → Owns m l (f l)) ∧
    (∀ l1 l2, l1 < m.objs.length → l2 < m.objs.length → l1 ≠ l2 →
      ∀ a, a ∈ addrs (f l1) → a ∉ addrs (f l2))

/-- Memory `m2` differs from `m` at most in the heap cells listed in `A` and in list
object `l`. -/
def Modifies (A : List Nat) (l : Nat) (m m2 : Mem T) : Prop :=
  m2.heap.length = m.heap.length ∧ m2.objs.length = m.objs.length ∧
  (∀ a, a ∉ A → m2.heap[a]? = m.heap[a]?) ∧ (∀ k, k ≠ l → m2.objs[k]? = m.objs[k]?)

/-- The number of real nodes reachable from the sentinel of `this` by following
`next_node` until the null pointer. -/
def node_count (m : Mem T) (this : Nat) : Option Nat :=
  match m.next (.sentinel this) with
  | none => none
  | some first => distance m .null (m.heap.length + 1) first

/-- A position accepted by `InsertAfter` / `EraseAfter` on list `this`: `before_begin()`
or a pointer to a real node of this list. -/
def ValidPos (m : Mem T) (this : Nat) (pos : NodePtr) : Prop :=
  pos = .sentinel this ∨ ∃ c a, Owns m this c ∧ a ∈ addrs c ∧ pos = .cell a

/-- Pointer `pos` is the position right after the nodes `c1` of list `this`: the sentinel
when `c1` is empty, otherwise the last node of `c1`. -/
def IsPos (this : Nat) (c1 : List (Nat × T)) (pos : NodePtr) : Prop :=
  (c1 = [] ∧ pos = .sentinel this) ∨ ∃ c0 b vb, c1 = c0 ++ [(b, vb)] ∧ pos = .cell b

/-- The pointer to the first node of a chain, null for the empty chain. -/
def headPtr : List (Nat × T) → NodePtr
  | [] => .null
  | (a, _) :: _ => .cell a

/-- The iterator for position number `k` of a list with chain `c`: `before_begin()` for
`k = 0`, and the node at index `i` for `k = i + 1`. -/
def posPtr (this : Nat) (c : List (Nat × T)) : Nat → NodePtr
  | 0 => .sentinel this
  | i + 1 =>
    match c.get? i with
    | some (a, _) => .cell a
    | none => .null

/-- Number of free heap cells. -/
def freeCells (h : List (Option (Node T))) : Nat :=
  h.countP Option.isNone

/-- A sample memory of eight cells in which list object 0 is `[1, 2, 3]` and list object
1 is `[4, 5]`. -/
def sampleMem : Mem Nat :=
  { heap := [some ⟨1, .cell 1⟩, some ⟨2, .cell 2⟩, some ⟨3, .null⟩, some ⟨4, .cell 4⟩,
             some ⟨5, .null⟩, none, none, none],
    objs := [⟨⟨0, .cell 0⟩, 3⟩, ⟨⟨0, .cell 3⟩, 2⟩] }

/-- The chain of list object 0 in `sampleMem`. -/
def sampleChain : List (Nat × Nat) :=
  [(0, 1), (1, 2), (2, 3)]

/-- The chain of list object 1 in `sampleMem`. -/
def sampleChain2 : List (Nat × Nat) :=
  [(3, 4), (4, 5)]

/-- What the loop of `std::equal` computes, read on the two value sequences. -/
def equalLists [BEq T] : List T → List T → Bool
  | [], [] => true
  | [], _ :: _ => false
  | _ :: _, [] => false
  | x :: xs, y :: ys => if !(x == y) then false else equalLists xs ys

/-- What the loop of `std::lexicographical_compare` computes, read on the two value
sequences. -/
def lexLists (lt : T → T → Bool) : List T → List T → Bool
  | [], [] => false
  | [], _ :: _ => true
  | _ :: _, [] => false
  | x :: xs, y :: ys => if lt x y then true else if lt y x then false else lexLists lt xs ys

/-- A sample memory holding five lists: `[1, 2, 3]`, `[1, 2, 3]`, `[1, 2]`, `[1, 3]` and
`[1, 2, 9]` as objects 0 to 4. -/
def compareMem : Mem Nat :=
  { heap := [some ⟨1, .cell 1⟩, some ⟨2, .cell 2⟩, some ⟨3, .null⟩,
             some ⟨1, .cell 4⟩, some ⟨2, .cell 5⟩, some ⟨3, .null⟩,
             some ⟨1, .cell 7⟩, some ⟨2, .null⟩,
             some ⟨1, .cell 9⟩, some ⟨3, .null⟩,
             some ⟨1, .cell 11⟩, some ⟨2, .cell 12⟩, some ⟨9, .null⟩, none],
    objs := [⟨⟨0, .cell 0⟩, 3⟩, ⟨⟨0, .cell 3⟩, 3⟩, ⟨⟨0, .cell 6⟩, 2⟩, ⟨⟨0, .cell 8⟩, 2⟩,
             ⟨⟨0, .cell 10⟩, 3⟩] }

/-- The `operator<` of `Nat` as a Boolean function. -/
def natLt (a b : Nat) : Bool :=
  decide (a < b)

/-- The memory obtained by constructing the list `{1, 2, 3}` in an empty heap of eight
cells. -/
def builtMem : Mem Nat :=
  { heap := [some ⟨1, .cell 1⟩, some ⟨2, .cell 2⟩, some ⟨3, .null⟩, none, none, none, none, none],
    objs := [⟨⟨0, .cell 0⟩, 3⟩] }

/-- Memories reachable from a memory without list objects by constructing lists
(default, from a sequence, by copy) and calling `PushFront`, `PopFront`, `Clear`, `swap`,
`operator=`, `InsertAfter` and `EraseAfter`, the position arguments satisfying their
preconditions. A call that throws `std::bad_alloc` also leads to a reachable memory. -/
inductive Reachable [Inhabited T] : Mem T → Prop
  | start (h : List (Option (Node T))) : h.length < SIZE_MODULUS → Reachable ⟨h, []⟩
  | default_constructed {m : Mem T} : Reachable m → Reachable (construct_default m).1
  | values_constructed {m m2 : Mem T} (vs : List T) (this : Nat) :
      Reachable m → construct_values m vs = .done m2 this → Reachable m2
  | values_throw {m m2 : Mem T} (vs : List T) :
      Reachable m → construct_values m vs = .bad_alloc m2 → Reachable m2
  | copy_constructed {m m2 : Mem T} (other this : Nat) :
      Reachable m → construct_copy m other = .done m2 this → Reachable m2
  | copy_throw {m m2 : Mem T} (other : Nat) :
      Reachable m → construct_copy m other = .bad_alloc m2 → Reachable m2
  | pushFront {m m2 : Mem T} (this : Nat) (v : T) :
      Reachable m → PushFront m this v = .done m2 () → Reachable m2
  | pushFront_throw {m m2 : Mem T} (this : Nat) (v : T) :
      Reachable m → PushFront m this v = .bad_alloc m2 → Reachable m2
  | popFront {m m2 : Mem T} (this : Nat) :
      Reachable m → PopFront m this = some m2 → Reachable m2
  | clear {m m2 : Mem T} (this : Nat) :
      Reachable m → Clear m this = some m2 → Reachable m2
  | swapped {m m2 : Mem T} (this other : Nat) :
      Reachable m → swap m this other = some m2 → Reachable m2
  | assigned {m m2 : Mem T} (this rhs : Nat) :
      Reachable m → operator_assign m this rhs = .done m2 () → Reachable m2
  | assign_throw {m m2 : Mem T} (this rhs : Nat) :
      Reachable m → operator_assign m this rhs = .bad_alloc m2 → Reachable m2
  | insertAfter {m m2 : Mem T} (this : Nat) (pos : NodePtr) (v : T) (r : NodePtr) :
      Reachable m → ValidPos m this pos → InsertAfter m this pos v = .done m2 r → Reachable m2
  | insertAfter_throw {m m2 : Mem T} (this : Nat) (pos : NodePtr) (v : T) :
      Reachable m → ValidPos m this pos → InsertAfter m this pos v = .bad_alloc m2 →
      Reachable m2
  | eraseAfter {m m2 : Mem T} (this : Nat) (pos r : NodePtr) (b : Nat) :
      Reachable m → ValidPos m this pos → m.next pos = some (.cell b) →
      EraseAfter m this pos = some (m2, r) → Reachable m2

/-- A sample memory whose three cells are all allocated: list object 0 is `[1, 2, 3]`
and no cell is left for a new node. -/
def fullMem : Mem Nat :=
  { heap := [some ⟨1, .cell 1⟩, some ⟨2, .cell 2⟩, some ⟨3, .null⟩],
    objs := [⟨⟨0, .cell 0⟩, 3⟩] }

/-- One pass through the body of the `while` loop of `Clear()`, taken when the guard
`head_.next_node != nullptr` holds: the memory after the pass and the node destroyed. -/
def Clear_body (this : Nat) (m : Mem T) : Option (Mem T × NodePtr) :=
  match m.next (.sentinel this) with
  | none => none
  | some temp =>
    match m.next temp with
    | none => none
    | some nn =>
      match m.setNext (.sentinel this) nn with
      | none => none
      | some m1 =>
        match m1.delete temp with
        | none => none
        | some m2 => some (m2, temp)

/-- The `while` loop of `Clear()` with a record of the nodes destroyed, one per iteration,
in the order of the iterations. -/
def Clear_loop_trace (this : Nat) : Nat → Mem T → Option (Mem T × List NodePtr)
  | 0, _ => none
  | fuel + 1, m =>
    match m.next (.sentinel this) with
    | none => none
    | some temp =>
      if temp ≠ .null then
        match Clear_body this m with
        | none => none
        | some (m2, d) =>
          match Clear_loop_trace this fuel m2 with
          | none => none
          | some (m3, ds) => some (m3, d :: ds)
      else some (m, [])

/-- A sample memory with a single free cell: list object 0 is `[1, 2, 3]` and list object
1 is `[4, 5]`. -/
def tightMem : Mem Nat :=
  { heap := [some ⟨1, .cell 1⟩, some ⟨2, .cell 2⟩, some ⟨3, .null⟩, some ⟨4, .cell 4⟩,
             some ⟨5, .null⟩, none],
    objs := [⟨⟨0, .cell 0⟩, 3⟩, ⟨⟨0, .cell 3⟩, 2⟩] }

/-- One mutating call on list `this` that returns normally: `PushFront`, `PopFront`,
`InsertAfter` or `EraseAfter` at a valid position, or `Clear`. -/
inductive Mutation (this : Nat) : Mem T → Mem T → Prop
  | pushFront {m m2 : Mem T} (v : T) : PushFront m this v = .done m2 () → Mutation this m m2
  | popFront {m m2 : Mem T} : PopFront m this = some m2 → Mutation this m m2
  | insertAfter {m m2 : Mem T} (pos : NodePtr) (v : T) (r : NodePtr) :
      ValidPos m this pos → InsertAfter m this pos v = .done m2 r → Mutation this m m2
  | eraseAfter {m m2 : Mem T} (pos r : NodePtr) (b : Nat) :
      ValidPos m this pos → m.next pos = some (.cell b) →
      EraseAfter m this pos = some (m2, r) → Mutation this m m2
  | clear {m m2 : Mem T} : Clear m this = some m2 → Mutation this m m2

/-- Any finite sequence of mutating calls on list `this`. -/
inductive Mutations (this : Nat) : Mem T → Mem T → Prop
  | done (m : Mem T) : Mutations this m m
  | step {m m2 m3 : Mem T} : Mutations this m m2 → Mutation this m2 m3 → Mutations this m m3

/-- The memory after copy-constructing the list `{1, 2, 3}` of `builtMem`: the copy is
list object 1. -/
def copiedMem : Mem Nat :=
  { heap := [some ⟨1, .cell 1⟩, some ⟨2, .cell 2⟩, some ⟨3, .null⟩, some ⟨1, .cell 4⟩,
             some ⟨2, .cell 5⟩, some ⟨3, .null⟩, none, none],
    objs := [⟨⟨0, .cell 0⟩, 3⟩, ⟨⟨0, .cell 3⟩, 3⟩] }

/-- The memory after `PushFront(9)` on the copy in `copiedMem`. -/
def pushedMem : Mem Nat :=
  { heap := [some ⟨1, .cell 1⟩, some ⟨2, .cell 2⟩, some ⟨3, .null⟩, some ⟨1, .cell 4⟩,
             some ⟨2, .cell 5⟩, some ⟨3, .null⟩, some ⟨9, .cell 3⟩, none],
    objs := [⟨⟨0, .cell 0⟩, 3⟩, ⟨⟨0, .cell 6⟩, 4⟩] }

/-- An element type whose `operator==` is not reflexive, as for `double`: a finite number
or a NaN, which compares unequal to everything, itself included. -/
inductive Dbl where
  | finite (n : Nat) : Dbl
  | nan : Dbl
  deriving Repr

/-- The `operator==` of `Dbl`: finite numbers compare by value, a NaN equals nothing. -/
def Dbl.eq : Dbl → Dbl → Bool
  | .finite a, .finite b => decide (a = b)
  | _, _ => false

instance instBEqDbl : BEq Dbl := ⟨Dbl.eq⟩

instance instInhabitedDbl : Inhabited Dbl := ⟨.finite 0⟩

/-- A memory of three cells in which list object 0 is the one-element list `[NaN]` and
list object 1 is empty. -/
def nanMem : Mem Dbl :=
  { heap := [some ⟨.nan, .null⟩, none, none],
    objs := [⟨⟨.finite 0, .cell 0⟩, 1⟩, ⟨⟨.finite 0, .null⟩, 0⟩] }

/-- The memory after copy-constructing list 0 of `nanMem`: the copy is list object 2. -/
def nanCopied : Mem Dbl :=
  { heap := [some ⟨.nan, .null⟩, some ⟨.nan, .null⟩, none],
    objs := [⟨⟨.finite 0, .cell 0⟩, 1⟩, ⟨⟨.finite 0, .null⟩, 0⟩, ⟨⟨.finite 0, .cell 1⟩, 1⟩] }

/-- The memory after assigning list 0 of `nanMem` to list 1. -/
def nanAssigned : Mem Dbl :=
  { heap := [some ⟨.nan, .null⟩, some ⟨.nan, .null⟩, none],
    objs := [⟨⟨.finite 0, .cell 0⟩, 1⟩, ⟨⟨.finite 0, .cell 1⟩, 1⟩] }

/-! ## Basic facts about segments -/

theorem addrs_cons (a : Nat) (v : T) (c : List (Nat × T)) : addrs ((a, v) :: c) = a :: addrs c := rfl

theorem vals_cons (a : Nat) (v : T) (c : List (Nat × T)) : vals ((a, v) :: c) = v :: vals c := rfl

theorem addrs_append (c d : List (Nat × T)) : addrs (c ++ d) = addrs c ++ addrs d := by
  simp [addrs]

theorem vals_append (c d : List (Nat × T)) : vals (c ++ d) = vals c ++ vals d := by
  simp [vals]

theorem addrs_length (c : List (Nat × T)) : (addrs c).length = c.length := by
  simp [addrs]

theorem vals_length (c : List (Nat × T)) : (vals c).length = c.length := by
  simp [vals]

/-- Every node of a segment is an allocated cell. -/
theorem IsSeg.allocated {h : List (Option (Node T))} {c : List (Nat × T)} {p q : NodePtr}
    (hs : IsSeg h p c q) {a : Nat} (ha : a ∈ addrs c) : ∃ n, h[a]? = some (some n) := by
  induction c generalizing p with
  | nil => simp [addrs] at ha
  | cons x c ih =>
    obtain ⟨b, v⟩ := x
    obtain ⟨_, nx, hb, hrest⟩ := hs
    rw [addrs_cons, List.mem_cons] at ha
    rcases ha with rfl | ha
    · exact ⟨_, hb⟩
    · exact ih hrest ha

/-- A free cell is on no segment. -/
theorem IsSeg.not_mem_of_free {h : List (Option (Node T))} {c : List (Nat × T)} {p q : NodePtr}
    (hs : IsSeg h p c q) {a : Nat} (ha : h[a]? = some none) : a ∉ addrs c := by
  intro hmem
  obtain ⟨n, hn⟩ := hs.allocated hmem
  rw [ha] at hn
  cases hn

/-- A segment only depends on the cells it goes through. -/
theorem IsSeg.congr {h h2 : List (Option (Node T))} {c : List (Nat × T)} {p q : NodePtr}
    (hs : IsSeg h p c q) (heq : ∀ a, a ∈ addrs c → h2[a]? = h[a]?) : IsSeg h2 p c q := by
  induction c generalizing p with
  | nil => exact hs
  | cons x c ih =>
    obtain ⟨b, v⟩ := x
    obtain ⟨hp, nx, hb, hrest⟩ := hs
    refine ⟨hp, nx, ?_, ih hrest ?_⟩
    · rw [heq b (by simp [addrs])]
      exact hb
    · intro a ha
      exact heq a (by rw [addrs_cons]; exact List.mem_cons_of_mem _ ha)

/-- Writing a cell outside a segment keeps the segment. -/
theorem IsSeg.set_of_not_mem {h : List (Option (Node T))} {c : List (Nat × T)} {p q : NodePtr}
    (hs : IsSeg h p c q) {a : Nat} (ha : a ∉ addrs c) (x : Option (Node T)) :
    IsSeg (h.set a x) p c q := by
  apply hs.congr
  intro b hb
  have hne : a ≠ b := fun e => ha (e ▸ hb)
  exact List.getElem?_set_ne hne

/-- Segments compose. -/
theorem IsSeg.append {h : List (Option (Node T))} {c d : List (Nat × T)} {p r q : NodePtr}
    (h1 : IsSeg h p c r) (h2 : IsSeg h r d q) : IsSeg h p (c ++ d) q := by
  induction c generalizing p with
  | nil =>
    have hp : p = r := h1
    subst hp
    exact h2
  | cons x c ih =>
    obtain ⟨b, v⟩ := x
    obtain ⟨hp, nx, hb, hrest⟩ := h1
    exact ⟨hp, nx, hb, ih hrest⟩

/-- A segment can be cut at any point. -/
theorem IsSeg.split {h : List (Option (Node T))} {c d : List (Nat × T)} {p q : NodePtr}
    (hs : IsSeg h p (c ++ d) q) : ∃ r, IsSeg h p c r ∧ IsSeg h r d q := by
  induction c generalizing p with
  | nil => exact ⟨p, rfl, hs⟩
  | cons x c ih =>
    obtain ⟨b, v⟩ := x
    obtain ⟨hp, nx, hb, hrest⟩ := hs
    obtain ⟨r, hr1, hr2⟩ := ih hrest
    exact ⟨r, ⟨hp, nx, hb, hr1⟩, hr2⟩

/-- The null-terminated chain starting at a pointer is unique. -/
theorem IsSeg.unique {h : List (Option (Node T))} {c d : List (Nat × T)} {p : NodePtr}
    (h1 : IsSeg h p c .null) (h2 : IsSeg h p d .null) : c = d := by
  induction c generalizing p d with
  | nil =>
    have hp : p = .null := h1
    subst hp
    cases d with
    | nil => rfl
    | cons y d =>
      obtain ⟨hp, _⟩ := h2
      cases hp
  | cons x c ih =>
    obtain ⟨b, v⟩ := x
    obtain ⟨hp, nx, hb, hrest⟩ := h1
    subst hp
    cases d with
    | nil =>
      have hp : NodePtr.cell b = .null := h2
      cases hp
    | cons y d =>
      obtain ⟨b2, v2⟩ := y
      obtain ⟨hp, nx2, hb2, hrest2⟩ := h2
      cases hp
      rw [hb] at hb2
      cases hb2
      rw [ih hrest hrest2]

/-- A null-terminated chain never visits a cell twice (it is acyclic). -/
theorem IsSeg.nodup {h : List (Option (Node T))} {c : List (Nat × T)} {p : NodePtr}
    (hs : IsSeg h p c .null) : (addrs c).Nodup := by
  induction c generalizing p with
  | nil => simp [addrs]
  | cons x c ih =>
    obtain ⟨b, v⟩ := x
    obtain ⟨hp, nx, hb, hrest⟩ := hs
    rw [addrs_cons, List.nodup_cons]
    refine ⟨?_, ih hrest⟩
    intro hmem
    obtain ⟨y, hy, hyb⟩ := List.mem_map.1 hmem
    obtain ⟨c1, c2, hc⟩ := List.append_of_mem hy
    obtain ⟨b2, v2⟩ := y
    simp only at hyb
    subst hyb
    rw [hc] at hrest
    obtain ⟨r, _, hr2⟩ := hrest.split
    obtain ⟨_, nx2, hb2, hrest2⟩ := hr2
    rw [hb] at hb2
    cases hb2
    have hlen := congrArg List.length (IsSeg.unique hrest2 hrest)
    simp at hlen
    omega

/-- Distinct numbers below `n` are at most `n` many. -/
theorem length_le_of_nodup_of_lt {l : List Nat} {n : Nat} (hnd : l.Nodup)
    (hlt : ∀ x, x ∈ l → x < n) : l.length ≤ n := by
  have hsub : l.toFinset ⊆ Finset.range n := fun x hx =>
    Finset.mem_range.2 (hlt x (List.mem_toFinset.1 hx))
  have hcard := Finset.card_le_card hsub
  rw [List.toFinset_card_of_nodup hnd, Finset.card_range] at hcard
  exact hcard

theorem lt_length_of_getElem? {α : Type} {h : List α} {a : Nat} {x : α}
    (ha : h[a]? = some x) : a < h.length := by
  obtain ⟨hlt, _⟩ := List.getElem?_eq_some.1 ha
  exact hlt

/-- A chain has no more nodes than the heap has cells. -/
theorem IsSeg.length_le {h : List (Option (Node T))} {c : List (Nat × T)} {p : NodePtr}
    (hs : IsSeg h p c .null) : c.length ≤ h.length := by
  rw [← addrs_length]
  apply length_le_of_nodup_of_lt hs.nodup
  intro a ha
  obtain ⟨n, hn⟩ := hs.allocated ha
  exact lt_length_of_getElem? hn

/-- When some cell is free, a chain has fewer nodes than the heap has cells. -/
theorem IsSeg.length_lt_of_free {h : List (Option (Node T))} {c : List (Nat × T)} {p : NodePtr}
    (hs : IsSeg h p c .null) {f : Nat} (hf : h[f]? = some none) : c.length < h.length := by
  have hnd : (f :: addrs c).Nodup := List.nodup_cons.2 ⟨hs.not_mem_of_free hf, hs.nodup⟩
  have hle := length_le_of_nodup_of_lt (n := h.length) hnd (by
    intro a ha
    rcases List.mem_cons.1 ha with rfl | ha
    · exact lt_length_of_getElem? hf
    · obtain ⟨n, hn⟩ := hs.allocated ha
      exact lt_length_of_getElem? hn)
  simp only [List.length_cons, addrs_length] at hle
  omega

/-! ## The allocator -/

theorem firstFree_some {h : List (Option (Node T))} {a : Nat} (hf : firstFree h = some a) :
    h[a]? = some none := by
  induction h generalizing a with
  | nil => simp [firstFree] at hf
  | cons x h ih =>
    cases x with
    | none =>
      simp only [firstFree, Option.some.injEq] at hf
      subst hf
      simp
    | some n =>
      cases hff : firstFree h with
      | none => simp [firstFree, hff] at hf
      | some b =>
        simp only [firstFree, hff, Option.map_some', Option.some.injEq] at hf
        subst hf
        simpa using ih hff

theorem firstFree_none {h : List (Option (Node T))} (hf : firstFree h = none) (a : Nat) :
    h[a]? ≠ some none := by
  induction h generalizing a with
  | nil => simp
  | cons x h ih =>
    cases x with
    | none => simp [firstFree] at hf
    | some n =>
      cases hff : firstFree h with
      | some b => simp [firstFree, hff] at hf
      | none =>
        cases a with
        | zero => simp
        | succ a => simpa using ih hff a

/-- When a cell is free the allocation succeeds. -/
theorem firstFree_of_free {h : List (Option (Node T))} {f : Nat} (hf : h[f]? = some none) :
    ∃ a, firstFree h = some a := by
  cases hff : firstFree h with
  | none => exact absurd hf (firstFree_none hff f)
  | some a => exact ⟨a, rfl⟩

theorem newNode_eq {m m1 : Mem T} {n : Node T} {a : Nat} (hn : m.newNode n = some (a, m1)) :
    m.heap[a]? = some none ∧ m1 = { m with heap := m.heap.set a (some n) } := by
  unfold Mem.newNode at hn
  cases hff : firstFree m.heap with
  | none => simp [hff] at hn
  | some b =>
    simp only [hff, Option.some.injEq, Prod.mk.injEq] at hn
    obtain ⟨rfl, rfl⟩ := hn
    exact ⟨firstFree_some hff, rfl⟩

theorem newNode_of_free (m : Mem T) (n : Node T) {f : Nat} (hf : m.heap[f]? = some none) :
    ∃ a, m.heap[a]? = some none ∧
      m.newNode n = some (a, { m with heap := m.heap.set a (some n) }) := by
  obtain ⟨a, ha⟩ := firstFree_of_free hf
  exact ⟨a, firstFree_some ha, by simp [Mem.newNode, ha]⟩

theorem newNode_none {m : Mem T} {n : Node T} (hn : m.newNode n = none) (a : Nat) :
    m.heap[a]? ≠ some none := by
  unfold Mem.newNode at hn
  cases hff : firstFree m.heap with
  | none => exact firstFree_none hff a
  | some b => simp [hff] at hn

/-! ## Reading a chain through iterators -/

theorem next_cell {m : Mem T} {a : Nat} {n : Node T} (h : m.heap[a]? = some (some n)) :
    m.next (.cell a) = some n.next_node := by
  simp [Mem.next, Mem.node, h]

theorem value_cell {m : Mem T} {a : Nat} {n : Node T} (h : m.heap[a]? = some (some n)) :
    m.value (.cell a) = some n.value := by
  simp [Mem.value, Mem.node, h]

theorem next_sentinel {m : Mem T} {l : Nat} {o : ListObj T} (h : m.objs[l]? = some o) :
    m.next (.sentinel l) = some o.head_.next_node := by
  simp [Mem.next, Mem.node, h]

theorem size_obj {m : Mem T} {l : Nat} {o : ListObj T} (h : m.objs[l]? = some o) :
    m.size l = some o.size_ := by
  simp [Mem.size, h]

/-- Walking a chain with `++` and `*` until the null iterator visits exactly its values. -/
theorem traverse_chain {m : Mem T} {c : List (Nat × T)} {p : NodePtr}
    (hs : IsSeg m.heap p c .null) {fuel : Nat} (hf : c.length < fuel) :
    traverse m .null fuel p = some (vals c) := by
  induction c generalizing p fuel with
  | nil =>
    have hp : p = .null := hs
    subst hp
    cases fuel with
    | zero => omega
    | succ fuel => simp [traverse, vals]
  | cons x c ih =>
    obtain ⟨b, v⟩ := x
    obtain ⟨hp, nx, hb, hrest⟩ := hs
    subst hp
    cases fuel with
    | zero => omega
    | succ fuel =>
      have hlt : c.length < fuel := by simp at hf; omega
      simp [traverse, deref, incr, value_cell hb, next_cell hb, ih hrest hlt, vals]

/-- Counting the increments to the null iterator gives the number of nodes of the chain. -/
theorem distance_chain {m : Mem T} {c : List (Nat × T)} {p : NodePtr}
    (hs : IsSeg m.heap p c .null) {fuel : Nat} (hf : c.length < fuel) :
    distance m .null fuel p = some c.length := by
  induction c generalizing p fuel with
  | nil =>
    have hp : p = .null := hs
    subst hp
    cases fuel with
    | zero => omega
    | succ fuel => simp [distance]
  | cons x c ih =>
    obtain ⟨b, v⟩ := x
    obtain ⟨hp, nx, hb, hrest⟩ := hs
    subst hp
    cases fuel with
    | zero => omega
    | succ fuel =>
      have hlt : c.length < fuel := by simp at hf; omega
      simp [distance, incr, next_cell hb, ih hrest hlt]

/-! ## Observations on an owned list -/

theorem Owns.chain_unique {m : Mem T} {l : Nat} {c d : List (Nat × T)}
    (h1 : Owns m l c) (h2 : Owns m l d) : c = d := by
  obtain ⟨o, ho, hs, _⟩ := h1
  obtain ⟨o2, ho2, hs2, _⟩ := h2
  rw [ho] at ho2
  cases ho2
  exact hs.unique hs2

theorem Owns.lt_length {m : Mem T} {l : Nat} {c : List (Nat × T)} (h : Owns m l c) :
    l < m.objs.length := by
  obtain ⟨o, ho, _⟩ := h
  exact lt_length_of_getElem? ho

theorem Owns.getSize {m : Mem T} {l : Nat} {c : List (Nat × T)} (h : Owns m l c) :
    GetSize m l = some c.length := by
  obtain ⟨o, ho, _, hsz⟩ := h
  simp [GetSize, size_obj ho, hsz]

theorem Owns.isEmpty {m : Mem T} {l : Nat} {c : List (Nat × T)} (h : Owns m l c) :
    IsEmpty m l = some c.isEmpty := by
  obtain ⟨o, ho, _, hsz⟩ := h
  cases c with
  | nil => simp [IsEmpty, size_obj ho, hsz]
  | cons x c => simp [IsEmpty, size_obj ho, hsz]

/-- On an owned list `begin()` is the first node of the chain (null for the empty chain). -/
theorem Owns.begin_seg {m : Mem T} {l : Nat} {c : List (Nat × T)} (h : Owns m l c) :
    ∃ p, begin_ m l = some p ∧ IsSeg m.heap p c .null := by
  obtain ⟨o, ho, hs, hsz⟩ := h
  cases c with
  | nil =>
    refine ⟨.null, ?_, rfl⟩
    simp [begin_, size_obj ho, hsz]
  | cons x c =>
    refine ⟨o.head_.next_node, ?_, hs⟩
    simp [begin_, size_obj ho, hsz, next_sentinel ho]

theorem Owns.elements {m : Mem T} {l : Nat} {c : List (Nat × T)} (h : Owns m l c) :
    elements m l = some (vals c) := by
  obtain ⟨p, hp, hs⟩ := h.begin_seg
  have hlen := hs.length_le
  simp only [SingleLinkedList.elements, hp, end_]
  exact traverse_chain hs (by omega)

theorem Owns.node_count {m : Mem T} {l : Nat} {c : List (Nat × T)} (h : Owns m l c) :
    node_count m l = some c.length := by
  obtain ⟨o, ho, hs, _⟩ := h
  have hlen := hs.length_le
  simp only [SingleLinkedList.node_count, next_sentinel ho]
  exact distance_chain hs (by omega)

/-! ## Frame reasoning -/

theorem Modifies.refl (A : List Nat) (l : Nat) (m : Mem T) : Modifies A l m m :=
  ⟨rfl, rfl, fun _ _ => rfl, fun _ _ => rfl⟩

theorem Modifies.trans {A B : List Nat} {l : Nat} {m m2 m3 : Mem T}
    (h1 : Modifies A l m m2) (h2 : Modifies B l m2 m3) : Modifies (A ++ B) l m m3 := by
  obtain ⟨a1, a2, a3, a4⟩ := h1
  obtain ⟨b1, b2, b3, b4⟩ := h2
  refine ⟨b1.trans a1, b2.trans a2, ?_, ?_⟩
  · intro a ha
    rw [List.mem_append, not_or] at ha
    rw [b3 a ha.2, a3 a ha.1]
  · intro k hk
    rw [b4 k hk, a4 k hk]

theorem Modifies.mono {A B : List Nat} {l : Nat} {m m2 : Mem T}
    (h : Modifies A l m m2) (hsub : ∀ a, a ∈ A → a ∈ B) : Modifies B l m m2 := by
  obtain ⟨a1, a2, a3, a4⟩ := h
  exact ⟨a1, a2, fun a ha => a3 a (fun hA => ha (hsub a hA)), a4⟩

/-- A list keeps its chain when the memory is modified away from its object and nodes. -/
theorem Owns.frame {A : List Nat} {l k : Nat} {m m2 : Mem T} {c : List (Nat × T)}
    (ho : Owns m k c) (hm : Modifies A l m m2) (hk : k ≠ l)
    (hA : ∀ a, a ∈ addrs c → a ∉ A) : Owns m2 k c := by
  obtain ⟨o, hobj, hs, hsz⟩ := ho
  obtain ⟨_, _, hheap, hobjs⟩ := hm
  refine ⟨o, ?_, ?_, hsz⟩
  · rw [hobjs k hk]
    exact hobj
  · exact hs.congr (fun a ha => hheap a (hA a ha))

theorem setSize_eq {m : Mem T} {l : Nat} {o : ListObj T} (ho : m.objs[l]? = some o) (n : Nat) :
    m.setSize l n = some { m with objs := m.objs.set l { o with size_ := n } } := by
  simp [Mem.setSize, ho]

theorem setNext_sentinel_eq {m : Mem T} {l : Nat} {o : ListObj T} (ho : m.objs[l]? = some o)
    (q : NodePtr) :
    m.setNext (.sentinel l) q =
      some { m with objs := m.objs.set l { o with head_ := { o.head_ with next_node := q } } } := by
  simp [Mem.setNext, ho]

theorem setNext_cell_eq {m : Mem T} {a : Nat} {n : Node T} (ha : m.heap[a]? = some (some n))
    (q : NodePtr) :
    m.setNext (.cell a) q =
      some { m with heap := m.heap.set a (some { n with next_node := q }) } := by
  simp [Mem.setNext, ha]

theorem delete_cell_eq {m : Mem T} {a : Nat} {n : Node T} (ha : m.heap[a]? = some (some n)) :
    m.delete (.cell a) = some { m with heap := m.heap.set a none } := by
  simp [Mem.delete, ha]

theorem getElem?_set_same {α : Type} {h : List α} {a : Nat} {x y : α} (ha : h[a]? = some x) :
    (h.set a y)[a]? = some y :=
  List.getElem?_set_self (lt_length_of_getElem? ha)

/-- Changing only `size_` of an object. -/
theorem Modifies.setSize {m : Mem T} {l : Nat} {o : ListObj T} (n : Nat) :
    Modifies [] l m { m with objs := m.objs.set l { o with size_ := n } } := by
  refine ⟨rfl, by simp, fun _ _ => rfl, ?_⟩
  intro k hk
  exact List.getElem?_set_ne (Ne.symm hk)

/-! ## Positions inside a chain -/

theorem IsSeg.eq_headPtr {h : List (Option (Node T))} {c : List (Nat × T)} {p : NodePtr}
    (hs : IsSeg h p c .null) : p = headPtr c := by
  cases c with
  | nil => exact hs
  | cons x c =>
    obtain ⟨b, v⟩ := x
    exact hs.1

/-- Reading `pos->next_node` at a position of an owned chain gives the rest of the chain. -/
theorem next_at_pos {m : Mem T} {this : Nat} {o : ListObj T} {c1 c2 : List (Nat × T)}
    {pos : NodePtr} (ho : m.objs[this]? = some o)
    (hs : IsSeg m.heap o.head_.next_node (c1 ++ c2) .null) (hp : IsPos this c1 pos) :
    m.next pos = some (headPtr c2) ∧ IsSeg m.heap (headPtr c2) c2 .null := by
  rcases hp with ⟨rfl, rfl⟩ | ⟨c0, b, vb, rfl, rfl⟩
  · have hs2 : IsSeg m.heap o.head_.next_node c2 .null := hs
    rw [next_sentinel ho, ← hs2.eq_headPtr]
    exact ⟨rfl, hs2⟩
  · rw [List.append_assoc] at hs
    obtain ⟨r, _, hr2⟩ := hs.split
    obtain ⟨_, nx, hb, hrest⟩ := hr2
    have hrest2 : IsSeg m.heap nx c2 .null := hrest
    rw [next_cell hb, ← hrest2.eq_headPtr]
    exact ⟨rfl, hrest2⟩

/-- Writing `pos->next_node = q` at a position of an owned chain: the nodes before the
position stay, and whatever chain starts at `q` follows them. -/
theorem setNext_at_pos {m : Mem T} {this : Nat} {o : ListObj T} {c1 c2 : List (Nat × T)}
    {pos : NodePtr} (ho : m.objs[this]? = some o)
    (hs : IsSeg m.heap o.head_.next_node (c1 ++ c2) .null) (hp : IsPos this c1 pos)
    (q : NodePtr) :
    ∃ m2 o2, m.setNext pos q = some m2 ∧ m2.objs[this]? = some o2 ∧ o2.size_ = o.size_ ∧
      Modifies (addrs c1) this m m2 ∧
      ∀ d, IsSeg m.heap q d .null → (∀ a, a ∈ addrs c1 → a ∉ addrs d) →
        IsSeg m2.heap o2.head_.next_node (c1 ++ d) .null := by
  rcases hp with ⟨rfl, rfl⟩ | ⟨c0, b, vb, rfl, rfl⟩
  · refine ⟨_, { o with head_ := { o.head_ with next_node := q } }, setNext_sentinel_eq ho q,
      getElem?_set_same ho, rfl, ?_, ?_⟩
    · refine ⟨rfl, by simp, fun _ _ => rfl, ?_⟩
      intro k hk
      exact List.getElem?_set_ne (Ne.symm hk)
    · intro d hd _
      exact hd
  · have hnd := hs.nodup
    rw [List.append_assoc] at hs
    obtain ⟨r, hr1, hr2⟩ := hs.split
    obtain ⟨hr, nx, hb, _⟩ := hr2
    subst hr
    have hb0 : b ∉ addrs c0 := by
      rw [addrs_append, addrs_append, List.append_assoc] at hnd
      have h2 := (List.nodup_append.1 hnd).2.2
      intro hmem
      exact h2 hmem (by simp [addrs])
    refine ⟨_, o, setNext_cell_eq hb q, ho, rfl, ?_, ?_⟩
    · refine ⟨by simp, rfl, ?_, fun _ _ => rfl⟩
      intro a ha
      have hne : b ≠ a := by
        intro e
        apply ha
        rw [← e]
        simp [addrs]
      exact List.getElem?_set_ne hne
    · intro d hd hdisj
      rw [List.append_assoc]
      refine IsSeg.append (hr1.set_of_not_mem hb0 _) ?_
      refine ⟨rfl, q, getElem?_set_same hb, ?_⟩
      apply hd.set_of_not_mem
      exact hdisj b (by simp [addrs])

/-! ## Effect of `InsertAfter` and `EraseAfter` -/

theorem nodup_disjoint_left {c1 c2 : List (Nat × T)} (hnd : (addrs (c1 ++ c2)).Nodup) :
    ∀ a, a ∈ addrs c1 → a ∉ addrs c2 := by
  rw [addrs_append] at hnd
  intro a h1 h2
  exact (List.nodup_append.1 hnd).2.2 h1 h2

/-- `InsertAfter` at a position of an owned list, with a free cell available: the new
node is linked right after the position. -/
theorem InsertAfter_effect {m : Mem T} {this : Nat} {c1 c2 : List (Nat × T)} {pos : NodePtr}
    (hb : HeapBounded m) (ho : Owns m this (c1 ++ c2)) (hp : IsPos this c1 pos) (v : T)
    {f : Nat} (hfree : m.heap[f]? = some none) :
    ∃ a m2, m.heap[a]? = some none ∧ InsertAfter m this pos v = .done m2 (.cell a) ∧
      Owns m2 this (c1 ++ (a, v) :: c2) ∧ Modifies (a :: addrs c1) this m m2 := by
  obtain ⟨o, hobj, hs, hsz⟩ := ho
  obtain ⟨hnext, hs2⟩ := next_at_pos hobj hs hp
  obtain ⟨a, ha, hnew⟩ := newNode_of_free m ⟨v, headPtr c2⟩ hfree
  have hs1 : IsSeg (m.heap.set a (some ⟨v, headPtr c2⟩)) o.head_.next_node (c1 ++ c2) .null :=
    hs.set_of_not_mem (hs.not_mem_of_free ha) _
  obtain ⟨m2, o2, hset, hobj2, hsz2, hmod2, hseg2⟩ :=
    setNext_at_pos (m := { m with heap := m.heap.set a (some ⟨v, headPtr c2⟩) })
      hobj hs1 hp (.cell a)
  have hd : IsSeg (m.heap.set a (some ⟨v, headPtr c2⟩)) (.cell a) ((a, v) :: c2) .null :=
    ⟨rfl, headPtr c2, getElem?_set_same ha, hs2.set_of_not_mem (hs2.not_mem_of_free ha) _⟩
  have hdisj : ∀ x, x ∈ addrs c1 → x ∉ addrs ((a, v) :: c2) := by
    intro x hx
    rw [addrs_cons, List.mem_cons, not_or]
    refine ⟨?_, nodup_disjoint_left hs.nodup x hx⟩
    rintro rfl
    exact hs.not_mem_of_free ha (by rw [addrs_append]; exact List.mem_append_left _ hx)
  have hseg3 := hseg2 _ hd hdisj
  have hlen : (c1 ++ c2).length + 1 < SIZE_MODULUS := by
    have h1 := hs.length_lt_of_free hfree
    have h2 : m.heap.length < SIZE_MODULUS := hb
    omega
  refine ⟨a, { m2 with objs := m2.objs.set this { o2 with size_ := (o2.size_ + 1) % SIZE_MODULUS } },
    ha, ?_, ?_, ?_⟩
  · simp only [InsertAfter, hnext, hnew, hset, size_obj hobj2, setSize_eq hobj2]
  · refine ⟨_, getElem?_set_same hobj2, hseg3, ?_⟩
    simp only [hsz2, hsz]
    rw [Nat.mod_eq_of_lt hlen]
    simp only [List.length_append, List.length_cons]
    omega
  · have hm1 : Modifies [a] this m { m with heap := m.heap.set a (some ⟨v, headPtr c2⟩) } := by
      refine ⟨by simp, rfl, ?_, fun _ _ => rfl⟩
      intro x hx
      have hne : a ≠ x := fun e => hx (by simp [e])
      exact List.getElem?_set_ne hne
    have hm3 := (hm1.trans hmod2).trans (Modifies.setSize (m := m2) (l := this) (o := o2)
      ((o2.size_ + 1) % SIZE_MODULUS))
    apply hm3.mono
    intro x hx
    simpa using hx

/-- `InsertAfter` when no cell is free: `std::bad_alloc`, memory untouched. -/
theorem InsertAfter_no_memory {m : Mem T} {this : Nat} {c1 c2 : List (Nat × T)} {pos : NodePtr}
    (ho : Owns m this (c1 ++ c2)) (hp : IsPos this c1 pos) (v : T)
    (hfull : ∀ f : Nat, m.heap[f]? ≠ some none) :
    InsertAfter m this pos v = .bad_alloc m := by
  obtain ⟨o, hobj, hs, hsz⟩ := ho
  obtain ⟨hnext, _⟩ := next_at_pos hobj hs hp
  have hnew : m.newNode ⟨v, headPtr c2⟩ = none := by
    cases hn : m.newNode ⟨v, headPtr c2⟩ with
    | none => rfl
    | some r =>
      obtain ⟨a, m1⟩ := r
      exact absurd (newNode_eq hn).1 (hfull a)
  simp only [InsertAfter, hnext, hnew]

/-- `EraseAfter` at a position of an owned list that has a following node `(b, vb)`: the
node is unlinked and its cell released; the returned pointer is the node that followed
it, or null. -/
theorem EraseAfter_effect {m : Mem T} {this : Nat} {c1 c2 : List (Nat × T)} {pos : NodePtr}
    {b : Nat} {vb : T}
    (hb : HeapBounded m) (ho : Owns m this (c1 ++ (b, vb) :: c2)) (hp : IsPos this c1 pos) :
    ∃ m2, EraseAfter m this pos = some (m2, headPtr c2) ∧ Owns m2 this (c1 ++ c2) ∧
      Modifies (b :: addrs c1) this m m2 ∧ m2.heap[b]? = some none := by
  obtain ⟨o, hobj, hs, hsz⟩ := ho
  obtain ⟨hnext0, hs2⟩ := next_at_pos hobj hs hp
  have hnext : m.next pos = some (.cell b) := hnext0
  obtain ⟨_, nx, hcell, hrest⟩ := hs2
  have hnx : nx = headPtr c2 := hrest.eq_headPtr
  subst hnx
  have hnd := hs.nodup
  have hb1 : b ∉ addrs c1 := fun hmem =>
    nodup_disjoint_left hnd b hmem (by simp [addrs])
  have hb2 : b ∉ addrs c2 := by
    rw [addrs_append, addrs_cons] at hnd
    exact (List.nodup_cons.1 (List.nodup_append.1 hnd).2.1).1
  have hdisj : ∀ x, x ∈ addrs c1 → x ∉ addrs c2 := by
    intro x hx hx2
    exact nodup_disjoint_left hnd x hx (by rw [addrs_cons]; exact List.mem_cons_of_mem _ hx2)
  obtain ⟨m1, o1, hset, hobj1, hsz1, hmod1, hseg1⟩ := setNext_at_pos hobj hs hp (headPtr c2)
  have hseg := hseg1 c2 hrest hdisj
  have hcell1 : m1.heap[b]? = some (some ⟨vb, headPtr c2⟩) := by
    rw [hmod1.2.2.1 b hb1]
    exact hcell
  have hbnot : b ∉ addrs (c1 ++ c2) := by
    rw [addrs_append, List.mem_append, not_or]
    exact ⟨hb1, hb2⟩
  have hlen : (c1 ++ c2).length + 1 < SIZE_MODULUS := by
    have h1 := hs.length_le
    have h2 : m.heap.length < SIZE_MODULUS := hb
    simp only [List.length_append, List.length_cons] at h1 ⊢
    omega
  have hobj2 : ({ m1 with heap := m1.heap.set b none } : Mem T).objs[this]? = some o1 := hobj1
  refine ⟨{ m1 with heap := m1.heap.set b none,
                    objs := m1.objs.set this
                      { o1 with size_ := (o1.size_ + SIZE_MODULUS - 1) % SIZE_MODULUS } },
    ?_, ?_, ?_, ?_⟩
  · simp only [EraseAfter, hnext, next_cell hcell, hset, next_cell hcell1, delete_cell_eq hcell1,
      size_obj hobj2, setSize_eq hobj2]
  · refine ⟨_, getElem?_set_same hobj1, hseg.set_of_not_mem hbnot _, ?_⟩
    simp only [hsz1, hsz]
    have e : (c1 ++ (b, vb) :: c2).length = (c1 ++ c2).length + 1 := by
      simp only [List.length_append, List.length_cons]
      omega
    rw [e]
    have e2 : (c1 ++ c2).length + 1 + SIZE_MODULUS - 1 = (c1 ++ c2).length + SIZE_MODULUS := by
      omega
    rw [e2, Nat.add_mod_right, Nat.mod_eq_of_lt (by omega)]
  · obtain ⟨a1, a2, a3, a4⟩ := hmod1
    refine ⟨by simp [a1], by simp [a2], ?_, ?_⟩
    · intro x hx
      rw [List.mem_cons, not_or] at hx
      show (m1.heap.set b none)[x]? = m.heap[x]?
      rw [List.getElem?_set_ne (Ne.symm hx.1)]
      exact a3 x hx.2
    · intro k hk
      show (m1.objs.set this _)[k]? = m.objs[k]?
      rw [List.getElem?_set_ne (Ne.symm hk)]
      exact a4 k hk
  · exact getElem?_set_same hcell1

/-! ## `PushFront` and `PopFront` through the sentinel position -/

/-- `PushFront(value)` does what `InsertAfter(before_begin(), value)` does, without
returning an iterator. -/
theorem PushFront_eq_InsertAfter (m : Mem T) (this : Nat) (v : T) :
    PushFront m this v =
      match InsertAfter m this (before_begin m this) v with
      | .done m2 _ => .done m2 ()
      | .bad_alloc m2 => .bad_alloc m2
      | .undefined => .undefined := by
  simp only [PushFront, InsertAfter, before_begin]
  cases m.next (.sentinel this) with
  | none => rfl
  | some first =>
    simp only
    cases m.newNode ⟨v, first⟩ with
    | none => rfl
    | some r =>
      obtain ⟨a, m1⟩ := r
      simp only
      cases m1.setNext (.sentinel this) (.cell a) with
      | none => rfl
      | some m2 =>
        simp only
        cases m2.size this with
        | none => rfl
        | some sz =>
          simp only
          cases m2.setSize this ((sz + 1) % SIZE_MODULUS) with
          | none => rfl
          | some m3 => rfl

/-- On a list whose first node exists, `PopFront()` does what
`EraseAfter(before_begin())` does, without returning an iterator. -/
theorem PopFront_eq_EraseAfter {m : Mem T} {this b : Nat}
    (h : m.next (.sentinel this) = some (.cell b)) :
    PopFront m this = (EraseAfter m this (before_begin m this)).map Prod.fst := by
  simp only [PopFront, EraseAfter, before_begin, h]
  simp only [ne_eq, reduceCtorEq, not_false_eq_true, if_true]
  cases hn : m.next (.cell b) with
  | none => rfl
  | some nn =>
    simp only
    cases hset : m.setNext (.sentinel this) nn with
    | none => rfl
    | some m1 =>
      have hheap : m1.heap = m.heap := by
        unfold Mem.setNext at hset
        cases ho : m.objs[this]? with
        | none => simp [ho] at hset
        | some o =>
          simp only [ho, Option.some.injEq] at hset
          rw [← hset]
      have hn1 : m1.next (.cell b) = some nn := by
        simp only [Mem.next, Mem.node, hheap] at hn ⊢
        exact hn
      simp only [hn1]
      cases m1.delete (.cell b) with
      | none => rfl
      | some m2 =>
        simp only
        cases m2.size this with
        | none => rfl
        | some sz =>
          simp only
          cases m2.setSize this ((sz + SIZE_MODULUS - 1) % SIZE_MODULUS) with
          | none => rfl
          | some m3 => rfl

theorem IsPos.sentinel (this : Nat) : IsPos (T := T) this [] (.sentinel this) :=
  Or.inl ⟨rfl, rfl⟩

theorem IsPos.last (this : Nat) (c0 : List (Nat × T)) (b : Nat) (vb : T) :
    IsPos this (c0 ++ [(b, vb)]) (.cell b) :=
  Or.inr ⟨c0, b, vb, rfl, rfl⟩

/-- `PushFront` on an owned list with a free cell available. -/
theorem PushFront_effect {m : Mem T} {this : Nat} {c : List (Nat × T)}
    (hb : HeapBounded m) (ho : Owns m this c) (v : T)
    {f : Nat} (hfree : m.heap[f]? = some none) :
    ∃ a m2, m.heap[a]? = some none ∧ PushFront m this v = .done m2 () ∧
      Owns m2 this ((a, v) :: c) ∧ Modifies [a] this m m2 := by
  have ho2 : Owns m this ([] ++ c) := ho
  obtain ⟨a, m2, ha, hins, hown, hmod⟩ :=
    InsertAfter_effect hb ho2 (IsPos.sentinel this) v hfree
  refine ⟨a, m2, ha, ?_, hown, hmod⟩
  rw [PushFront_eq_InsertAfter]
  simp only [before_begin, hins]

/-- `PushFront` when no cell is free: `std::bad_alloc`, memory untouched. -/
theorem PushFront_no_memory {m : Mem T} {this : Nat} {c : List (Nat × T)}
    (ho : Owns m this c) (v : T) (hfull : ∀ f : Nat, m.heap[f]? ≠ some none) :
    PushFront m this v = .bad_alloc m := by
  have ho2 : Owns m this ([] ++ c) := ho
  rw [PushFront_eq_InsertAfter]
  simp only [before_begin, InsertAfter_no_memory ho2 (IsPos.sentinel this) v hfull]

/-- `PopFront` on an owned non-empty list. -/
theorem PopFront_effect {m : Mem T} {this : Nat} {c : List (Nat × T)} {b : Nat} {vb : T}
    (hb : HeapBounded m) (ho : Owns m this ((b, vb) :: c)) :
    ∃ m2, PopFront m this = some m2 ∧ EraseAfter m this (before_begin m this) = some (m2, headPtr c) ∧
      Owns m2 this c ∧ Modifies [b] this m m2 ∧ m2.heap[b]? = some none := by
  have ho2 : Owns m this ([] ++ (b, vb) :: c) := ho
  obtain ⟨m2, her, hown, hmod, hfreed⟩ := EraseAfter_effect hb ho2 (IsPos.sentinel this)
  obtain ⟨o, hobj, hs, _⟩ := ho
  have hfirst : m.next (.sentinel this) = some (.cell b) := by
    rw [next_sentinel hobj, hs.1]
  refine ⟨m2, ?_, her, hown, hmod, hfreed⟩
  rw [PopFront_eq_EraseAfter hfirst]
  simp only [before_begin, her, Option.map_some']

/-- `PopFront` on an owned empty list changes nothing. -/
theorem PopFront_empty {m : Mem T} {this : Nat} (ho : Owns m this []) :
    PopFront m this = some m := by
  obtain ⟨o, hobj, hs, _⟩ := ho
  have hnull : o.head_.next_node = .null := hs
  simp [PopFront, next_sentinel hobj, hnull]

/-! ## Effect of `Clear` and `swap` -/

/-- The loop of `Clear` on a chain `c`, with enough fuel: every node of the chain is
released, front to back, and the sentinel ends up pointing to null. -/
theorem Clear_loop_effect {this : Nat} {c : List (Nat × T)} {m : Mem T} {o : ListObj T}
    {fuel : Nat} (hobj : m.objs[this]? = some o)
    (hs : IsSeg m.heap o.head_.next_node c .null) (hf : c.length < fuel) :
    ∃ m2 o2, Clear_loop this fuel m = some m2 ∧ m2.objs[this]? = some o2 ∧
      o2.head_.next_node = .null ∧ Modifies (addrs c) this m m2 ∧
      ∀ a, a ∈ addrs c → m2.heap[a]? = some none := by
  induction c generalizing m o fuel with
  | nil =>
    have hnull : o.head_.next_node = .null := hs
    cases fuel with
    | zero => omega
    | succ fuel =>
      refine ⟨m, o, ?_, hobj, hnull, Modifies.refl _ _ _, ?_⟩
      · simp [Clear_loop, next_sentinel hobj, hnull]
      · intro a ha
        simp [addrs] at ha
  | cons x c ih =>
    obtain ⟨b, vb⟩ := x
    have hnd := hs.nodup
    obtain ⟨hfirst, nx, hcell, hrest⟩ := hs
    cases fuel with
    | zero => omega
    | succ fuel =>
      have hlt : c.length < fuel := by
        simp only [List.length_cons] at hf
        omega
      have hbc : b ∉ addrs c := (List.nodup_cons.1 hnd).1
      let o1 : ListObj T := { o with head_ := { o.head_ with next_node := nx } }
      let m1 : Mem T := { m with objs := m.objs.set this o1 }
      let m2 : Mem T := { m1 with heap := m1.heap.set b none }
      have hcell1 : m1.heap[b]? = some (some ⟨vb, nx⟩) := hcell
      have hobj2 : m2.objs[this]? = some o1 := getElem?_set_same hobj
      have hs2 : IsSeg m2.heap o1.head_.next_node c .null := hrest.set_of_not_mem hbc _
      obtain ⟨m3, o3, hloop, hobj3, hnull3, hmod3, hfreed3⟩ := ih hobj2 hs2 hlt
      refine ⟨m3, o3, ?_, hobj3, hnull3, ?_, ?_⟩
      · rw [Clear_loop]
        simp only [next_sentinel hobj, hfirst, ne_eq, reduceCtorEq, not_false_eq_true, if_true,
          next_cell hcell, setNext_sentinel_eq hobj]
        rw [delete_cell_eq hcell1]
        exact hloop
      · have hm2 : Modifies [b] this m m2 := by
          refine ⟨by simp [m2, m1], by simp [m2, m1], ?_, ?_⟩
          · intro a ha
            have hne : b ≠ a := fun e => ha (by simp [e])
            exact List.getElem?_set_ne hne
          · intro k hk
            exact List.getElem?_set_ne (Ne.symm hk)
        exact hm2.trans hmod3
      · intro a ha
        rw [addrs_cons, List.mem_cons] at ha
        rcases ha with rfl | ha
        · rw [hmod3.2.2.1 a hbc]
          exact getElem?_set_same hcell1
        · exact hfreed3 a ha

/-- `Clear()` on a live object whose sentinel starts a null-terminated chain (whatever
`size_` holds): the object ends up owning the empty chain and all nodes are released. -/
theorem Clear_effect_of_seg {m : Mem T} {this : Nat} {c : List (Nat × T)} {o : ListObj T}
    (hobj : m.objs[this]? = some o) (hs : IsSeg m.heap o.head_.next_node c .null) :
    ∃ m2, Clear m this = some m2 ∧ Owns m2 this [] ∧ Modifies (addrs c) this m m2 ∧
      ∀ a, a ∈ addrs c → m2.heap[a]? = some none := by
  have hlen := hs.length_le
  have hfuel : c.length < m.heap.length + 1 := by omega
  obtain ⟨m2, o2, hloop, hobj2, hnull, hmod, hfreed⟩ := Clear_loop_effect hobj hs hfuel
  refine ⟨{ m2 with objs := m2.objs.set this { o2 with size_ := 0 } }, ?_, ?_, ?_, hfreed⟩
  · simp only [Clear, hloop, setSize_eq hobj2]
  · exact ⟨_, getElem?_set_same hobj2, hnull, rfl⟩
  · have h := hmod.trans (Modifies.setSize (m := m2) (l := this) (o := o2) 0)
    simpa using h

/-- `Clear()` on an owned list. -/
theorem Clear_effect {m : Mem T} {this : Nat} {c : List (Nat × T)} (ho : Owns m this c) :
    ∃ m2, Clear m this = some m2 ∧ Owns m2 this [] ∧ Modifies (addrs c) this m m2 ∧
      ∀ a, a ∈ addrs c → m2.heap[a]? = some none := by
  obtain ⟨o, hobj, hs, _⟩ := ho
  exact Clear_effect_of_seg hobj hs

/-- `swap` on two live objects: the heap is untouched, the two objects exchange
`head_.next_node` and `size_`, every other object is untouched. -/
theorem swap_objs {m : Mem T} {this other : Nat} {o1 o2 : ListObj T}
    (hobj1 : m.objs[this]? = some o1) (hobj2 : m.objs[other]? = some o2) :
    ∃ m2, swap m this other = some m2 ∧ m2.heap = m.heap ∧
      m2.objs.length = m.objs.length ∧
      m2.objs[this]? = some ⟨{ o1.head_ with next_node := o2.head_.next_node }, o2.size_⟩ ∧
      m2.objs[other]? = some ⟨{ o2.head_ with next_node := o1.head_.next_node }, o1.size_⟩ ∧
      ∀ k, k ≠ this → k ≠ other → m2.objs[k]? = m.objs[k]? := by
  by_cases hne : this = other
  · subst hne
    rw [hobj1] at hobj2
    cases hobj2
    have hlt := lt_length_of_getElem? hobj1
    refine ⟨{ m with objs := m.objs.set this o1 }, ?_, rfl, by simp, ?_, ?_, ?_⟩
    · simp [swap, next_sentinel hobj1, Mem.setNext, Mem.size, Mem.setSize, hobj1, hlt]
    · exact getElem?_set_same hobj1
    · exact getElem?_set_same hobj1
    · intro k hk _
      exact List.getElem?_set_ne (Ne.symm hk)
  · have hne2 : other ≠ this := Ne.symm hne
    let a1 : ListObj T := { o1 with head_ := { o1.head_ with next_node := o2.head_.next_node } }
    let b1 : ListObj T := { o2 with head_ := { o2.head_ with next_node := o1.head_.next_node } }
    let m1 : Mem T := { m with objs := m.objs.set this a1 }
    have e1 : m.setNext (.sentinel this) o2.head_.next_node = some m1 := setNext_sentinel_eq hobj1 _
    have g1 : m1.objs[other]? = some o2 := by
      show (m.objs.set this a1)[other]? = some o2
      rw [List.getElem?_set_ne hne]
      exact hobj2
    let m2 : Mem T := { m1 with objs := m1.objs.set other b1 }
    have e2 : m1.setNext (.sentinel other) o1.head_.next_node = some m2 := setNext_sentinel_eq g1 _
    have g2o : m2.objs[other]? = some b1 := getElem?_set_same g1
    have g2t : m2.objs[this]? = some a1 := by
      show (m1.objs.set other b1)[this]? = some a1
      rw [List.getElem?_set_ne hne2]
      exact getElem?_set_same hobj1
    let a2 : ListObj T := { a1 with size_ := b1.size_ }
    let m3 : Mem T := { m2 with objs := m2.objs.set this a2 }
    have e3 : m2.setSize this b1.size_ = some m3 := setSize_eq g2t _
    have g3o : m3.objs[other]? = some b1 := by
      show (m2.objs.set this a2)[other]? = some b1
      rw [List.getElem?_set_ne hne]
      exact g2o
    have g3t : m3.objs[this]? = some a2 := getElem?_set_same g2t
    let b2 : ListObj T := { b1 with size_ := a1.size_ }
    let m4 : Mem T := { m3 with objs := m3.objs.set other b2 }
    have e4 : m3.setSize other a1.size_ = some m4 := setSize_eq g3o _
    refine ⟨m4, ?_, rfl, by simp [m4, m3, m2, m1], ?_, ?_, ?_⟩
    · simp only [swap, next_sentinel hobj1, next_sentinel hobj2, e1, e2, size_obj g2t,
        size_obj g2o, e3, e4]
    · show (m3.objs.set other b2)[this]? = some a2
      rw [List.getElem?_set_ne hne2]
      exact g3t
    · exact getElem?_set_same g3o
    · intro k hk1 hk2
      show ((((m.objs.set this a1).set other b1).set this a2).set other b2)[k]? = m.objs[k]?
      rw [List.getElem?_set_ne (Ne.symm hk2), List.getElem?_set_ne (Ne.symm hk1),
        List.getElem?_set_ne (Ne.symm hk2), List.getElem?_set_ne (Ne.symm hk1)]

/-- `swap` on two owned lists: the two objects exchange chain and size. -/
theorem swap_effect {m : Mem T} {this other : Nat} {c1 c2 : List (Nat × T)}
    (h1 : Owns m this c1) (h2 : Owns m other c2) :
    ∃ m2, swap m this other = some m2 ∧ m2.heap = m.heap ∧
      m2.objs.length = m.objs.length ∧ Owns m2 this c2 ∧ Owns m2 other c1 ∧
      ∀ k, k ≠ this → k ≠ other → m2.objs[k]? = m.objs[k]? := by
  obtain ⟨o1, hobj1, hs1, hsz1⟩ := h1
  obtain ⟨o2, hobj2, hs2, hsz2⟩ := h2
  obtain ⟨m2, hsw, hheap, hlen, g1, g2, hrest⟩ := swap_objs hobj1 hobj2
  refine ⟨m2, hsw, hheap, hlen, ⟨_, g1, ?_, hsz2⟩, ⟨_, g2, ?_, hsz1⟩, hrest⟩
  · rw [hheap]
    exact hs2
  · rw [hheap]
    exact hs1

/-- Swapping twice gives back the memory one started from. -/
theorem swap_swap {m : Mem T} {this other : Nat} {o1 o2 : ListObj T}
    (hobj1 : m.objs[this]? = some o1) (hobj2 : m.objs[other]? = some o2) :
    ∃ m2, swap m this other = some m2 ∧ swap m2 this other = some m := by
  obtain ⟨m2, hsw, hheap, hlen, g1, g2, hrest⟩ := swap_objs hobj1 hobj2
  obtain ⟨m3, hsw3, hheap3, hlen3, k1, k2, hrest3⟩ := swap_objs g1 g2
  refine ⟨m2, hsw, ?_⟩
  rw [hsw3]
  have hobjs : m3.objs = m.objs := by
    apply List.ext_getElem?
    intro k
    by_cases hk1 : k = this
    · subst hk1
      rw [k1, hobj1]
    · by_cases hk2 : k = other
      · subst hk2
        rw [k2, hobj2]
      · rw [hrest3 k hk1 hk2, hrest k hk1 hk2]
  have hh : m3.heap = m.heap := hheap3.trans hheap
  cases m3
  cases m
  simp only at hobjs hh
  rw [hobjs, hh]

/-! ## Positions by index -/

theorem insertIdx_eq_take_cons_drop {α : Type} (l : List α) (k : Nat) (v : α)
    (hk : k ≤ l.length) : l.insertIdx k v = l.take k ++ v :: l.drop k := by
  induction k generalizing l with
  | zero => simp
  | succ k ih =>
    cases l with
    | nil => simp at hk
    | cons x l =>
      have hk2 : k ≤ l.length := by simpa using hk
      simp [ih l hk2]

theorem vals_take (c : List (Nat × T)) (k : Nat) : vals (c.take k) = (vals c).take k := by
  simp [vals, List.map_take]

theorem vals_drop (c : List (Nat × T)) (k : Nat) : vals (c.drop k) = (vals c).drop k := by
  simp [vals, List.map_drop]

/-- The iterator for position `k` points right after the first `k` nodes. -/
theorem IsPos_posPtr (this : Nat) (c : List (Nat × T)) (k : Nat) (hk : k ≤ c.length) :
    IsPos this (c.take k) (posPtr this c k) := by
  cases k with
  | zero => exact Or.inl ⟨by simp, rfl⟩
  | succ i =>
    have hi : i < c.length := hk
    have hget : c.get? i = some (c.get ⟨i, hi⟩) := List.get?_eq_get hi
    rcases hbv : c.get ⟨i, hi⟩ with ⟨b, vb⟩
    refine Or.inr ⟨c.take i, b, vb, ?_, ?_⟩
    · rw [List.take_succ, ← List.get?_eq_getElem?, hget, hbv]
      rfl
    · simp only [posPtr, hget, hbv]

theorem headPtr_drop (c : List (Nat × T)) (k : Nat) :
    headPtr (c.drop k) = match c.get? k with
      | some (a, _) => .cell a
      | none => .null := by
  by_cases hk : k < c.length
  · rw [List.drop_eq_getElem_cons hk, List.get?_eq_get hk]
    rfl
  · have hk2 : c.length ≤ k := Nat.le_of_not_lt hk
    rw [List.drop_eq_nil_of_le hk2, List.get?_eq_none.2 hk2]
    rfl

/-! ## Free cells -/

theorem getElem_of_getElem? {α : Type} {h : List α} {a : Nat} {x : α} (ha : h[a]? = some x) :
    ∃ hlt : a < h.length, h[a] = x :=
  List.getElem?_eq_some.1 ha

theorem freeCells_le_length (h : List (Option (Node T))) : freeCells h ≤ h.length :=
  List.countP_le_length _

/-- Allocating a free cell uses up one free cell. -/
theorem freeCells_set_alloc {h : List (Option (Node T))} {a : Nat} (ha : h[a]? = some none)
    (n : Node T) : freeCells (h.set a (some n)) + 1 = freeCells h := by
  obtain ⟨hlt, hget⟩ := getElem_of_getElem? ha
  have hpos : 0 < freeCells h := by
    apply List.countP_pos_iff.2
    exact ⟨none, hget ▸ List.getElem_mem hlt, rfl⟩
  unfold freeCells at hpos ⊢
  rw [List.countP_set _ _ _ _ hlt, hget]
  simp only [Option.isNone_none, if_true, Option.isNone_some, Bool.false_eq_true, if_false]
  omega

/-- Overwriting an allocated cell by a node keeps the number of free cells. -/
theorem freeCells_set_same {h : List (Option (Node T))} {a : Nat} {n : Node T}
    (ha : h[a]? = some (some n)) (n2 : Node T) :
    freeCells (h.set a (some n2)) = freeCells h := by
  obtain ⟨hlt, hget⟩ := getElem_of_getElem? ha
  unfold freeCells
  rw [List.countP_set _ _ _ _ hlt, hget]
  simp

/-- A heap without a free cell has zero free cells. -/
theorem freeCells_eq_zero {h : List (Option (Node T))} (hfull : ∀ a : Nat, h[a]? ≠ some none) :
    freeCells h = 0 := by
  unfold freeCells
  apply List.countP_eq_zero.2
  intro x hx
  obtain ⟨i, hi, hget⟩ := List.getElem_of_mem hx
  cases x with
  | some n => simp
  | none =>
    exfalso
    apply hfull i
    rw [List.getElem?_eq_getElem hi, hget]

/-- A heap with a positive number of free cells has a free cell. -/
theorem exists_free_of_freeCells_pos {h : List (Option (Node T))} (hpos : 0 < freeCells h) :
    ∃ f : Nat, h[f]? = some none := by
  by_contra hno
  have hfull : ∀ a : Nat, h[a]? ≠ some none := fun a ha => hno ⟨a, ha⟩
  have := freeCells_eq_zero hfull
  omega

theorem setNext_freeCells {m m2 : Mem T} {p q : NodePtr} (hset : m.setNext p q = some m2) :
    freeCells m2.heap = freeCells m.heap := by
  cases p with
  | null => simp [Mem.setNext] at hset
  | sentinel l =>
    cases ho : m.objs[l]? with
    | none => simp [Mem.setNext, ho] at hset
    | some o =>
      simp only [Mem.setNext, ho, Option.some.injEq] at hset
      rw [← hset]
  | cell a =>
    cases ha : m.heap[a]? with
    | none => simp [Mem.setNext, ha] at hset
    | some x =>
      cases x with
      | none => simp [Mem.setNext, ha] at hset
      | some n =>
        simp only [Mem.setNext, ha, Option.some.injEq] at hset
        rw [← hset]
        exact freeCells_set_same ha _

/-! ## Effect of `CopyRange` on an `initializer_list` -/

/-- The loop of `CopyRange` over the values `vs`, started with the nodes `c1` already
linked and `tail` at their end. Either it completes, having appended fresh nodes holding
`vs` in order, or an allocation fails, in which case only formerly free cells (and the
tail link) were written. It completes whenever there are at least `vs.length` free
cells. -/
theorem CopyRange_loop_values_effect {this : Nat} (vs : List T) {m : Mem T} {o : ListObj T}
    {c1 : List (Nat × T)} {tail : NodePtr} (hobj : m.objs[this]? = some o)
    (hs : IsSeg m.heap o.head_.next_node c1 .null) (hp : IsPos this c1 tail) :
    (∃ m2 o2 cn, CopyRange_loop_values vs m tail = .done m2 () ∧ vals cn = vs ∧
      (∀ a, a ∈ addrs cn → m.heap[a]? = some none) ∧ m2.objs[this]? = some o2 ∧
      o2.size_ = o.size_ ∧ IsSeg m2.heap o2.head_.next_node (c1 ++ cn) .null ∧
      Modifies (addrs c1 ++ addrs cn) this m m2 ∧ vs.length ≤ freeCells m.heap) ∨
    (∃ m2 F, CopyRange_loop_values vs m tail = .bad_alloc m2 ∧
      (∀ a, a ∈ F → m.heap[a]? = some none) ∧ Modifies (addrs c1 ++ F) this m m2 ∧
      freeCells m.heap < vs.length) := by
  induction vs generalizing m o c1 tail with
  | nil =>
    refine Or.inl ⟨m, o, [], rfl, rfl, ?_, hobj, rfl, ?_, Modifies.refl _ _ _, Nat.zero_le _⟩
    · intro a ha
      simp [addrs] at ha
    · rw [List.append_nil]
      exact hs
  | cons v vs ih =>
    cases hnew : m.newNode ⟨v, .null⟩ with
    | none =>
      refine Or.inr ⟨m, [], ?_, ?_, Modifies.refl _ _ _, ?_⟩
      · simp only [CopyRange_loop_values, hnew]
      · intro a ha
        simp at ha
      · rw [freeCells_eq_zero (newNode_none hnew)]
        simp
    | some r =>
      obtain ⟨a, m1⟩ := r
      obtain ⟨ha, hm1⟩ := newNode_eq hnew
      subst hm1
      have hac1 : a ∉ addrs c1 := hs.not_mem_of_free ha
      have hs1 : IsSeg (m.heap.set a (some ⟨v, .null⟩)) o.head_.next_node (c1 ++ []) .null := by
        rw [List.append_nil]
        exact hs.set_of_not_mem hac1 _
      obtain ⟨m2, o2, hset, hobj2, hsz2, hmod2, hseg2⟩ :=
        setNext_at_pos (m := { m with heap := m.heap.set a (some ⟨v, .null⟩) })
          hobj hs1 hp (.cell a)
      have hd : IsSeg (m.heap.set a (some ⟨v, .null⟩)) (.cell a) [(a, v)] .null :=
        ⟨rfl, .null, getElem?_set_same ha, rfl⟩
      have hseg := hseg2 [(a, v)] hd (by
        intro x hx
        simp only [addrs, List.map_cons, List.map_nil, List.mem_singleton]
        rintro rfl
        exact hac1 hx)
      have hnext := (next_at_pos hobj2 hseg hp).1
      have hnext2 : m2.next tail = some (.cell a) := hnext
      have hfc : freeCells m2.heap + 1 = freeCells m.heap := by
        rw [setNext_freeCells hset]
        exact freeCells_set_alloc ha _
      have hm1 : Modifies [a] this m { m with heap := m.heap.set a (some ⟨v, .null⟩) } := by
        refine ⟨by simp, rfl, ?_, fun _ _ => rfl⟩
        intro x hx
        have hne : a ≠ x := fun e => hx (by simp [e])
        exact List.getElem?_set_ne hne
      have hm2 : Modifies ([a] ++ addrs c1) this m m2 := hm1.trans hmod2
      have hfree_back : ∀ x : Nat, m2.heap[x]? = some none → m.heap[x]? = some none := by
        intro x hx
        have hx1 : x ∉ [a] ++ addrs c1 := by
          intro hmem
          have hmem2 : x ∈ addrs (c1 ++ [(a, v)]) := by
            rw [addrs_append]
            rcases List.mem_append.1 hmem with h | h
            · exact List.mem_append_right _ (by simpa [addrs] using h)
            · exact List.mem_append_left _ h
          exact hseg.not_mem_of_free hx hmem2
        rw [← hm2.2.2.1 x hx1]
        exact hx
      rcases ih hobj2 hseg (IsPos.last this c1 a v) with
        ⟨m3, o3, cn, hloop, hvals, hfree, hobj3, hsz3, hseg3, hmod3, hle⟩ |
        ⟨m3, F, hloop, hfree, hmod3, hlt⟩
      · refine Or.inl ⟨m3, o3, (a, v) :: cn, ?_, ?_, ?_, hobj3, hsz3.trans hsz2, ?_, ?_, ?_⟩
        · simp only [CopyRange_loop_values, hnew, hset, hnext2]
          exact hloop
        · rw [vals_cons, hvals]
        · intro x hx
          rw [addrs_cons, List.mem_cons] at hx
          rcases hx with rfl | hx
          · exact ha
          · exact hfree_back x (hfree x hx)
        · rw [List.append_assoc] at hseg3
          exact hseg3
        · apply (hm2.trans hmod3).mono
          intro x hx
          simp only [addrs, List.map_append, List.map_cons, List.map_nil, List.mem_append,
            List.mem_cons, List.not_mem_nil, or_false] at hx ⊢
          tauto
        · simp only [List.length_cons]
          omega
      · refine Or.inr ⟨m3, a :: F, ?_, ?_, ?_, ?_⟩
        · simp only [CopyRange_loop_values, hnew, hset, hnext2]
          exact hloop
        · intro x hx
          rcases List.mem_cons.1 hx with rfl | hx
          · exact ha
          · exact hfree_back x (hfree x hx)
        · apply (hm2.trans hmod3).mono
          intro x hx
          simp only [addrs, List.map_append, List.map_cons, List.map_nil, List.mem_append,
            List.mem_cons, List.not_mem_nil, or_false] at hx ⊢
          tauto
        · simp only [List.length_cons]
          omega

/-- `CopyRange` over the values `vs` on a live object: either it completes and the object
owns fresh nodes holding `vs` in order, or an allocation fails and only formerly free
cells and the object itself were written. -/
theorem CopyRange_values_effect {m : Mem T} {this : Nat} {o : ListObj T}
    (hb : HeapBounded m) (hobj : m.objs[this]? = some o) (vs : List T) :
    (∃ m2 cn, CopyRange_values m this vs = .done m2 () ∧ vals cn = vs ∧
      (∀ a, a ∈ addrs cn → m.heap[a]? = some none) ∧ Owns m2 this cn ∧
      Modifies (addrs cn) this m m2 ∧ vs.length ≤ freeCells m.heap) ∨
    (∃ m2 F, CopyRange_values m this vs = .bad_alloc m2 ∧
      (∀ a, a ∈ F → m.heap[a]? = some none) ∧ Modifies F this m m2 ∧
      freeCells m.heap < vs.length) := by
  let o1 : ListObj T := { o with head_ := { o.head_ with next_node := .null } }
  let m1 : Mem T := { m with objs := m.objs.set this o1 }
  have e1 : m.setNext (.sentinel this) .null = some m1 := setNext_sentinel_eq hobj _
  have hobj1 : m1.objs[this]? = some o1 := getElem?_set_same hobj
  let o2 : ListObj T := { o1 with size_ := 0 }
  let m2 : Mem T := { m1 with objs := m1.objs.set this o2 }
  have e2 : m1.setSize this 0 = some m2 := setSize_eq hobj1 _
  have hobj2 : m2.objs[this]? = some o2 := getElem?_set_same hobj1
  have hm02 : Modifies [] this m m2 := by
    refine ⟨rfl, by simp [m2, m1], fun _ _ => rfl, ?_⟩
    intro k hk
    show ((m.objs.set this o1).set this o2)[k]? = m.objs[k]?
    rw [List.getElem?_set_ne (Ne.symm hk), List.getElem?_set_ne (Ne.symm hk)]
  have hs2 : IsSeg m2.heap o2.head_.next_node [] .null := rfl
  rcases CopyRange_loop_values_effect vs hobj2 hs2 (IsPos.sentinel this) with
    ⟨m3, o3, cn, hloop, hvals, hfree, hobj3, hsz3, hseg3, hmod3, hle⟩ |
    ⟨m3, F, hloop, hfree, hmod3, hlt⟩
  · have hlen : vs.length < SIZE_MODULUS := by
      have h1 := freeCells_le_length m.heap
      have h2 : m.heap.length < SIZE_MODULUS := hb
      have h3 : vs.length ≤ freeCells m.heap := hle
      omega
    refine Or.inl ⟨{ m3 with objs := m3.objs.set this { o3 with size_ := vs.length % SIZE_MODULUS } },
      cn, ?_, hvals, hfree, ⟨_, getElem?_set_same hobj3, hseg3, ?_⟩, ?_, hle⟩
    · simp only [CopyRange_values, e1, e2, hloop, setSize_eq hobj3]
    · show vs.length % SIZE_MODULUS = cn.length
      rw [Nat.mod_eq_of_lt hlen, ← hvals, vals_length]
    · have h := (hm02.trans hmod3).trans
        (Modifies.setSize (m := m3) (l := this) (o := o3) (vs.length % SIZE_MODULUS))
      apply h.mono
      intro x hx
      simpa [addrs] using hx
  · refine Or.inr ⟨m3, F, ?_, hfree, ?_, hlt⟩
    · simp only [CopyRange_values, e1, e2, hloop]
    · apply (hm02.trans hmod3).mono
      intro x hx
      simpa [addrs] using hx

/-! ## New and released objects -/

theorem newObject_objs_lt [Inhabited T] (m : Mem T) {k : Nat} (hk : k < m.objs.length) :
    (newObject m).objs[k]? = m.objs[k]? :=
  List.getElem?_append_left hk

theorem newObject_objs_last [Inhabited T] (m : Mem T) :
    (newObject m).objs[m.objs.length]? = some ⟨⟨default, .null⟩, 0⟩ :=
  List.getElem?_concat_length _ _

theorem newObject_length [Inhabited T] (m : Mem T) :
    (newObject m).objs.length = m.objs.length + 1 := by
  simp [newObject]

/-- The lists of a memory are still there after a new object is created. -/
theorem Owns.newObject [Inhabited T] {m : Mem T} {k : Nat} {c : List (Nat × T)}
    (h : Owns m k c) : Owns (newObject m) k c := by
  obtain ⟨o, hobj, hs, hsz⟩ := h
  refine ⟨o, ?_, hs, hsz⟩
  rw [newObject_objs_lt m (lt_length_of_getElem? hobj)]
  exact hobj

/-- A freshly created object owns the empty chain. -/
theorem newObject_owns [Inhabited T] (m : Mem T) : Owns (newObject m) m.objs.length [] :=
  ⟨_, newObject_objs_last m, rfl, rfl⟩

theorem dropObject_newObject_objs [Inhabited T] {m m2 : Mem T} {A : List Nat}
    (hmod : Modifies A m.objs.length (newObject m) m2) : (dropObject m2).objs = m.objs := by
  obtain ⟨_, hlen, _, hobjs⟩ := hmod
  rw [newObject_length] at hlen
  apply List.ext_getElem?
  intro k
  show m2.objs.dropLast[k]? = m.objs[k]?
  rw [List.getElem?_dropLast, hlen]
  by_cases hk : k < m.objs.length
  · have hk2 : k < m.objs.length + 1 - 1 := by omega
    rw [if_pos hk2, hobjs k (Nat.ne_of_lt hk), newObject_objs_lt m hk]
  · have hk2 : ¬ k < m.objs.length + 1 - 1 := by omega
    rw [if_neg hk2, List.getElem?_eq_none (Nat.le_of_not_lt hk)]

/-- The constructor from an `initializer_list`. Either it completes and the new object
owns fresh nodes holding `vs` in order, all older objects and all formerly allocated
cells being untouched; or an allocation fails, no object is created and only formerly
free cells were written. It completes whenever there are at least `vs.length` free
cells. -/
theorem construct_values_cases [Inhabited T] {m : Mem T} (hb : HeapBounded m) (vs : List T) :
    (∃ m2 cn, construct_values m vs = .done m2 m.objs.length ∧ vals cn = vs ∧
      (∀ a, a ∈ addrs cn → m.heap[a]? = some none) ∧ Owns m2 m.objs.length cn ∧
      Modifies (addrs cn) m.objs.length (newObject m) m2 ∧ vs.length ≤ freeCells m.heap) ∨
    (∃ m2, construct_values m vs = .bad_alloc m2 ∧ m2.objs = m.objs ∧
      m2.heap.length = m.heap.length ∧
      (∀ a : Nat, m2.heap[a]? = m.heap[a]? ∨ m.heap[a]? = some none) ∧
      freeCells m.heap < vs.length) := by
  have hb0 : HeapBounded (newObject m) := hb
  rcases CopyRange_values_effect hb0 (newObject_objs_last m) vs with
    ⟨m2, cn, hcopy, hvals, hfree, hown, hmod, hle⟩ | ⟨m2, F, hcopy, hfree, hmod, hlt⟩
  · refine Or.inl ⟨m2, cn, ?_, hvals, hfree, hown, hmod, hle⟩
    simp only [construct_values, hcopy]
  · refine Or.inr ⟨dropObject m2, ?_, dropObject_newObject_objs hmod, hmod.1, ?_, hlt⟩
    · simp only [construct_values, hcopy]
    · intro a
      by_cases ha : a ∈ F
      · exact Or.inr (hfree a ha)
      · exact Or.inl (hmod.2.2.1 a ha)

theorem construct_values_effect [Inhabited T] {m : Mem T} (hb : HeapBounded m) (vs : List T)
    (hmem : vs.length ≤ freeCells m.heap) :
    ∃ m2 cn, construct_values m vs = .done m2 m.objs.length ∧ vals cn = vs ∧
      (∀ a, a ∈ addrs cn → m.heap[a]? = some none) ∧ Owns m2 m.objs.length cn ∧
      Modifies (addrs cn) m.objs.length (newObject m) m2 := by
  rcases construct_values_cases hb vs with
    ⟨m2, cn, hcons, hvals, hfree, hown, hmod, _⟩ | ⟨m2, _, _, _, _, hlt⟩
  · exact ⟨m2, cn, hcons, hvals, hfree, hown, hmod⟩
  · omega

/-! ## Copying from another list -/

theorem next_setNext_same {m m2 : Mem T} {p q : NodePtr} (hset : m.setNext p q = some m2) :
    m2.next p = some q := by
  cases p with
  | null => simp [Mem.setNext] at hset
  | sentinel l =>
    cases ho : m.objs[l]? with
    | none => simp [Mem.setNext, ho] at hset
    | some o =>
      simp only [Mem.setNext, ho, Option.some.injEq] at hset
      subst hset
      have h : (m.objs.set l { o with head_ := { o.head_ with next_node := q } })[l]? =
          some { o with head_ := { o.head_ with next_node := q } } := getElem?_set_same ho
      simp [Mem.next, Mem.node, h]
  | cell a =>
    cases ha : m.heap[a]? with
    | none => simp [Mem.setNext, ha] at hset
    | some x =>
      cases x with
      | none => simp [Mem.setNext, ha] at hset
      | some n =>
        simp only [Mem.setNext, ha, Option.some.injEq] at hset
        subst hset
        have h : (m.heap.set a (some { n with next_node := q }))[a]? =
            some (some { n with next_node := q }) := getElem?_set_same ha
        simp [Mem.next, Mem.node, h]

theorem setNext_heap_other {m m2 : Mem T} {p q : NodePtr} (hset : m.setNext p q = some m2)
    (x : Nat) (hx : p ≠ .cell x) : m2.heap[x]? = m.heap[x]? := by
  cases p with
  | null => simp [Mem.setNext] at hset
  | sentinel l =>
    cases ho : m.objs[l]? with
    | none => simp [Mem.setNext, ho] at hset
    | some o =>
      simp only [Mem.setNext, ho, Option.some.injEq] at hset
      subst hset
      rfl
  | cell a =>
    cases ha : m.heap[a]? with
    | none => simp [Mem.setNext, ha] at hset
    | some y =>
      cases y with
      | none => simp [Mem.setNext, ha] at hset
      | some n =>
        simp only [Mem.setNext, ha, Option.some.injEq] at hset
        subst hset
        have hne : a ≠ x := fun e => hx (by rw [e])
        exact List.getElem?_set_ne hne

/-- Copying a chain through list iterators runs exactly like copying its values from an
array, as long as the tail being written is not a node of the source chain. -/
theorem CopyRange_loop_eq_values {c : List (Nat × T)} {m : Mem T} {it tail : NodePtr}
    {fuel : Nat} (hs : IsSeg m.heap it c .null) (htail : ∀ a, a ∈ addrs c → tail ≠ .cell a)
    (hf : c.length < fuel) :
    CopyRange_loop .null fuel m it tail = CopyRange_loop_values (vals c) m tail := by
  induction c generalizing m it tail fuel with
  | nil =>
    have hp : it = .null := hs
    subst hp
    cases fuel with
    | zero => omega
    | succ fuel => simp [CopyRange_loop, CopyRange_loop_values, vals]
  | cons x c ih =>
    obtain ⟨b, vb⟩ := x
    obtain ⟨hp, nx, hb, hrest⟩ := hs
    subst hp
    cases fuel with
    | zero => omega
    | succ fuel =>
      have hlt : c.length < fuel := by
        simp only [List.length_cons] at hf
        omega
      simp only [CopyRange_loop, ne_eq, reduceCtorEq, not_false_eq_true, if_true, deref,
        value_cell hb, vals_cons, CopyRange_loop_values]
      cases hnew : m.newNode ⟨vb, .null⟩ with
      | none => rfl
      | some r =>
        obtain ⟨a, m1⟩ := r
        obtain ⟨ha, hm1⟩ := newNode_eq hnew
        simp only
        cases hset : m1.setNext tail (.cell a) with
        | none => rfl
        | some m2 =>
          simp only [next_setNext_same hset]
          have hheap : ∀ x, x ∈ addrs ((b, vb) :: c) → m2.heap[x]? = m.heap[x]? := by
            intro x hx
            rw [setNext_heap_other hset x (htail x hx), hm1]
            have hne : a ≠ x := by
              rintro rfl
              obtain ⟨n, hn⟩ := IsSeg.allocated (c := (b, vb) :: c) ⟨rfl, nx, hb, hrest⟩ hx
              rw [ha] at hn
              cases hn
            exact List.getElem?_set_ne hne
          have hb2 : m2.heap[b]? = some (some ⟨vb, nx⟩) := by
            rw [hheap b (by simp [addrs])]
            exact hb
          simp only [incr, ne_eq, reduceCtorEq, not_false_eq_true, if_true, next_cell hb2]
          apply ih
          · apply hrest.congr
            intro x hx
            exact hheap x (by rw [addrs_cons]; exact List.mem_cons_of_mem _ hx)
          · intro x hx he
            cases he
            exact hrest.not_mem_of_free ha hx
          · exact hlt

/-- `CopyRange` from the iterators of a chain does what `CopyRange` from the array of its
values does. -/
theorem CopyRange_eq_values {m : Mem T} {this : Nat} {o : ListObj T} {c : List (Nat × T)}
    {first : NodePtr} (hobj : m.objs[this]? = some o)
    (hs : IsSeg m.heap first c .null) :
    CopyRange m this first .null = CopyRange_values m this (vals c) := by
  let o1 : ListObj T := { o with head_ := { o.head_ with next_node := .null } }
  let m1 : Mem T := { m with objs := m.objs.set this o1 }
  have e1 : m.setNext (.sentinel this) .null = some m1 := setNext_sentinel_eq hobj _
  have hobj1 : m1.objs[this]? = some o1 := getElem?_set_same hobj
  let o2 : ListObj T := { o1 with size_ := 0 }
  let m2 : Mem T := { m1 with objs := m1.objs.set this o2 }
  have e2 : m1.setSize this 0 = some m2 := setSize_eq hobj1 _
  have hobj2 : m2.objs[this]? = some o2 := getElem?_set_same hobj1
  have hs2 : IsSeg m2.heap first c .null := hs
  have hlen := hs.length_le
  have hfuel : c.length < m2.heap.length + 1 := by
    show c.length < m.heap.length + 1
    omega
  have hloop : CopyRange_loop .null (m2.heap.length + 1) m2 first (.sentinel this) =
      CopyRange_loop_values (vals c) m2 (.sentinel this) :=
    CopyRange_loop_eq_values hs2 (fun a _ he => by cases he) hfuel
  simp only [CopyRange, CopyRange_values, e1, e2, hloop]
  have hseg0 : IsSeg m2.heap o2.head_.next_node [] .null := rfl
  rcases CopyRange_loop_values_effect (vals c) hobj2 hseg0 (IsPos.sentinel this) with
    ⟨m3, o3, cn, hl, _, hfree, hobj3, _, _, hmod3, _⟩ | ⟨m3, F, hl, _, _, _⟩
  · rw [hl]
    have hs3 : IsSeg m3.heap first c .null := by
      apply hs2.congr
      intro a ha
      apply hmod3.2.2.1
      intro hmem
      simp only [addrs, List.map_nil, List.nil_append] at hmem
      have hfr := hfree a hmem
      obtain ⟨n, hn⟩ := hs2.allocated ha
      rw [hfr] at hn
      cases hn
    have hd : distance m3 .null (m3.heap.length + 1) first = some c.length := by
      apply distance_chain hs3
      have := hs3.length_le
      omega
    simp only [hd, vals_length]
  · rw [hl]

/-- The copy constructor from an owned list does what the constructor from the array of
its elements does. -/
theorem construct_copy_eq_values_of_new [Inhabited T] {m : Mem T} {other : Nat}
    {c : List (Nat × T)} (ho : Owns (newObject m) other c) :
    construct_copy m other = construct_values m (vals c) := by
  obtain ⟨p, hp, hs⟩ := ho.begin_seg
  simp only [construct_copy, construct_values, hp, end_,
    CopyRange_eq_values (newObject_objs_last m) hs]

theorem construct_copy_eq_values [Inhabited T] {m : Mem T} {other : Nat} {c : List (Nat × T)}
    (ho : Owns m other c) :
    construct_copy m other = construct_values m (vals c) :=
  construct_copy_eq_values_of_new ho.newObject

/-! ## Preservation of the invariant -/

theorem Inv.owns {m : Mem T} (h : Inv m) {l : Nat} (hl : l < m.objs.length) :
    ∃ c, Owns m l c := by
  obtain ⟨_, f, hf, _⟩ := h
  exact ⟨f l, hf l hl⟩

theorem Inv.disjoint {m : Mem T} (h : Inv m) {l1 l2 : Nat} {c1 c2 : List (Nat × T)}
    (h1 : Owns m l1 c1) (h2 : Owns m l2 c2) (hne : l1 ≠ l2) :
    ∀ a, a ∈ addrs c1 → a ∉ addrs c2 := by
  obtain ⟨_, f, hf, hdis⟩ := h
  have e1 := (hf l1 h1.lt_length).chain_unique h1
  have e2 := (hf l2 h2.lt_length).chain_unique h2
  rw [← e1, ← e2]
  exact hdis l1 l2 h1.lt_length h2.lt_length hne

/-- The invariant follows from a description of every object's chain by its own
pairwise-disjoint data. -/
theorem Inv.of_chains {m : Mem T} (hb : HeapBounded m) (f : Nat → List (Nat × T))
    (hf : ∀ l, l < m.objs.length → Owns m l (f l))
    (hdis : ∀ l1 l2, l1 < m.objs.length → l2 < m.objs.length → l1 ≠ l2 →
      ∀ a, a ∈ addrs (f l1) → a ∉ addrs (f l2)) : Inv m :=
  ⟨hb, f, hf, hdis⟩

/-- An operation that rewrites one list, touching only that list's object, its nodes
and formerly free cells, keeps the invariant. -/
theorem Inv.step {m m2 : Mem T} {this : Nat} {c c2 : List (Nat × T)} {A : List Nat}
    (hinv : Inv m) (ho : Owns m this c) (ho2 : Owns m2 this c2) (hmod : Modifies A this m m2)
    (hA : ∀ a, a ∈ A → a ∈ addrs c ∨ m.heap[a]? = some none)
    (hc2 : ∀ a, a ∈ addrs c2 → a ∈ addrs c ∨ m.heap[a]? = some none) : Inv m2 := by
  obtain ⟨hb, f, hf, hdis⟩ := hinv
  have hinv : Inv m := ⟨hb, f, hf, hdis⟩
  have hthis := ho.lt_length
  have hlen : m2.objs.length = m.objs.length := hmod.2.1
  have hkeep : ∀ l, l < m.objs.length → l ≠ this → ∀ a, (a ∈ addrs c ∨ m.heap[a]? = some none) →
      a ∉ addrs (f l) := by
    intro l hl hne a ha hmem
    rcases ha with ha | ha
    · exact hinv.disjoint ho (hf l hl) (Ne.symm hne) a ha hmem
    · obtain ⟨o, _, hs, _⟩ := hf l hl
      exact hs.not_mem_of_free ha hmem
  refine Inv.of_chains ?_ (fun l => if l = this then c2 else f l) ?_ ?_
  · show m2.heap.length < SIZE_MODULUS
    rw [hmod.1]
    exact hb
  · intro l hl
    beta_reduce
    rw [hlen] at hl
    by_cases hlt : l = this
    · rw [if_pos hlt, hlt]
      exact ho2
    · rw [if_neg hlt]
      apply (hf l hl).frame hmod hlt
      intro a ha hAa
      exact hkeep l hl hlt a (hA a hAa) ha
  · intro l1 l2 h1 h2 hne a ha
    beta_reduce at ha ⊢
    rw [hlen] at h1 h2
    by_cases e1 : l1 = this
    · have e2 : l2 ≠ this := fun e => hne (e1.trans e.symm)
      rw [if_pos e1] at ha
      rw [if_neg e2]
      exact hkeep l2 h2 e2 a (hc2 a ha)
    · rw [if_neg e1] at ha
      by_cases e2 : l2 = this
      · rw [if_pos e2]
        intro hmem
        exact hkeep l1 h1 e1 a (hc2 a hmem) ha
      · rw [if_neg e2]
        exact hdis l1 l2 h1 h2 hne a ha

/-- Writing only formerly free cells (a leak) keeps the invariant. -/
theorem Inv.leak {m m2 : Mem T} (hinv : Inv m) (hobjs : m2.objs = m.objs)
    (hlen : m2.heap.length = m.heap.length)
    (hheap : ∀ a : Nat, m2.heap[a]? = m.heap[a]? ∨ m.heap[a]? = some none) : Inv m2 := by
  obtain ⟨hb, f, hf, hdis⟩ := hinv
  refine Inv.of_chains ?_ f ?_ ?_
  · show m2.heap.length < SIZE_MODULUS
    rw [hlen]
    exact hb
  · intro l hl
    rw [hobjs] at hl
    obtain ⟨o, hobj, hs, hsz⟩ := hf l hl
    refine ⟨o, by rw [hobjs]; exact hobj, ?_, hsz⟩
    apply hs.congr
    intro a ha
    rcases hheap a with h | h
    · exact h
    · exact absurd ha (hs.not_mem_of_free h)
  · intro l1 l2 h1 h2
    rw [hobjs] at h1 h2
    exact hdis l1 l2 h1 h2

/-- Creating a new (empty) object keeps the invariant. -/
theorem Inv.of_newObject [Inhabited T] {m : Mem T} (hinv : Inv m) : Inv (newObject m) := by
  obtain ⟨hb, f, hf, hdis⟩ := hinv
  refine Inv.of_chains hb (fun l => if l = m.objs.length then [] else f l) ?_ ?_
  · intro l hl
    beta_reduce
    rw [newObject_length] at hl
    by_cases e : l = m.objs.length
    · rw [if_pos e, e]
      exact newObject_owns m
    · rw [if_neg e]
      exact (hf l (by omega)).newObject
  · intro l1 l2 h1 h2 hne a ha
    beta_reduce at ha ⊢
    rw [newObject_length] at h1 h2
    by_cases e1 : l1 = m.objs.length
    · rw [if_pos e1] at ha
      simp [addrs] at ha
    · rw [if_neg e1] at ha
      by_cases e2 : l2 = m.objs.length
      · rw [if_pos e2]
        simp [addrs]
      · rw [if_neg e2]
        exact hdis l1 l2 (by omega) (by omega) hne a ha

/-- Releasing the storage of the last object keeps the invariant. -/
theorem Inv.of_dropObject {m : Mem T} (hinv : Inv m) : Inv (dropObject m) := by
  obtain ⟨hb, f, hf, hdis⟩ := hinv
  have hlen : (SingleLinkedList.dropObject m).objs.length = m.objs.length - 1 := by
    simp [SingleLinkedList.dropObject]
  refine Inv.of_chains hb f ?_ ?_
  · intro l hl
    rw [hlen] at hl
    obtain ⟨o, hobj, hs, hsz⟩ := hf l (by omega)
    refine ⟨o, ?_, hs, hsz⟩
    show m.objs.dropLast[l]? = some o
    rw [List.getElem?_dropLast, if_pos hl]
    exact hobj
  · intro l1 l2 h1 h2
    rw [hlen] at h1 h2
    exact hdis l1 l2 (by omega) (by omega)

/-- `swap` keeps the invariant. -/
theorem Inv.of_swap {m m2 : Mem T} {a b : Nat} (hinv : Inv m) (hsw : swap m a b = some m2) :
    Inv m2 := by
  have hla : a < m.objs.length := by
    cases ho : m.objs[a]? with
    | some o => exact lt_length_of_getElem? ho
    | none => simp [SingleLinkedList.swap, Mem.next, Mem.node, ho] at hsw
  have hlb : b < m.objs.length := by
    cases ho : m.objs[b]? with
    | some o => exact lt_length_of_getElem? ho
    | none => simp [SingleLinkedList.swap, Mem.next, Mem.node, ho] at hsw
  obtain ⟨ca, hca⟩ := hinv.owns hla
  obtain ⟨cb, hcb⟩ := hinv.owns hlb
  obtain ⟨m3, hsw3, hheap, hlen, h2a, h2b, hrest⟩ := swap_effect hca hcb
  rw [hsw] at hsw3
  cases hsw3
  obtain ⟨hb, f, hf, hdis⟩ := hinv
  have ea : f a = ca := (hf a hla).chain_unique hca
  have eb : f b = cb := (hf b hlb).chain_unique hcb
  let g : Nat → Nat := fun l => if l = a then b else if l = b then a else l
  have hg_lt : ∀ l, l < m.objs.length → g l < m.objs.length := by
    intro l hl
    show (if l = a then b else if l = b then a else l) < m.objs.length
    split_ifs <;> assumption
  have hg_inj : ∀ l1 l2, l1 ≠ l2 → g l1 ≠ g l2 := by
    intro l1 l2 hne
    show (if l1 = a then b else if l1 = b then a else l1) ≠
      (if l2 = a then b else if l2 = b then a else l2)
    split_ifs <;> omega
  refine Inv.of_chains ?_ (fun l => f (g l)) ?_ ?_
  · show m2.heap.length < SIZE_MODULUS
    rw [hheap]
    exact hb
  · intro l hl
    rw [hlen] at hl
    show Owns m2 l (f (if l = a then b else if l = b then a else l))
    by_cases e1 : l = a
    · rw [if_pos e1, eb, e1]
      exact h2a
    · rw [if_neg e1]
      by_cases e2 : l = b
      · rw [if_pos e2, ea, e2]
        exact h2b
      · rw [if_neg e2]
        obtain ⟨o, hobj, hs, hsz⟩ := hf l hl
        refine ⟨o, ?_, ?_, hsz⟩
        · rw [hrest l e1 e2]
          exact hobj
        · rw [hheap]
          exact hs
  · intro l1 l2 h1 h2 hne
    rw [hlen] at h1 h2
    exact hdis (g l1) (g l2) (hg_lt l1 h1) (hg_lt l2 h2) (hg_inj l1 l2 hne)

theorem next_sentinel_lt {m : Mem T} {l : Nat} {x : NodePtr}
    (h : m.next (.sentinel l) = some x) : l < m.objs.length := by
  cases ho : m.objs[l]? with
  | some o => exact lt_length_of_getElem? ho
  | none => simp [Mem.next, Mem.node, ho] at h

theorem InsertAfter_bad_alloc_eq {m m2 : Mem T} {this : Nat} {pos : NodePtr} {v : T}
    (h : InsertAfter m this pos v = .bad_alloc m2) : m2 = m := by
  unfold InsertAfter at h
  repeat' split at h
  all_goals first
    | (cases h; rfl)
    | cases h

theorem PushFront_bad_alloc_eq {m m2 : Mem T} {this : Nat} {v : T}
    (h : PushFront m this v = .bad_alloc m2) : m2 = m := by
  unfold PushFront at h
  repeat' split at h
  all_goals first
    | (cases h; rfl)
    | cases h

/-- A valid position of a list of a well-formed memory cuts its chain in two. -/
theorem ValidPos.isPos {m : Mem T} {this : Nat} {pos : NodePtr} (hinv : Inv m)
    (hv : ValidPos m this pos) (hthis : this < m.objs.length) :
    ∃ c1 c2, Owns m this (c1 ++ c2) ∧ IsPos this c1 pos := by
  rcases hv with rfl | ⟨c, a, ho, ha, rfl⟩
  · obtain ⟨c, hc⟩ := hinv.owns hthis
    exact ⟨[], c, hc, IsPos.sentinel this⟩
  · obtain ⟨y, hy, hya⟩ := List.mem_map.1 ha
    obtain ⟨c0, c2, hc⟩ := List.append_of_mem hy
    obtain ⟨a2, v⟩ := y
    simp only at hya
    subst hya
    refine ⟨c0 ++ [(a2, v)], c2, ?_, IsPos.last this c0 a2 v⟩
    rw [List.append_assoc]
    rw [hc] at ho
    exact ho

theorem Inv.of_InsertAfter {m m2 : Mem T} {this : Nat} {pos r : NodePtr} {v : T}
    (hinv : Inv m) (hv : ValidPos m this pos) (h : InsertAfter m this pos v = .done m2 r) :
    Inv m2 := by
  have hthis : this < m.objs.length := by
    rcases hv with rfl | ⟨c, a, ho, _, _⟩
    · cases hn : m.next (.sentinel this) with
      | some x => exact next_sentinel_lt hn
      | none => simp [InsertAfter, hn] at h
    · exact ho.lt_length
  obtain ⟨c1, c2, ho, hp⟩ := hv.isPos hinv hthis
  by_cases hfree : ∃ f : Nat, m.heap[f]? = some none
  · obtain ⟨f, hf⟩ := hfree
    obtain ⟨a, m3, ha, hins, hown, hmod⟩ := InsertAfter_effect hinv.1 ho hp v hf
    rw [h] at hins
    cases hins
    apply hinv.step ho hown hmod
    · intro x hx
      rcases List.mem_cons.1 hx with rfl | hx
      · exact Or.inr ha
      · exact Or.inl (by rw [addrs_append]; exact List.mem_append_left _ hx)
    · intro x hx
      simp only [addrs, List.map_append, List.map_cons, List.mem_append, List.mem_cons] at hx ⊢
      rcases hx with hx | rfl | hx
      · exact Or.inl (Or.inl hx)
      · exact Or.inr ha
      · exact Or.inl (Or.inr hx)
  · have hfull : ∀ f : Nat, m.heap[f]? ≠ some none := fun f hf => hfree ⟨f, hf⟩
    rw [InsertAfter_no_memory ho hp v hfull] at h
    cases h

theorem Inv.of_PushFront {m m2 : Mem T} {this : Nat} {v : T}
    (hinv : Inv m) (h : PushFront m this v = .done m2 ()) : Inv m2 := by
  rw [PushFront_eq_InsertAfter] at h
  cases hins : InsertAfter m this (before_begin m this) v with
  | done m3 r =>
    rw [hins] at h
    cases h
    exact hinv.of_InsertAfter (Or.inl rfl) hins
  | bad_alloc m3 =>
    rw [hins] at h
    cases h
  | undefined =>
    rw [hins] at h
    cases h

theorem Inv.of_EraseAfter {m m2 : Mem T} {this b : Nat} {pos r : NodePtr}
    (hinv : Inv m) (hv : ValidPos m this pos) (hnext : m.next pos = some (.cell b))
    (h : EraseAfter m this pos = some (m2, r)) : Inv m2 := by
  have hthis : this < m.objs.length := by
    rcases hv with rfl | ⟨c, a, ho, _, _⟩
    · exact next_sentinel_lt hnext
    · exact ho.lt_length
  obtain ⟨c1, c2, ho, hp⟩ := hv.isPos hinv hthis
  obtain ⟨o, hobj, hs, hsz⟩ := ho
  have hn := (next_at_pos hobj hs hp).1
  rw [hnext] at hn
  cases c2 with
  | nil => simp [headPtr] at hn
  | cons y c2 =>
    obtain ⟨b2, vb⟩ := y
    simp only [headPtr, Option.some.injEq, NodePtr.cell.injEq] at hn
    subst hn
    have ho : Owns m this (c1 ++ (b, vb) :: c2) := ⟨o, hobj, hs, hsz⟩
    obtain ⟨m3, her, hown, hmod, _⟩ := EraseAfter_effect hinv.1 ho hp
    rw [h] at her
    cases her
    apply hinv.step ho hown hmod
    · intro x hx
      simp only [addrs, List.map_append, List.map_cons, List.mem_append, List.mem_cons] at hx ⊢
      rcases hx with rfl | hx
      · exact Or.inl (Or.inr (Or.inl rfl))
      · exact Or.inl (Or.inl hx)
    · intro x hx
      simp only [addrs, List.map_append, List.map_cons, List.mem_append, List.mem_cons] at hx ⊢
      rcases hx with hx | hx
      · exact Or.inl (Or.inl hx)
      · exact Or.inl (Or.inr (Or.inr hx))

theorem Inv.of_PopFront {m m2 : Mem T} {this : Nat}
    (hinv : Inv m) (h : PopFront m this = some m2) : Inv m2 := by
  cases hn : m.next (.sentinel this) with
  | none => simp [PopFront, hn] at h
  | some n =>
    have hthis := next_sentinel_lt hn
    obtain ⟨c, ho⟩ := hinv.owns hthis
    cases c with
    | nil =>
      rw [PopFront_empty ho] at h
      cases h
      exact hinv
    | cons y c =>
      obtain ⟨b, vb⟩ := y
      obtain ⟨m3, hpop, her, _⟩ := PopFront_effect hinv.1 ho
      rw [h] at hpop
      cases hpop
      obtain ⟨o, hobj, hs, _⟩ := ho
      have hfirst : m.next (.sentinel this) = some (.cell b) := by
        rw [next_sentinel hobj, hs.1]
      exact hinv.of_EraseAfter (Or.inl rfl) hfirst her

theorem Inv.of_Clear {m m2 : Mem T} {this : Nat}
    (hinv : Inv m) (h : Clear m this = some m2) : Inv m2 := by
  have hthis : this < m.objs.length := by
    cases hn : m.next (.sentinel this) with
    | some x => exact next_sentinel_lt hn
    | none => simp [Clear, Clear_loop, hn] at h
  obtain ⟨c, ho⟩ := hinv.owns hthis
  obtain ⟨m3, hcl, hown, hmod, _⟩ := Clear_effect ho
  rw [h] at hcl
  cases hcl
  apply hinv.step ho hown hmod
  · intro x hx
    exact Or.inl hx
  · intro x hx
    simp [addrs] at hx

theorem Inv.of_construct_values [Inhabited T] {m m2 : Mem T} {vs : List T} {this : Nat}
    (hinv : Inv m) (h : construct_values m vs = .done m2 this) : Inv m2 := by
  rcases construct_values_cases hinv.1 vs with
    ⟨m3, cn, hcons, _, hfree, hown, hmod, _⟩ | ⟨m3, hcons, _⟩
  · rw [h] at hcons
    cases hcons
    apply hinv.of_newObject.step (newObject_owns m) hown hmod
    · intro x hx
      exact Or.inr (hfree x hx)
    · intro x hx
      exact Or.inr (hfree x hx)
  · rw [h] at hcons
    cases hcons

theorem Inv.of_construct_values_throw [Inhabited T] {m m2 : Mem T} {vs : List T}
    (hinv : Inv m) (h : construct_values m vs = .bad_alloc m2) : Inv m2 := by
  rcases construct_values_cases hinv.1 vs with
    ⟨m3, cn, hcons, _⟩ | ⟨m3, hcons, hobjs, hlen, hheap, _⟩
  · rw [h] at hcons
    cases hcons
  · rw [h] at hcons
    cases hcons
    exact hinv.leak hobjs hlen hheap

theorem begin_lt {m : Mem T} {l : Nat} {p : NodePtr} (h : begin_ m l = some p) :
    l < m.objs.length := by
  cases ho : m.objs[l]? with
  | some o => exact lt_length_of_getElem? ho
  | none => simp [begin_, Mem.size, ho] at h

/-- A copy construction that does not run into undefined behaviour copies a live list. -/
theorem construct_copy_source [Inhabited T] {m : Mem T} {other : Nat} (hinv : Inv m)
    (h : construct_copy m other ≠ .undefined) :
    ∃ c, Owns (newObject m) other c := by
  cases hb : begin_ (newObject m) other with
  | none =>
    exfalso
    apply h
    simp only [construct_copy, hb]
  | some p => exact hinv.of_newObject.owns (begin_lt hb)

theorem Inv.of_construct_copy [Inhabited T] {m m2 : Mem T} {other this : Nat}
    (hinv : Inv m) (h : construct_copy m other = .done m2 this) : Inv m2 := by
  obtain ⟨c, hc⟩ := construct_copy_source hinv (by rw [h]; intro e; cases e)
  rw [construct_copy_eq_values_of_new hc] at h
  exact hinv.of_construct_values h

theorem Inv.of_construct_copy_throw [Inhabited T] {m m2 : Mem T} {other : Nat}
    (hinv : Inv m) (h : construct_copy m other = .bad_alloc m2) : Inv m2 := by
  obtain ⟨c, hc⟩ := construct_copy_source hinv (by rw [h]; intro e; cases e)
  rw [construct_copy_eq_values_of_new hc] at h
  exact hinv.of_construct_values_throw h

theorem Inv.of_destructor {m m2 : Mem T} {this : Nat}
    (hinv : Inv m) (h : destructor m this = some m2) : Inv m2 := by
  cases hc : Clear m this with
  | none => simp [destructor, hc] at h
  | some m1 =>
    simp only [destructor, hc, Option.some.injEq] at h
    rw [← h]
    exact (hinv.of_Clear hc).of_dropObject

theorem Inv.of_operator_assign [Inhabited T] {m m2 : Mem T} {this rhs : Nat}
    (hinv : Inv m) (h : operator_assign m this rhs = .done m2 ()) : Inv m2 := by
  unfold operator_assign at h
  by_cases hne : this = rhs
  · simp only [hne, ne_eq, not_true_eq_false, if_false, Res.done.injEq, and_true] at h
    rw [← h]
    exact hinv
  · simp only [ne_eq, hne, not_false_eq_true, if_true] at h
    cases hcopy : construct_copy m rhs with
    | undefined => simp [hcopy] at h
    | bad_alloc m1 => simp [hcopy] at h
    | done m1 temp =>
      simp only [hcopy] at h
      have hinv1 := hinv.of_construct_copy hcopy
      cases hsw : swap m1 this temp with
      | none => simp [hsw] at h
      | some m3 =>
        simp only [hsw] at h
        have hinv3 := hinv1.of_swap hsw
        cases hd : destructor m3 temp with
        | none => simp [hd] at h
        | some m4 =>
          simp only [hd, Res.done.injEq, and_true] at h
          rw [← h]
          exact hinv3.of_destructor hd

theorem Inv.of_operator_assign_throw [Inhabited T] {m m2 : Mem T} {this rhs : Nat}
    (hinv : Inv m) (h : operator_assign m this rhs = .bad_alloc m2) : Inv m2 := by
  unfold operator_assign at h
  by_cases hne : this = rhs
  · simp [hne] at h
  · simp only [ne_eq, hne, not_false_eq_true, if_true] at h
    cases hcopy : construct_copy m rhs with
    | undefined => simp [hcopy] at h
    | bad_alloc m1 =>
      simp only [hcopy, Res.bad_alloc.injEq] at h
      rw [← h]
      exact hinv.of_construct_copy_throw hcopy
    | done m1 temp =>
      simp only [hcopy] at h
      cases hsw : swap m1 this temp with
      | none => simp [hsw] at h
      | some m3 =>
        simp only [hsw] at h
        cases hd : destructor m3 temp with
        | none => simp [hd] at h
        | some m4 => simp [hd] at h

/-- Every reachable memory satisfies the structural invariant. -/
theorem Reachable.inv [Inhabited T] {m : Mem T} (hr : Reachable m) : Inv m := by
  induction hr with
  | start h hlen =>
    refine Inv.of_chains hlen (fun _ => []) ?_ ?_
    · intro l hl
      simp at hl
    · intro l1 l2 h1
      simp at h1
  | default_constructed _ ih => exact ih.of_newObject
  | values_constructed vs this _ h ih => exact ih.of_construct_values h
  | values_throw vs _ h ih => exact ih.of_construct_values_throw h
  | copy_constructed other this _ h ih => exact ih.of_construct_copy h
  | copy_throw other _ h ih => exact ih.of_construct_copy_throw h
  | pushFront this v _ h ih => exact ih.of_PushFront h
  | pushFront_throw this v _ h ih =>
    rw [PushFront_bad_alloc_eq h]
    exact ih
  | popFront this _ h ih => exact ih.of_PopFront h
  | clear this _ h ih => exact ih.of_Clear h
  | swapped this other _ h ih => exact ih.of_swap h
  | assigned this rhs _ h ih => exact ih.of_operator_assign h
  | assign_throw this rhs _ h ih => exact ih.of_operator_assign_throw h
  | insertAfter this pos v r _ hv h ih => exact ih.of_InsertAfter hv h
  | insertAfter_throw this pos v _ _ h ih =>
    rw [InsertAfter_bad_alloc_eq h]
    exact ih
  | eraseAfter this pos r b _ hv hn h ih => exact ih.of_EraseAfter hv hn h

/-- The value stored in a node of an owned chain is what dereferencing its iterator gives. -/
theorem Owns.deref_mid {m : Mem T} {l : Nat} {c1 c2 : List (Nat × T)} {a : Nat} {v : T}
    (h : Owns m l (c1 ++ (a, v) :: c2)) : deref m (.cell a) = some v := by
  obtain ⟨o, _, hs, _⟩ := h
  obtain ⟨r, _, hr2⟩ := hs.split
  obtain ⟨_, nx, hcell, _⟩ := hr2
  simp [deref, value_cell hcell]

theorem sampleMem_bounded : HeapBounded sampleMem := by
  show (8 : Nat) < 2 ^ 64
  norm_num

theorem sampleMem_owns : Owns sampleMem 0 sampleChain :=
  ⟨⟨⟨0, .cell 0⟩, 3⟩, rfl, ⟨rfl, .cell 1, rfl, rfl, .cell 2, rfl, rfl, .null, rfl, rfl⟩, rfl⟩

theorem sampleMem_owns2 : Owns sampleMem 1 sampleChain2 :=
  ⟨⟨⟨0, .cell 3⟩, 2⟩, rfl, ⟨rfl, .cell 4, rfl, rfl, .null, rfl, rfl⟩, rfl⟩

/-! ## The claims -/

/-- C3: `InsertAfter(p, v)` at a valid position `p` of a list with chain `c` (position
`k = 0` is `before_begin()`, position `k = i + 1` is the node at index `i`), when a cell
is available for the new node: `GetSize()` grows by exactly one, the returned iterator
is the new node and dereferences to `v`, and the element sequence is the old one with
`v` inserted at index `k`, all other nodes staying the same nodes in the same order. -/
theorem InsertAfter_postcondition (m : Mem T) (this : Nat) (c : List (Nat × T)) (k : Nat)
    (v : T) (f : Nat) (hb : HeapBounded m) (ho : Owns m this c) (hk : k ≤ c.length)
    (hfree : m.heap[f]? = some none) :
    ∃ a m2, InsertAfter m this (posPtr this c k) v = .done m2 (.cell a) ∧
      GetSize m this = some c.length ∧ GetSize m2 this = some (c.length + 1) ∧
      deref m2 (.cell a) = some v ∧
      elements m this = some (vals c) ∧
      elements m2 this = some ((vals c).insertIdx k v) ∧
      Owns m2 this (c.insertIdx k (a, v)) := by
  have ho2 : Owns m this (c.take k ++ c.drop k) := by
    rw [List.take_append_drop]
    exact ho
  obtain ⟨a, m2, _, hins, hown, _⟩ :=
    InsertAfter_effect hb ho2 (IsPos_posPtr this c k hk) v hfree
  have hlen : (c.take k ++ (a, v) :: c.drop k).length = c.length + 1 := by
    have h := congrArg List.length (List.take_append_drop k c)
    simp only [List.length_append, List.length_cons] at h ⊢
    omega
  refine ⟨a, m2, hins, ho.getSize, ?_, hown.deref_mid, ho.elements, ?_, ?_⟩
  · rw [hown.getSize, hlen]
  · rw [hown.elements, insertIdx_eq_take_cons_drop _ _ _ (by rw [vals_length]; exact hk),
      vals_append, vals_cons, vals_take, vals_drop]
  · rw [insertIdx_eq_take_cons_drop _ _ _ hk]
    exact hown

/-- Witness for C3: inserting `7` after the second node of `[1, 2, 3]`. -/
theorem InsertAfter_postcondition_witness :
    ∃ a m2, InsertAfter sampleMem 0 (posPtr 0 sampleChain 2) 7 = .done m2 (.cell a) ∧
      GetSize sampleMem 0 = some sampleChain.length ∧
      GetSize m2 0 = some (sampleChain.length + 1) ∧
      deref m2 (.cell a) = some 7 ∧
      elements sampleMem 0 = some (vals sampleChain) ∧
      elements m2 0 = some ((vals sampleChain).insertIdx 2 7) ∧
      Owns m2 0 (sampleChain.insertIdx 2 (a, 7)) :=
  InsertAfter_postcondition sampleMem 0 sampleChain 2 7 5 sampleMem_bounded sampleMem_owns
    (by decide) rfl

/-- C4: `EraseAfter(p)` at a position `p` of a list with chain `c` that has a following
node (position `k < c.length`): exactly the node at index `k` is removed and its cell
released, `GetSize()` drops by exactly one, the remaining nodes keep their order, and
the returned iterator is the node that followed the erased one, or `end()` when the
erased node was the last. -/
theorem EraseAfter_postcondition (m : Mem T) (this : Nat) (c : List (Nat × T)) (k : Nat)
    (hb : HeapBounded m) (ho : Owns m this c) (hk : k < c.length) :
    ∃ m2 r n, EraseAfter m this (posPtr this c k) = some (m2, r) ∧
      GetSize m this = some (n + 1) ∧ GetSize m2 this = some n ∧
      elements m this = some (vals c) ∧
      elements m2 this = some ((vals c).eraseIdx k) ∧
      Owns m2 this (c.eraseIdx k) ∧
      (r = match c.get? (k + 1) with
        | some (a, _) => .cell a
        | none => end_ m2 this) ∧
      (∀ b vb, c.get? k = some (b, vb) → m2.heap[b]? = some none) := by
  have hsplit : c.take k ++ c.get ⟨k, hk⟩ :: c.drop (k + 1) = c := by
    have h := List.take_append_drop k c
    rw [List.drop_eq_getElem_cons hk] at h
    exact h
  rcases hbv : c.get ⟨k, hk⟩ with ⟨b, vb⟩
  rw [hbv] at hsplit
  have ho2 : Owns m this (c.take k ++ (b, vb) :: c.drop (k + 1)) := by
    rw [hsplit]
    exact ho
  obtain ⟨m2, her, hown, _, hfreed⟩ :=
    EraseAfter_effect hb ho2 (IsPos_posPtr this c k (Nat.le_of_lt hk))
  have hlen : c.length = (c.take k ++ c.drop (k + 1)).length + 1 := by
    have h := congrArg List.length hsplit
    simp only [List.length_append, List.length_cons] at h ⊢
    omega
  refine ⟨m2, headPtr (c.drop (k + 1)), (c.take k ++ c.drop (k + 1)).length, her, ?_,
    hown.getSize, ho.elements, ?_, ?_, ?_, ?_⟩
  · rw [ho.getSize, hlen]
  · rw [hown.elements, List.eraseIdx_eq_take_drop_succ, vals_append, vals_take, vals_drop]
  · rw [List.eraseIdx_eq_take_drop_succ]
    exact hown
  · rw [headPtr_drop]
    rfl
  · intro b2 vb2 hget
    rw [List.get?_eq_get hk, hbv] at hget
    cases hget
    exact hfreed

/-- Witness for C4: erasing the node after the first node of `[1, 2, 3]`. -/
theorem EraseAfter_postcondition_witness :
    ∃ m2 r n, EraseAfter sampleMem 0 (posPtr 0 sampleChain 1) = some (m2, r) ∧
      GetSize sampleMem 0 = some (n + 1) ∧ GetSize m2 0 = some n ∧
      elements sampleMem 0 = some (vals sampleChain) ∧
      elements m2 0 = some ((vals sampleChain).eraseIdx 1) ∧
      Owns m2 0 (sampleChain.eraseIdx 1) ∧
      (r = match sampleChain.get? (1 + 1) with
        | some (a, _) => .cell a
        | none => end_ m2 0) ∧
      (∀ b vb, sampleChain.get? 1 = some (b, vb) → m2.heap[b]? = some none) :=
  EraseAfter_postcondition sampleMem 0 sampleChain 1 sampleMem_bounded sampleMem_owns
    (by decide)

/-- C5: `PopFront()` on a list with chain `c`. When the list is non-empty, `GetSize()`
drops by exactly one and the elements left are the former second, third, ... in order
(so the new first element is the former second one, and the list is empty when the size
was one); on the empty list the call changes nothing and `GetSize()` stays `0`. -/
theorem PopFront_postcondition (m : Mem T) (this : Nat) (c : List (Nat × T))
    (hb : HeapBounded m) (ho : Owns m this c) :
    ∃ m2, PopFront m this = some m2 ∧
      elements m this = some (vals c) ∧
      elements m2 this = some (vals c).tail ∧
      Owns m2 this c.tail ∧
      begin_ m2 this = some (headPtr c.tail) ∧
      (c ≠ [] → ∃ n, GetSize m this = some (n + 1) ∧ GetSize m2 this = some n) ∧
      (c = [] → m2 = m ∧ GetSize m2 this = some 0 ∧ IsEmpty m2 this = some true) := by
  have hbegin : ∀ {m2 : Mem T} {d : List (Nat × T)}, Owns m2 this d →
      begin_ m2 this = some (headPtr d) := by
    intro m2 d hd
    obtain ⟨p, hp, hseg⟩ := hd.begin_seg
    rw [hp, hseg.eq_headPtr]
  cases c with
  | nil =>
    refine ⟨m, PopFront_empty ho, ho.elements, ho.elements, ho, hbegin ho, ?_, ?_⟩
    · intro h
      exact absurd rfl h
    · intro _
      exact ⟨rfl, ho.getSize, ho.isEmpty⟩
  | cons x c =>
    obtain ⟨b, vb⟩ := x
    obtain ⟨m2, hpop, _, hown, _, _⟩ := PopFront_effect hb ho
    refine ⟨m2, hpop, ho.elements, ?_, hown, hbegin hown, ?_, ?_⟩
    · rw [hown.elements]
      rfl
    · intro _
      exact ⟨c.length, ho.getSize, hown.getSize⟩
    · intro h
      cases h

/-- Witness for C5: `PopFront()` on `[1, 2, 3]`. -/
theorem PopFront_postcondition_witness :
    ∃ m2, PopFront sampleMem 0 = some m2 ∧
      elements sampleMem 0 = some (vals sampleChain) ∧
      elements m2 0 = some (vals sampleChain).tail ∧
      Owns m2 0 sampleChain.tail ∧
      begin_ m2 0 = some (headPtr sampleChain.tail) ∧
      (sampleChain ≠ [] → ∃ n, GetSize sampleMem 0 = some (n + 1) ∧ GetSize m2 0 = some n) ∧
      (sampleChain = [] → m2 = sampleMem ∧ GetSize m2 0 = some 0 ∧ IsEmpty m2 0 = some true) :=
  PopFront_postcondition sampleMem 0 sampleChain sampleMem_bounded sampleMem_owns

/-- C6: `PushFront(v)` on a list with chain `c`, when a cell is available for the new
node: the element sequence becomes `v` followed by the old one, the new node's successor
is the former first node and the former nodes are unchanged, `*begin()` is `v`, and
`GetSize()` grows by exactly one. -/
theorem PushFront_postcondition (m : Mem T) (this : Nat) (c : List (Nat × T)) (v : T) (f : Nat)
    (hb : HeapBounded m) (ho : Owns m this c) (hfree : m.heap[f]? = some none) :
    ∃ a m2 first, PushFront m this v = .done m2 () ∧
      elements m this = some (vals c) ∧
      elements m2 this = some (v :: vals c) ∧
      Owns m2 this ((a, v) :: c) ∧
      m.next (.sentinel this) = some first ∧
      m2.next (.sentinel this) = some (.cell a) ∧
      m2.next (.cell a) = some first ∧
      begin_ m2 this = some (.cell a) ∧
      deref m2 (.cell a) = some v ∧
      GetSize m this = some c.length ∧
      GetSize m2 this = some (c.length + 1) := by
  obtain ⟨a, m2, _, hpush, hown, _⟩ := PushFront_effect hb ho v hfree
  obtain ⟨o, hobj, hs, _⟩ := ho
  obtain ⟨o2, hobj2, hs2, hsz2⟩ := hown
  have hown : Owns m2 this ((a, v) :: c) := ⟨o2, hobj2, hs2, hsz2⟩
  have ho : Owns m this c := ⟨o, hobj, hs, ‹_›⟩
  obtain ⟨hfirst2, nx, hcell, hrest⟩ := hs2
  refine ⟨a, m2, headPtr c, hpush, ho.elements, hown.elements, hown, ?_, ?_, ?_, ?_, ?_,
    ho.getSize, hown.getSize⟩
  · rw [next_sentinel hobj, hs.eq_headPtr]
  · rw [next_sentinel hobj2, hfirst2]
  · rw [next_cell hcell, hrest.eq_headPtr]
  · obtain ⟨p, hp, hseg⟩ := hown.begin_seg
    rw [hp, hseg.1]
  · have hown2 : Owns m2 this ([] ++ (a, v) :: c) := hown
    exact hown2.deref_mid

/-- Witness for C6: `PushFront(9)` on `[1, 2, 3]`. -/
theorem PushFront_postcondition_witness :
    ∃ a m2 first, PushFront sampleMem 0 9 = .done m2 () ∧
      elements sampleMem 0 = some (vals sampleChain) ∧
      elements m2 0 = some (9 :: vals sampleChain) ∧
      Owns m2 0 ((a, 9) :: sampleChain) ∧
      sampleMem.next (.sentinel 0) = some first ∧
      m2.next (.sentinel 0) = some (.cell a) ∧
      m2.next (.cell a) = some first ∧
      begin_ m2 0 = some (.cell a) ∧
      deref m2 (.cell a) = some 9 ∧
      GetSize sampleMem 0 = some sampleChain.length ∧
      GetSize m2 0 = some (sampleChain.length + 1) :=
  PushFront_postcondition sampleMem 0 sampleChain 9 5 sampleMem_bounded sampleMem_owns rfl

/-- C7: on a non-empty list, `EraseAfter(before_begin())` and `PopFront()` leave the same
memory, in which the list is the old one without its first element (same element
sequence, same `GetSize()`). -/
theorem EraseAfter_before_begin_eq_PopFront (m : Mem T) (this : Nat) (c : List (Nat × T))
    (hb : HeapBounded m) (ho : Owns m this c) (hne : c ≠ []) :
    ∃ m2 r, PopFront m this = some m2 ∧
      EraseAfter m this (before_begin m this) = some (m2, r) ∧
      elements m2 this = some (vals c).tail ∧
      GetSize m2 this = some (c.length - 1) ∧
      Owns m2 this c.tail := by
  cases c with
  | nil => exact absurd rfl hne
  | cons x c =>
    obtain ⟨b, vb⟩ := x
    obtain ⟨m2, hpop, her, hown, _, _⟩ := PopFront_effect hb ho
    refine ⟨m2, headPtr c, hpop, her, ?_, ?_, hown⟩
    · rw [hown.elements]
      rfl
    · rw [hown.getSize]
      rfl

/-- Witness for C7 on `[1, 2, 3]`. -/
theorem EraseAfter_before_begin_eq_PopFront_witness :
    ∃ m2 r, PopFront sampleMem 0 = some m2 ∧
      EraseAfter sampleMem 0 (before_begin sampleMem 0) = some (m2, r) ∧
      elements m2 0 = some (vals sampleChain).tail ∧
      GetSize m2 0 = some (sampleChain.length - 1) ∧
      Owns m2 0 sampleChain.tail :=
  EraseAfter_before_begin_eq_PopFront sampleMem 0 sampleChain sampleMem_bounded sampleMem_owns
    (by decide)

/-- C10: `A.swap(B)` and the free function `swap(A, B)` on two lists: afterwards `A` has
the chain (hence element sequence and size) `B` had and `B` has the one `A` had; the heap
is not touched at all, so no node is created, copied or destroyed; and swapping a second
time gives back the original memory. -/
theorem swap_exchanges (m : Mem T) (A B : Nat) (cA cB : List (Nat × T))
    (hA : Owns m A cA) (hB : Owns m B cB) :
    ∃ m2, swap m A B = some m2 ∧ free_swap m A B = some m2 ∧
      m2.heap = m.heap ∧
      Owns m2 A cB ∧ Owns m2 B cA ∧
      elements m A = some (vals cA) ∧ elements m B = some (vals cB) ∧
      elements m2 A = some (vals cB) ∧ elements m2 B = some (vals cA) ∧
      GetSize m2 A = GetSize m B ∧ GetSize m2 B = GetSize m A ∧
      swap m2 A B = some m := by
  obtain ⟨m2, hsw, hheap, _, h2A, h2B, _⟩ := swap_effect hA hB
  obtain ⟨oA, hobjA, _, _⟩ := hA
  obtain ⟨oB, hobjB, _, _⟩ := hB
  have hA : Owns m A cA := ⟨oA, hobjA, ‹_›, ‹_›⟩
  have hB : Owns m B cB := ⟨oB, hobjB, ‹_›, ‹_›⟩
  obtain ⟨m3, hsw3, hback⟩ := swap_swap hobjA hobjB
  rw [hsw] at hsw3
  cases hsw3
  refine ⟨m2, hsw, hsw, hheap, h2A, h2B, hA.elements, hB.elements, h2A.elements, h2B.elements,
    ?_, ?_, hback⟩
  · rw [h2A.getSize, hB.getSize]
  · rw [h2B.getSize, hA.getSize]

/-- Witness for C10: swapping `[1, 2, 3]` and `[4, 5]`. -/
theorem swap_exchanges_witness :
    ∃ m2, swap sampleMem 0 1 = some m2 ∧ free_swap sampleMem 0 1 = some m2 ∧
      m2.heap = sampleMem.heap ∧
      Owns m2 0 sampleChain2 ∧ Owns m2 1 sampleChain ∧
      elements sampleMem 0 = some (vals sampleChain) ∧
      elements sampleMem 1 = some (vals sampleChain2) ∧
      elements m2 0 = some (vals sampleChain2) ∧ elements m2 1 = some (vals sampleChain) ∧
      GetSize m2 0 = GetSize sampleMem 1 ∧ GetSize m2 1 = GetSize sampleMem 0 ∧
      swap m2 0 1 = some sampleMem :=
  swap_exchanges sampleMem 0 1 sampleChain sampleChain2 sampleMem_owns sampleMem_owns2

/-! ## Comparison operators -/

/-- On two chains `std::equal` returns what `equalLists` gives on their values. -/
theorem std_equal_chain [BEq T] {m : Mem T} {c1 c2 : List (Nat × T)} {p1 p2 : NodePtr}
    (h1 : IsSeg m.heap p1 c1 .null) (h2 : IsSeg m.heap p2 c2 .null) {fuel : Nat}
    (hf : c1.length < fuel) :
    std_equal m .null .null fuel p1 p2 = some (equalLists (vals c1) (vals c2)) := by
  induction c1 generalizing c2 p1 p2 fuel with
  | nil =>
    have hp : p1 = .null := h1
    subst hp
    cases fuel with
    | zero => omega
    | succ fuel =>
      cases c2 with
      | nil =>
        have hp2 : p2 = .null := h2
        subst hp2
        simp [std_equal, vals, equalLists]
      | cons y c2 =>
        obtain ⟨b, w⟩ := y
        obtain ⟨hp2, _⟩ := h2
        subst hp2
        simp [std_equal, vals, equalLists]
  | cons x c1 ih =>
    obtain ⟨a, v⟩ := x
    obtain ⟨hp, nx, ha, hrest⟩ := h1
    subst hp
    cases fuel with
    | zero => omega
    | succ fuel =>
      have hlt : c1.length < fuel := by
        simp only [List.length_cons] at hf
        omega
      cases c2 with
      | nil =>
        have hp2 : p2 = .null := h2
        subst hp2
        simp [std_equal, vals, equalLists]
      | cons y c2 =>
        obtain ⟨b, w⟩ := y
        obtain ⟨hp2, nx2, hb, hrest2⟩ := h2
        subst hp2
        have hrec := ih hrest hrest2 hlt
        simp only [std_equal, ne_eq, reduceCtorEq, not_false_eq_true, and_self, if_true, deref,
          value_cell ha, value_cell hb, incr, next_cell ha, next_cell hb, hrec, vals_cons,
          equalLists]
        split_ifs <;> rfl

/-- On two chains `std::lexicographical_compare` returns what `lexLists` gives on their
values. -/
theorem std_lexicographical_compare_chain (lt : T → T → Bool) {m : Mem T}
    {c1 c2 : List (Nat × T)} {p1 p2 : NodePtr}
    (h1 : IsSeg m.heap p1 c1 .null) (h2 : IsSeg m.heap p2 c2 .null) {fuel : Nat}
    (hf : c1.length < fuel) :
    std_lexicographical_compare lt m .null .null fuel p1 p2 =
      some (lexLists lt (vals c1) (vals c2)) := by
  induction c1 generalizing c2 p1 p2 fuel with
  | nil =>
    have hp : p1 = .null := h1
    subst hp
    cases fuel with
    | zero => omega
    | succ fuel =>
      cases c2 with
      | nil =>
        have hp2 : p2 = .null := h2
        subst hp2
        simp [std_lexicographical_compare, vals, lexLists]
      | cons y c2 =>
        obtain ⟨b, w⟩ := y
        obtain ⟨hp2, _⟩ := h2
        subst hp2
        simp [std_lexicographical_compare, vals, lexLists]
  | cons x c1 ih =>
    obtain ⟨a, v⟩ := x
    obtain ⟨hp, nx, ha, hrest⟩ := h1
    subst hp
    cases fuel with
    | zero => omega
    | succ fuel =>
      have hlt : c1.length < fuel := by
        simp only [List.length_cons] at hf
        omega
      cases c2 with
      | nil =>
        have hp2 : p2 = .null := h2
        subst hp2
        simp [std_lexicographical_compare, vals, lexLists]
      | cons y c2 =>
        obtain ⟨b, w⟩ := y
        obtain ⟨hp2, nx2, hb, hrest2⟩ := h2
        subst hp2
        have hrec := ih hrest hrest2 hlt
        simp only [std_lexicographical_compare, ne_eq, reduceCtorEq, not_false_eq_true, and_self,
          if_true, deref, value_cell ha, value_cell hb, incr, next_cell ha, next_cell hb, hrec,
          vals_cons, lexLists]
        split_ifs <;> rfl

theorem operator_eq_owned [BEq T] {m : Mem T} {a b : Nat} {ca cb : List (Nat × T)}
    (ha : Owns m a ca) (hb : Owns m b cb) :
    operator_eq m a b = some (equalLists (vals ca) (vals cb)) := by
  obtain ⟨p1, hp1, hs1⟩ := ha.begin_seg
  obtain ⟨p2, hp2, hs2⟩ := hb.begin_seg
  have hlen := hs1.length_le
  simp only [operator_eq, hp1, hp2, end_]
  exact std_equal_chain hs1 hs2 (by omega)

theorem operator_lt_owned (lt : T → T → Bool) {m : Mem T} {a b : Nat} {ca cb : List (Nat × T)}
    (ha : Owns m a ca) (hb : Owns m b cb) :
    operator_lt lt m a b = some (lexLists lt (vals ca) (vals cb)) := by
  obtain ⟨p1, hp1, hs1⟩ := ha.begin_seg
  obtain ⟨p2, hp2, hs2⟩ := hb.begin_seg
  have hlen := hs1.length_le
  simp only [operator_lt, hp1, hp2, end_]
  exact std_lexicographical_compare_chain lt hs1 hs2 (by omega)

/-- `equalLists` is true exactly for sequences of the same length with `==` holding at
every index. -/
theorem equalLists_iff [BEq T] (xs ys : List T) :
    equalLists xs ys = true ↔
      xs.length = ys.length ∧
        ∀ (i : Nat) (x y : T), xs[i]? = some x → ys[i]? = some y → (x == y) = true := by
  induction xs generalizing ys with
  | nil =>
    cases ys with
    | nil => simp [equalLists]
    | cons y ys => simp [equalLists]
  | cons x xs ih =>
    cases ys with
    | nil => simp [equalLists]
    | cons y ys =>
      simp only [equalLists, List.length_cons, Nat.add_right_cancel_iff]
      constructor
      · intro h
        by_cases hxy : (x == y) = true
        · simp only [hxy, Bool.not_true, Bool.false_eq_true, if_false] at h
          obtain ⟨hl, hall⟩ := (ih ys).1 h
          refine ⟨hl, ?_⟩
          intro i
          cases i with
          | zero =>
            intro x2 y2 h1 h2
            simp only [List.getElem?_cons_zero, Option.some.injEq] at h1 h2
            subst h1
            subst h2
            exact hxy
          | succ i =>
            intro x2 y2 h1 h2
            simp only [List.getElem?_cons_succ] at h1 h2
            exact hall i x2 y2 h1 h2
        · simp [hxy] at h
      · rintro ⟨hl, hall⟩
        have hxy : (x == y) = true := hall 0 x y (by simp) (by simp)
        simp only [hxy, Bool.not_true, Bool.false_eq_true, if_false]
        refine (ih ys).2 ⟨hl, ?_⟩
        intro i x2 y2 h1 h2
        exact hall (i + 1) x2 y2 (by simpa using h1) (by simpa using h2)

theorem compareMem_owns0 : Owns compareMem 0 [(0, 1), (1, 2), (2, 3)] :=
  ⟨⟨⟨0, .cell 0⟩, 3⟩, rfl, ⟨rfl, .cell 1, rfl, rfl, .cell 2, rfl, rfl, .null, rfl, rfl⟩, rfl⟩

theorem compareMem_owns1 : Owns compareMem 1 [(3, 1), (4, 2), (5, 3)] :=
  ⟨⟨⟨0, .cell 3⟩, 3⟩, rfl, ⟨rfl, .cell 4, rfl, rfl, .cell 5, rfl, rfl, .null, rfl, rfl⟩, rfl⟩

/-- C8: `operator==` on two lists returns `true` if and only if the two element
sequences have the same length and the elements at every common index compare equal
with `==`; in particular lists of different lengths are never equal, even when one is a
prefix of the other. -/
theorem operator_eq_iff [BEq T] (m : Mem T) (a b : Nat) (ca cb : List (Nat × T))
    (ha : Owns m a ca) (hb : Owns m b cb) :
    ∃ r, operator_eq m a b = some r ∧
      elements m a = some (vals ca) ∧ elements m b = some (vals cb) ∧
      (r = true ↔ (vals ca).length = (vals cb).length ∧
        ∀ (i : Nat) (x y : T), (vals ca)[i]? = some x → (vals cb)[i]? = some y →
          (x == y) = true) ∧
      ((vals ca).length ≠ (vals cb).length → r = false) := by
  refine ⟨equalLists (vals ca) (vals cb), operator_eq_owned ha hb, ha.elements, hb.elements,
    equalLists_iff _ _, ?_⟩
  intro hne
  cases hr : equalLists (vals ca) (vals cb) with
  | false => rfl
  | true => exact absurd ((equalLists_iff _ _).1 hr).1 hne

/-- Witness for C8: `[1, 2, 3] == [1, 2, 3]` is true, and `[1, 2] == [1, 2, 3]` is false. -/
theorem operator_eq_iff_witness :
    (∃ r, operator_eq compareMem 0 1 = some r ∧
      elements compareMem 0 = some (vals [(0, 1), (1, 2), (2, 3)]) ∧
      elements compareMem 1 = some (vals [(3, 1), (4, 2), (5, 3)]) ∧
      (r = true ↔ (vals [(0, 1), (1, 2), (2, 3)]).length = (vals [(3, 1), (4, 2), (5, 3)]).length ∧
        ∀ (i : Nat) (x y : Nat), (vals [(0, 1), (1, 2), (2, 3)])[i]? = some x →
          (vals [(3, 1), (4, 2), (5, 3)])[i]? = some y → (x == y) = true) ∧
      ((vals [(0, 1), (1, 2), (2, 3)]).length ≠ (vals [(3, 1), (4, 2), (5, 3)]).length →
        r = false)) ∧
    elements compareMem 0 = some [1, 2, 3] ∧ elements compareMem 1 = some [1, 2, 3] ∧
    operator_eq compareMem 0 1 = some true ∧
    elements compareMem 2 = some [1, 2] ∧
    operator_eq compareMem 2 0 = some false :=
  ⟨operator_eq_iff compareMem 0 1 _ _ compareMem_owns0 compareMem_owns1,
    by decide, by decide, by decide, by decide, by decide⟩

theorem compareMem_owns3 : Owns compareMem 3 [(8, 1), (9, 3)] :=
  ⟨⟨⟨0, .cell 8⟩, 2⟩, rfl, ⟨rfl, .cell 9, rfl, rfl, .null, rfl, rfl⟩, rfl⟩

theorem compareMem_owns4 : Owns compareMem 4 [(10, 1), (11, 2), (12, 9)] :=
  ⟨⟨⟨0, .cell 10⟩, 3⟩, rfl, ⟨rfl, .cell 11, rfl, rfl, .cell 12, rfl, rfl, .null, rfl, rfl⟩, rfl⟩

/-- The empty memory with eight free cells and no list object. -/
theorem emptyMem_bounded : HeapBounded (⟨List.replicate 8 none, []⟩ : Mem Nat) := by
  show (List.replicate 8 (none : Option (Node Nat))).length < 2 ^ 64
  rw [List.length_replicate]
  norm_num

/-- C2: the list constructed from a sequence `s` (initializer-list constructor, through
`CopyRange`), when the heap has at least `s.length` free cells: the construction
completes, `GetSize()` is `s.length`, and iterating from `begin()` with `++` until `end()`
visits exactly the elements of `s` in order; the nodes visited are heap nodes owned by
the new list, never the sentinel. -/
theorem construct_values_round_trip [Inhabited T] (m : Mem T) (s : List T)
    (hb : HeapBounded m) (hmem : s.length ≤ freeCells m.heap) :
    ∃ m2 this c, construct_values m s = .done m2 this ∧
      GetSize m2 this = some s.length ∧
      elements m2 this = some s ∧
      Owns m2 this c ∧ vals c = s := by
  obtain ⟨m2, cn, hcons, hvals, _, hown, _⟩ := construct_values_effect hb s hmem
  refine ⟨m2, m.objs.length, cn, hcons, ?_, ?_, hown, hvals⟩
  · rw [hown.getSize, ← hvals, vals_length]
  · rw [hown.elements, hvals]

/-- Witness for C2: `s = [1, 2, 3]` yields `1, 2, 3` and size `3`. -/
theorem construct_values_round_trip_witness :
    (∃ m2 this c, construct_values (⟨List.replicate 8 none, []⟩ : Mem Nat) [1, 2, 3] =
        .done m2 this ∧
      GetSize m2 this = some [1, 2, 3].length ∧
      elements m2 this = some [1, 2, 3] ∧
      Owns m2 this c ∧ vals c = [1, 2, 3]) ∧
    construct_values (⟨List.replicate 8 none, []⟩ : Mem Nat) [1, 2, 3] = .done builtMem 0 ∧
    elements builtMem 0 = some [1, 2, 3] ∧ GetSize builtMem 0 = some 3 :=
  ⟨construct_values_round_trip ⟨List.replicate 8 none, []⟩ [1, 2, 3] emptyMem_bounded
    (by decide), by rfl, by decide, by decide⟩

/-- C1 (size invariant): in every memory reachable by constructing lists (default, from a
sequence, by copy) and calling `PushFront`, `PopFront`, `Clear`, `swap`, `operator=`,
`InsertAfter` and `EraseAfter` with positions that satisfy their preconditions, every
live list has `GetSize()` equal to the number of real nodes reachable from its sentinel
`head_` by following `next_node`. -/
theorem size_invariant [Inhabited T] (m : Mem T) (this : Nat) (hr : Reachable m)
    (hthis : this < m.objs.length) :
    ∃ n, GetSize m this = some n ∧ node_count m this = some n := by
  obtain ⟨c, hc⟩ := hr.inv.owns hthis
  exact ⟨c.length, hc.getSize, hc.node_count⟩

/-- The sample memory `builtMem` is reachable: it is the result of constructing
`{1, 2, 3}` in an empty heap of eight cells. -/
theorem builtMem_reachable : Reachable builtMem :=
  Reachable.values_constructed [1, 2, 3] 0
    (Reachable.start (List.replicate 8 none) (by rw [List.length_replicate]; norm_num)) rfl

/-- Witness for C1: the list `{1, 2, 3}` after construction. -/
theorem size_invariant_witness :
    Reachable builtMem ∧ 0 < builtMem.objs.length ∧
    ∃ n, GetSize builtMem 0 = some n ∧ node_count builtMem 0 = some n :=
  ⟨builtMem_reachable, by decide, size_invariant builtMem 0 builtMem_reachable (by decide)⟩

/-- C13: self-assignment `L = L` is a no-op: the call returns normally and the memory
after it is the memory before it, so the element sequence, `GetSize()` and the node chain
of `L` (the sentinel's successor and every heap cell) are unchanged. -/
theorem self_assignment_noop [Inhabited T] (m : Mem T) (L : Nat) :
    ∃ m2, operator_assign m L L = .done m2 () ∧ m2 = m ∧
      elements m2 L = elements m L ∧ GetSize m2 L = GetSize m L ∧
      m2.next (.sentinel L) = m.next (.sentinel L) ∧ m2.heap = m.heap :=
  ⟨m, by simp [operator_assign], rfl, rfl, rfl, rfl, rfl⟩

/-- C20: incrementing the end position is a guarded no-op. For the null iterator both
`operator++()` and `operator++(int)` return without reading any node (whatever the
memory holds) and leave the iterator null; for an iterator referring to a node,
pre-increment moves it to that node's `next_node`, and post-increment does the same and
returns the previous value of the iterator. -/
theorem increment_guarded (m : Mem T) :
    incr m .null = some .null ∧
    post_incr m .null = some (.null, .null) ∧
    incr m (end_ m 0) = some (end_ m 0) ∧
    (∀ m2 : Mem T, incr m2 .null = incr m .null ∧ post_incr m2 .null = post_incr m .null) ∧
    (∀ (p : NodePtr) (n : Node T), m.node p = some n →
      incr m p = some n.next_node ∧ post_incr m p = some (n.next_node, p)) := by
  refine ⟨by simp [incr], by simp [post_incr, incr], by simp [incr, end_], ?_, ?_⟩
  · intro m2
    simp [post_incr, incr]
  · intro p n hn
    have hp : p ≠ .null := by
      rintro rfl
      simp [Mem.node] at hn
    simp [post_incr, incr, hp, Mem.next, hn]

/-- Witness for C20: in `sampleMem`, incrementing the iterator to the first node. -/
theorem increment_guarded_witness :
    sampleMem.node (.cell 0) = some ⟨1, .cell 1⟩ ∧
    incr sampleMem (.cell 0) = some (.cell 1) ∧
    post_incr sampleMem (.cell 0) = some (.cell 1, .cell 0) ∧
    incr sampleMem .null = some .null :=
  ⟨rfl, ((increment_guarded sampleMem).2.2.2.2 (.cell 0) ⟨1, .cell 1⟩ rfl).1,
    ((increment_guarded sampleMem).2.2.2.2 (.cell 0) ⟨1, .cell 1⟩ rfl).2,
    (increment_guarded sampleMem).1⟩

theorem fullMem_owns : Owns fullMem 0 sampleChain :=
  ⟨⟨⟨0, .cell 0⟩, 3⟩, rfl, ⟨rfl, .cell 1, rfl, rfl, .cell 2, rfl, rfl, .null, rfl, rfl⟩, rfl⟩

theorem fullMem_no_node (n : Node Nat) : fullMem.newNode n = none := by
  simp [Mem.newNode, fullMem, firstFree]

/-- C15: atomicity of the single-node insertions on allocation failure. When the
creation of the new node fails, `PushFront(v)` and `InsertAfter(p, v)` (at any valid
position `p` of the list) throw `std::bad_alloc` with the memory exactly as it was before
the call: the chain and `GetSize()` of the list are unchanged. Whenever either call
throws, the memory at the throw is the memory before the call. -/
theorem insertion_atomic_on_bad_alloc (m : Mem T) (this : Nat) (c : List (Nat × T)) (k : Nat)
    (v : T) (ho : Owns m this c) (hk : k ≤ c.length)
    (hfail : ∀ n : Node T, m.newNode n = none) :
    PushFront m this v = .bad_alloc m ∧
    InsertAfter m this (posPtr this c k) v = .bad_alloc m ∧
    (∀ m2, PushFront m this v = .bad_alloc m2 →
      Owns m2 this c ∧ GetSize m2 this = GetSize m this ∧ elements m2 this = elements m this) ∧
    (∀ m2, InsertAfter m this (posPtr this c k) v = .bad_alloc m2 →
      Owns m2 this c ∧ GetSize m2 this = GetSize m this ∧ elements m2 this = elements m this) := by
  have hfull : ∀ f : Nat, m.heap[f]? ≠ some none := newNode_none (hfail ⟨v, .null⟩)
  have ho2 : Owns m this (c.take k ++ c.drop k) := by
    rw [List.take_append_drop]
    exact ho
  refine ⟨PushFront_no_memory ho v hfull,
    InsertAfter_no_memory ho2 (IsPos_posPtr this c k hk) v hfull, ?_, ?_⟩
  · intro m2 h
    rw [PushFront_bad_alloc_eq h]
    exact ⟨ho, rfl, rfl⟩
  · intro m2 h
    rw [InsertAfter_bad_alloc_eq h]
    exact ⟨ho, rfl, rfl⟩

/-- Witness for C15: `[1, 2, 3]` in a heap with no free cell. -/
theorem insertion_atomic_on_bad_alloc_witness :
    PushFront fullMem 0 9 = .bad_alloc fullMem ∧
    InsertAfter fullMem 0 (posPtr 0 sampleChain 2) 9 = .bad_alloc fullMem ∧
    (∀ m2, PushFront fullMem 0 9 = .bad_alloc m2 →
      Owns m2 0 sampleChain ∧ GetSize m2 0 = GetSize fullMem 0 ∧
        elements m2 0 = elements fullMem 0) ∧
    (∀ m2, InsertAfter fullMem 0 (posPtr 0 sampleChain 2) 9 = .bad_alloc m2 →
      Owns m2 0 sampleChain ∧ GetSize m2 0 = GetSize fullMem 0 ∧
        elements m2 0 = elements fullMem 0) :=
  insertion_atomic_on_bad_alloc fullMem 0 sampleChain 2 9 fullMem_owns (by decide)
    fullMem_no_node

/-- `Clear()` on a list that is already empty changes nothing at all. -/
theorem Clear_of_empty {m : Mem T} {L : Nat} (ho : Owns m L []) : Clear m L = some m := by
  obtain ⟨o, hobj, hs, hsz⟩ := ho
  have hnull : o.head_.next_node = .null := hs
  have hloop : Clear_loop L (m.heap.length + 1) m = some m := by
    simp [Clear_loop, next_sentinel hobj, hnull]
  simp only [Clear, hloop, setSize_eq hobj, Option.some.injEq]
  have ho2 : ({ o with size_ := 0 } : ListObj T) = o := by
    cases o
    simp only [List.length_nil] at hsz
    simp [hsz]
  have hobjs : m.objs.set L { o with size_ := 0 } = m.objs := by
    rw [ho2]
    apply List.ext_getElem?
    intro k
    by_cases hk : L = k
    · subst hk
      rw [getElem?_set_same hobj, hobj]
    · exact List.getElem?_set_ne hk
  rw [hobjs]

/-- C14: `Clear()` empties the list and is idempotent. After `Clear()` on a list,
`GetSize()` is `0` and `begin() == end()`; a second `Clear()` leaves the memory exactly as
the first one left it; and the cleared list shows what a default-constructed list shows
(size `0`, `begin() == end()`, no elements, sentinel pointing nowhere). -/
theorem Clear_idempotent [Inhabited T] (m : Mem T) (L : Nat) (c : List (Nat × T))
    (ho : Owns m L c) :
    ∃ m2, Clear m L = some m2 ∧
      GetSize m2 L = some 0 ∧ begin_ m2 L = some (end_ m2 L) ∧
      IsEmpty m2 L = some true ∧ elements m2 L = some [] ∧
      m2.next (.sentinel L) = some .null ∧
      Clear m2 L = some m2 ∧
      GetSize (construct_default m2).1 (construct_default m2).2 = GetSize m2 L ∧
      begin_ (construct_default m2).1 (construct_default m2).2 = begin_ m2 L ∧
      elements (construct_default m2).1 (construct_default m2).2 = elements m2 L ∧
      (construct_default m2).1.next (.sentinel (construct_default m2).2) =
        m2.next (.sentinel L) := by
  obtain ⟨m2, hcl, hown, _, _⟩ := Clear_effect ho
  have hd : Owns (construct_default m2).1 (construct_default m2).2 [] := newObject_owns m2
  have hbegin : ∀ {m3 : Mem T} {l : Nat}, Owns m3 l [] → begin_ m3 l = some .null := by
    intro m3 l h
    obtain ⟨p, hp, hseg⟩ := h.begin_seg
    rw [hp, hseg.eq_headPtr]
    rfl
  have hnext : ∀ {m3 : Mem T} {l : Nat}, Owns m3 l [] → m3.next (.sentinel l) = some .null := by
    intro m3 l h
    obtain ⟨o, hobj, hs, _⟩ := h
    have hnull : o.head_.next_node = .null := hs
    rw [next_sentinel hobj, hnull]
  refine ⟨m2, hcl, hown.getSize, hbegin hown, hown.isEmpty, hown.elements, hnext hown,
    Clear_of_empty hown, ?_, ?_, ?_, ?_⟩
  · rw [hd.getSize, hown.getSize]
  · rw [hbegin hd, hbegin hown]
  · rw [hd.elements, hown.elements]
  · rw [hnext hd, hnext hown]

/-- Witness for C14: clearing `[1, 2, 3]` twice. -/
theorem Clear_idempotent_witness :
    ∃ m2, Clear sampleMem 0 = some m2 ∧
      GetSize m2 0 = some 0 ∧ begin_ m2 0 = some (end_ m2 0) ∧
      IsEmpty m2 0 = some true ∧ elements m2 0 = some [] ∧
      m2.next (.sentinel 0) = some .null ∧
      Clear m2 0 = some m2 ∧
      GetSize (construct_default m2).1 (construct_default m2).2 = GetSize m2 0 ∧
      begin_ (construct_default m2).1 (construct_default m2).2 = begin_ m2 0 ∧
      elements (construct_default m2).1 (construct_default m2).2 = elements m2 0 ∧
      (construct_default m2).1.next (.sentinel (construct_default m2).2) =
        m2.next (.sentinel 0) :=
  Clear_idempotent sampleMem 0 sampleChain sampleMem_owns

/-- C19: `InsertAfter(p, v)` followed by `EraseAfter(p)` at the same valid position `p`
(position `k` of a list with chain `c`), when a cell is available for the new node:
the list owns its original nodes again, so its element sequence and `GetSize()` are
restored, the cell of the inserted node is free again, and the iterator returned by
`EraseAfter` is the node that originally followed `p`, or `end()` if there was none. -/
theorem InsertAfter_then_EraseAfter (m : Mem T) (this : Nat) (c : List (Nat × T)) (k : Nat)
    (v : T) (f : Nat) (hb : HeapBounded m) (ho : Owns m this c) (hk : k ≤ c.length)
    (hfree : m.heap[f]? = some none) :
    ∃ a m1 m2 r, InsertAfter m this (posPtr this c k) v = .done m1 (.cell a) ∧
      EraseAfter m1 this (posPtr this c k) = some (m2, r) ∧
      Owns m2 this c ∧
      elements m2 this = elements m this ∧ GetSize m2 this = GetSize m this ∧
      m.next (posPtr this c k) = some r ∧
      (r = match c.get? k with
        | some (b, _) => .cell b
        | none => end_ m2 this) ∧
      m.heap[a]? = some none ∧ m2.heap[a]? = some none := by
  have ho2 : Owns m this (c.take k ++ c.drop k) := by
    rw [List.take_append_drop]
    exact ho
  have hp := IsPos_posPtr this c k hk
  obtain ⟨a, m1, ha, hins, hown1, hmod1⟩ := InsertAfter_effect hb ho2 hp v hfree
  have hb1 : HeapBounded m1 := by
    show m1.heap.length < SIZE_MODULUS
    rw [hmod1.1]
    exact hb
  obtain ⟨m2, her, hown2, _, hfreed⟩ := EraseAfter_effect hb1 hown1 hp
  rw [List.take_append_drop] at hown2
  obtain ⟨o, hobj, hs, hsz⟩ := ho2
  have hnext := (next_at_pos hobj hs hp).1
  refine ⟨a, m1, m2, headPtr (c.drop k), hins, her, hown2, ?_, ?_, hnext, ?_, ha, hfreed⟩
  · rw [hown2.elements, ho.elements]
  · rw [hown2.getSize, ho.getSize]
  · rw [headPtr_drop]
    rfl

/-- Witness for C19: inserting `7` after the second node of `[1, 2, 3]` and erasing it. -/
theorem InsertAfter_then_EraseAfter_witness :
    ∃ a m1 m2 r, InsertAfter sampleMem 0 (posPtr 0 sampleChain 2) 7 = .done m1 (.cell a) ∧
      EraseAfter m1 0 (posPtr 0 sampleChain 2) = some (m2, r) ∧
      Owns m2 0 sampleChain ∧
      elements m2 0 = elements sampleMem 0 ∧ GetSize m2 0 = GetSize sampleMem 0 ∧
      sampleMem.next (posPtr 0 sampleChain 2) = some r ∧
      (r = match sampleChain.get? 2 with
        | some (b, _) => .cell b
        | none => end_ m2 0) ∧
      sampleMem.heap[a]? = some none ∧ m2.heap[a]? = some none :=
  InsertAfter_then_EraseAfter sampleMem 0 sampleChain 2 7 5 sampleMem_bounded sampleMem_owns
    (by decide) rfl

/-! ## Consistency of the comparison operators -/

/-- For an asymmetric `lt` and an `==` that holds exactly between elements neither of
which is less than the other, exactly one of "less", "equal", "greater" holds between
two sequences. -/
theorem lexLists_trichotomy [BEq T] (lt : T → T → Bool)
    (hasym : ∀ x y : T, lt x y = true → lt y x = false)
    (heq : ∀ x y : T, (x == y) = true ↔ (lt x y = false ∧ lt y x = false))
    (xs ys : List T) :
    (lexLists lt xs ys = true ∧ equalLists xs ys = false ∧ lexLists lt ys xs = false) ∨
    (lexLists lt xs ys = false ∧ equalLists xs ys = true ∧ lexLists lt ys xs = false) ∨
    (lexLists lt xs ys = false ∧ equalLists xs ys = false ∧ lexLists lt ys xs = true) := by
  induction xs generalizing ys with
  | nil =>
    cases ys with
    | nil => simp [lexLists, equalLists]
    | cons y ys => simp [lexLists, equalLists]
  | cons x xs ih =>
    cases ys with
    | nil => simp [lexLists, equalLists]
    | cons y ys =>
      by_cases hxy : lt x y = true
      · have hyx : lt y x = false := hasym x y hxy
        have hne : (x == y) = false := by
          cases hb : (x == y) with
          | false => rfl
          | true =>
            have := ((heq x y).1 hb).1
            rw [hxy] at this
            cases this
        simp [lexLists, equalLists, hxy, hyx, hne]
      · have hxy2 : lt x y = false := by simpa using hxy
        by_cases hyx : lt y x = true
        · have hne : (x == y) = false := by
            cases hb : (x == y) with
            | false => rfl
            | true =>
              have := ((heq x y).1 hb).2
              rw [hyx] at this
              cases this
          simp [lexLists, equalLists, hxy2, hyx, hne]
        · have hyx2 : lt y x = false := by simpa using hyx
          have hbeq : (x == y) = true := (heq x y).2 ⟨hxy2, hyx2⟩
          simpa [lexLists, equalLists, hxy2, hyx2, hbeq] using ih ys

theorem natLt_irrefl (x : Nat) : natLt x x = false := by
  simp [natLt]

theorem natLt_trans (x y z : Nat) (h1 : natLt x y = true) (h2 : natLt y z = true) :
    natLt x z = true := by
  simp only [natLt, decide_eq_true_eq] at h1 h2 ⊢
  omega

theorem natLt_total (x y : Nat) (h : x ≠ y) : natLt x y = true ∨ natLt y x = true := by
  simp only [natLt, decide_eq_true_eq]
  omega

theorem nat_beq_iff (x y : Nat) : (x == y) = true ↔ x = y := by
  simp

/-- C18: consistency of the derived comparison operators. When the elements' `<` is a
strict linear order (irreflexive, transitive, total) and `==` is equality, then for two
lists `a` and `b` all six operators return, exactly one of `a < b`, `a == b`, `a > b`
is true, `a <= b` is `!(b < a)`, `a >= b` is `!(a < b)`, and `a != b` is
`(a < b || b < a)`. -/
theorem comparison_operators_consistent [BEq T] (lt : T → T → Bool) (m : Mem T) (a b : Nat)
    (ca cb : List (Nat × T)) (ha : Owns m a ca) (hb : Owns m b cb)
    (hirr : ∀ x : T, lt x x = false)
    (htrans : ∀ x y z : T, lt x y = true → lt y z = true → lt x z = true)
    (htotal : ∀ x y : T, x ≠ y → lt x y = true ∨ lt y x = true)
    (hbeq : ∀ x y : T, (x == y) = true ↔ x = y) :
    ∃ rlt req rgt rle rge rne rba,
      operator_lt lt m a b = some rlt ∧ operator_eq m a b = some req ∧
      operator_gt lt m a b = some rgt ∧ operator_le lt m a b = some rle ∧
      operator_ge lt m a b = some rge ∧ operator_ne m a b = some rne ∧
      operator_lt lt m b a = some rba ∧
      ((rlt = true ∧ req = false ∧ rgt = false) ∨
        (rlt = false ∧ req = true ∧ rgt = false) ∨
        (rlt = false ∧ req = false ∧ rgt = true)) ∧
      rle = !rba ∧ rge = !rlt ∧ rne = (rlt || rba) := by
  have hasym : ∀ x y : T, lt x y = true → lt y x = false := by
    intro x y hxy
    cases hyx : lt y x with
    | false => rfl
    | true =>
      have := htrans x y x hxy hyx
      rw [hirr x] at this
      cases this
  have heq : ∀ x y : T, (x == y) = true ↔ (lt x y = false ∧ lt y x = false) := by
    intro x y
    rw [hbeq]
    constructor
    · rintro rfl
      exact ⟨hirr x, hirr x⟩
    · rintro ⟨h1, h2⟩
      by_contra hne
      rcases htotal x y hne with h | h
      · rw [h1] at h
        cases h
      · rw [h2] at h
        cases h
  have hlt := operator_lt_owned lt ha hb
  have hgt := operator_lt_owned lt hb ha
  have heqo := operator_eq_owned ha hb
  have htri := lexLists_trichotomy lt hasym heq (vals ca) (vals cb)
  refine ⟨lexLists lt (vals ca) (vals cb), equalLists (vals ca) (vals cb),
    lexLists lt (vals cb) (vals ca),
    (lexLists lt (vals ca) (vals cb) || equalLists (vals ca) (vals cb)),
    (lexLists lt (vals cb) (vals ca) || equalLists (vals ca) (vals cb)),
    !equalLists (vals ca) (vals cb), lexLists lt (vals cb) (vals ca),
    hlt, heqo, hgt, ?_, ?_, ?_, hgt, htri, ?_, ?_, ?_⟩
  · simp only [operator_le, hlt, heqo]
    cases lexLists lt (vals ca) (vals cb) <;> rfl
  · simp only [operator_ge, hgt, heqo]
    cases lexLists lt (vals cb) (vals ca) <;> rfl
  · simp only [operator_ne, heqo, Option.map_some']
  · rcases htri with ⟨h1, h2, h3⟩ | ⟨h1, h2, h3⟩ | ⟨h1, h2, h3⟩ <;> simp [h1, h2, h3]
  · rcases htri with ⟨h1, h2, h3⟩ | ⟨h1, h2, h3⟩ | ⟨h1, h2, h3⟩ <;> simp [h1, h2, h3]
  · rcases htri with ⟨h1, h2, h3⟩ | ⟨h1, h2, h3⟩ | ⟨h1, h2, h3⟩ <;> simp [h1, h2, h3]

/-- Witness for C18: the lists `[1, 3]` and `[1, 2, 9]` of natural numbers. -/
theorem comparison_operators_consistent_witness :
    (∃ rlt req rgt rle rge rne rba,
      operator_lt natLt compareMem 3 4 = some rlt ∧ operator_eq compareMem 3 4 = some req ∧
      operator_gt natLt compareMem 3 4 = some rgt ∧ operator_le natLt compareMem 3 4 = some rle ∧
      operator_ge natLt compareMem 3 4 = some rge ∧ operator_ne compareMem 3 4 = some rne ∧
      operator_lt natLt compareMem 4 3 = some rba ∧
      ((rlt = true ∧ req = false ∧ rgt = false) ∨
        (rlt = false ∧ req = true ∧ rgt = false) ∨
        (rlt = false ∧ req = false ∧ rgt = true)) ∧
      rle = !rba ∧ rge = !rlt ∧ rne = (rlt || rba)) ∧
    operator_lt natLt compareMem 3 4 = some false ∧
    operator_eq compareMem 3 4 = some false ∧
    operator_gt natLt compareMem 3 4 = some true ∧
    operator_le natLt compareMem 3 4 = some false ∧
    operator_ge natLt compareMem 3 4 = some true ∧
    operator_ne compareMem 3 4 = some true :=
  ⟨comparison_operators_consistent natLt compareMem 3 4 _ _ compareMem_owns3 compareMem_owns4
    natLt_irrefl natLt_trans natLt_total nat_beq_iff,
    by decide, by decide, by decide, by decide, by decide, by decide⟩

/-! ## The iterations of `Clear` -/

/-- The loop of `Clear()` is the recorded loop with the record dropped. -/
theorem Clear_loop_eq_trace (this : Nat) (fuel : Nat) (m : Mem T) :
    Clear_loop this fuel m = (Clear_loop_trace this fuel m).map Prod.fst := by
  induction fuel generalizing m with
  | zero => rfl
  | succ fuel ih =>
    simp only [Clear_loop, Clear_loop_trace, Clear_body]
    cases hn : m.next (.sentinel this) with
    | none => rfl
    | some temp =>
      simp only
      by_cases ht : temp = .null
      · simp [ht]
      · simp only [ne_eq, ht, not_false_eq_true, if_true]
        cases m.next temp with
        | none => rfl
        | some nn =>
          simp only
          cases m.setNext (.sentinel this) nn with
          | none => rfl
          | some m1 =>
            simp only
            cases m1.delete temp with
            | none => rfl
            | some m2 =>
              simp only [ih m2]
              cases Clear_loop_trace this fuel m2 with
              | none => rfl
              | some r => rfl

/-- One pass of the loop body on a non-empty chain destroys the first node and leaves the
rest of the chain behind the sentinel. -/
theorem Clear_body_effect {this : Nat} {m : Mem T} {o : ListObj T} {b : Nat} {vb : T}
    {c : List (Nat × T)} (hobj : m.objs[this]? = some o)
    (hs : IsSeg m.heap o.head_.next_node ((b, vb) :: c) .null) :
    ∃ m2 o2, Clear_body this m = some (m2, .cell b) ∧
      m.next (.sentinel this) = some (.cell b) ∧
      m.heap[b]? = some (some ⟨vb, headPtr c⟩) ∧ m2.heap[b]? = some none ∧
      m2.objs[this]? = some o2 ∧ IsSeg m2.heap o2.head_.next_node c .null := by
  have hnd := hs.nodup
  obtain ⟨hfirst, nx, hcell, hrest⟩ := hs
  have hnx : nx = headPtr c := hrest.eq_headPtr
  subst hnx
  have hbc : b ∉ addrs c := (List.nodup_cons.1 hnd).1
  let o1 : ListObj T := { o with head_ := { o.head_ with next_node := headPtr c } }
  let m1 : Mem T := { m with objs := m.objs.set this o1 }
  have hcell1 : m1.heap[b]? = some (some ⟨vb, headPtr c⟩) := hcell
  refine ⟨{ m1 with heap := m1.heap.set b none }, o1, ?_, ?_, hcell, getElem?_set_same hcell1,
    getElem?_set_same hobj, hrest.set_of_not_mem hbc _⟩
  · simp only [Clear_body, next_sentinel hobj, hfirst, next_cell hcell,
      setNext_sentinel_eq hobj]
    rw [delete_cell_eq hcell1]
  · rw [next_sentinel hobj, hfirst]

/-- The recorded loop on a chain, with enough fuel: the nodes destroyed are the nodes of
the chain, front to back. -/
theorem Clear_loop_trace_chain {this : Nat} {c : List (Nat × T)} {m : Mem T} {o : ListObj T}
    {fuel : Nat} (hobj : m.objs[this]? = some o)
    (hs : IsSeg m.heap o.head_.next_node c .null) (hf : c.length < fuel) :
    ∃ m2, Clear_loop_trace this fuel m = some (m2, (addrs c).map NodePtr.cell) := by
  induction c generalizing m o fuel with
  | nil =>
    have hnull : o.head_.next_node = .null := hs
    cases fuel with
    | zero => omega
    | succ fuel =>
      exact ⟨m, by simp [Clear_loop_trace, next_sentinel hobj, hnull, addrs]⟩
  | cons x c ih =>
    obtain ⟨b, vb⟩ := x
    cases fuel with
    | zero => omega
    | succ fuel =>
      have hlt : c.length < fuel := by
        simp only [List.length_cons] at hf
        omega
      obtain ⟨m2, o2, hbody, hfirst, _, _, hobj2, hs2⟩ := Clear_body_effect hobj hs
      obtain ⟨m3, hrec⟩ := ih hobj2 hs2 hlt
      refine ⟨m3, ?_⟩
      simp only [Clear_loop_trace, hfirst, ne_eq, reduceCtorEq, not_false_eq_true, if_true,
        hbody, hrec, addrs_cons, List.map_cons]

/-- The loop on a chain of `n` nodes needs more than `n` evaluations of its guard: with
fuel `n` it has not finished. -/
theorem Clear_loop_fuel_short {this : Nat} {c : List (Nat × T)} {m : Mem T} {o : ListObj T}
    {fuel : Nat} (hobj : m.objs[this]? = some o)
    (hs : IsSeg m.heap o.head_.next_node c .null) (hf : fuel ≤ c.length) :
    Clear_loop_trace this fuel m = none := by
  induction c generalizing m o fuel with
  | nil =>
    have h0 : fuel = 0 := by simpa using hf
    subst h0
    rfl
  | cons x c ih =>
    obtain ⟨b, vb⟩ := x
    cases fuel with
    | zero => rfl
    | succ fuel =>
      have hle : fuel ≤ c.length := by
        simp only [List.length_cons] at hf
        omega
      obtain ⟨m2, o2, hbody, hfirst, _, _, hobj2, hs2⟩ := Clear_body_effect hobj hs
      simp only [Clear_loop_trace, hfirst, ne_eq, reduceCtorEq, not_false_eq_true, if_true,
        hbody, ih hobj2 hs2 hle]

/-- More fuel does not change the outcome of a loop that has finished. -/
theorem Clear_loop_trace_mono (this : Nat) {f : Nat} {m : Mem T} {r : Mem T × List NodePtr}
    (h : Clear_loop_trace this f m = some r) {g : Nat} (hle : f ≤ g) :
    Clear_loop_trace this g m = some r := by
  induction f generalizing m r g with
  | zero => cases h
  | succ f ih =>
    cases g with
    | zero => omega
    | succ g =>
      have hfg : f ≤ g := by omega
      simp only [Clear_loop_trace] at h ⊢
      cases hn : m.next (.sentinel this) with
      | none => simp [hn] at h
      | some temp =>
        simp only [hn] at h ⊢
        by_cases ht : temp = .null
        · simpa [ht] using h
        · simp only [ne_eq, ht, not_false_eq_true, if_true] at h ⊢
          cases hbody : Clear_body this m with
          | none => simp [hbody] at h
          | some q =>
            obtain ⟨m2, d⟩ := q
            simp only [hbody] at h ⊢
            cases hrec : Clear_loop_trace this f m2 with
            | none => simp [hrec] at h
            | some q2 =>
              obtain ⟨m3, ds⟩ := q2
              simp only [hrec] at h
              rw [ih hrec hfg]
              exact h

/-- C17: `Clear()` terminates and removes every node. For a list whose chain from the
sentinel is finite and null-terminated with nodes `c` (`n = c.length`), the loop performs
exactly `n` iterations: the nodes destroyed, one per iteration, are the nodes of the chain
from front to back, the loop finishes on its `(n + 1)`-th evaluation of the guard and not
earlier, every node's cell is released, and `Clear()` ends with the sentinel's successor
null and `size_` equal to `0`. -/
theorem Clear_terminates (m : Mem T) (this : Nat) (o : ListObj T) (c : List (Nat × T))
    (hobj : m.objs[this]? = some o) (hs : IsSeg m.heap o.head_.next_node c .null) :
    ∃ m1 m2 destroyed,
      Clear_loop_trace this (m.heap.length + 1) m = some (m1, destroyed) ∧
      Clear_loop this (m.heap.length + 1) m = some m1 ∧
      destroyed = (addrs c).map NodePtr.cell ∧ destroyed.length = c.length ∧
      Clear_loop this (c.length + 1) m = some m1 ∧
      Clear_loop this c.length m = none ∧
      Clear m this = some m2 ∧
      m1.next (.sentinel this) = some .null ∧
      m2.next (.sentinel this) = some .null ∧ GetSize m2 this = some 0 ∧
      (∀ a, a ∈ addrs c → m2.heap[a]? = some none) ∧
      (∀ a, a ∉ addrs c → m2.heap[a]? = m.heap[a]?) := by
  have hlen := hs.length_le
  have hfuel : c.length < m.heap.length + 1 := by omega
  obtain ⟨m1, htrace0⟩ := Clear_loop_trace_chain hobj hs (Nat.lt_succ_self c.length)
  have htrace := Clear_loop_trace_mono this htrace0 (Nat.succ_le_of_lt hfuel)
  obtain ⟨m1c, o1, hloop, hobj1, hnull1, _, _⟩ := Clear_loop_effect hobj hs hfuel
  obtain ⟨m2, hclear, hown, hmod, hfreed⟩ := Clear_effect_of_seg hobj hs
  have e1 : m1c = m1 := by
    have h := Clear_loop_eq_trace this (m.heap.length + 1) m
    rw [hloop, htrace] at h
    simpa using h
  subst e1
  obtain ⟨o2, hobj2, hs2, hsz2⟩ := hown
  have hnull2 : o2.head_.next_node = .null := hs2
  refine ⟨m1c, m2, (addrs c).map NodePtr.cell, htrace, hloop, rfl, ?_, ?_, ?_, hclear, ?_, ?_,
    Owns.getSize ⟨o2, hobj2, hs2, hsz2⟩, hfreed, hmod.2.2.1⟩
  · simp [addrs]
  · rw [Clear_loop_eq_trace, htrace0]
    rfl
  · rw [Clear_loop_eq_trace, Clear_loop_fuel_short hobj hs (Nat.le_refl _)]
    rfl
  · rw [next_sentinel hobj1, hnull1]
  · rw [next_sentinel hobj2, hnull2]

/-- Witness for C17: clearing `[1, 2, 3]` destroys cells 0, 1, 2 in that order. -/
theorem Clear_terminates_witness :
    (∃ m1 m2 destroyed,
      Clear_loop_trace 0 (sampleMem.heap.length + 1) sampleMem = some (m1, destroyed) ∧
      Clear_loop 0 (sampleMem.heap.length + 1) sampleMem = some m1 ∧
      destroyed = (addrs sampleChain).map NodePtr.cell ∧
      destroyed.length = sampleChain.length ∧
      Clear_loop 0 (sampleChain.length + 1) sampleMem = some m1 ∧
      Clear_loop 0 sampleChain.length sampleMem = none ∧
      Clear sampleMem 0 = some m2 ∧
      m1.next (.sentinel 0) = some .null ∧
      m2.next (.sentinel 0) = some .null ∧ GetSize m2 0 = some 0 ∧
      (∀ a, a ∈ addrs sampleChain → m2.heap[a]? = some none) ∧
      (∀ a, a ∉ addrs sampleChain → m2.heap[a]? = sampleMem.heap[a]?)) ∧
    (Clear_loop_trace 0 (sampleMem.heap.length + 1) sampleMem).map Prod.snd =
      some [.cell 0, .cell 1, .cell 2] :=
  ⟨Clear_terminates sampleMem 0 ⟨⟨0, .cell 0⟩, 3⟩ sampleChain rfl
    ⟨rfl, .cell 1, rfl, rfl, .cell 2, rfl, rfl, .null, rfl, rfl⟩, by decide⟩

/-! ## Copy construction and copy assignment -/

/-- A list of the old memory keeps its chain through a construction that wrote only
formerly free cells and the new object. -/
theorem Owns.after_construct [Inhabited T] {m m2 : Mem T} {k : Nat} {c : List (Nat × T)}
    {A : List Nat} (h : Owns m k c)
    (hmod : Modifies A m.objs.length (SingleLinkedList.newObject m) m2)
    (hA : ∀ a, a ∈ A → m.heap[a]? = some none) : Owns m2 k c := by
  have hk : k ≠ m.objs.length := Nat.ne_of_lt h.lt_length
  apply h.newObject.frame hmod hk
  intro a ha hmem
  obtain ⟨o, _, hs, _⟩ := h
  exact hs.not_mem_of_free (hA a hmem) ha

/-- A list other than the last object is still there after the last object is released. -/
theorem Owns.after_dropObject {m : Mem T} {k : Nat} {c : List (Nat × T)} (h : Owns m k c)
    (hk : k < m.objs.length - 1) : Owns (dropObject m) k c := by
  obtain ⟨o, hobj, hs, hsz⟩ := h
  refine ⟨o, ?_, hs, hsz⟩
  show m.objs.dropLast[k]? = some o
  rw [List.getElem?_dropLast, if_pos hk]
  exact hobj

/-- A list keeps its chain when only formerly free cells are written. -/
theorem Owns.after_leak {m m2 : Mem T} {k : Nat} {c : List (Nat × T)} (h : Owns m k c)
    (hobjs : m2.objs = m.objs)
    (hheap : ∀ a : Nat, m2.heap[a]? = m.heap[a]? ∨ m.heap[a]? = some none) : Owns m2 k c := by
  obtain ⟨o, hobj, hs, hsz⟩ := h
  refine ⟨o, by rw [hobjs]; exact hobj, ?_, hsz⟩
  apply hs.congr
  intro a ha
  rcases hheap a with e | e
  · exact e
  · exact absurd ha (hs.not_mem_of_free e)

/-- The copy constructor from an owned list, with enough free cells: the new object owns
fresh nodes holding the same values in the same order. -/
theorem construct_copy_effect [Inhabited T] {m : Mem T} {R : Nat} {cR : List (Nat × T)}
    (hb : HeapBounded m) (hR : Owns m R cR) (hmem : cR.length ≤ freeCells m.heap) :
    ∃ m2 cn, construct_copy m R = .done m2 m.objs.length ∧ vals cn = vals cR ∧
      (∀ a, a ∈ addrs cn → m.heap[a]? = some none) ∧ Owns m2 m.objs.length cn ∧
      Modifies (addrs cn) m.objs.length (newObject m) m2 := by
  rw [construct_copy_eq_values hR]
  exact construct_values_effect hb (vals cR) (by rw [vals_length]; exact hmem)

/-- The copy assignment `L = R` for two different lists with disjoint chains, with enough
free cells: `L` ends up owning fresh nodes holding the values of `R`, its former nodes
are released, and every other list whose chain is disjoint from the former chain of `L`
keeps its chain. -/
theorem operator_assign_effect [Inhabited T] {m : Mem T} {L R : Nat} {cL cR : List (Nat × T)}
    (hb : HeapBounded m) (hL : Owns m L cL) (hR : Owns m R cR) (hne : L ≠ R)
    (hmem : cR.length ≤ freeCells m.heap) :
    ∃ m2 cn, operator_assign m L R = .done m2 () ∧ vals cn = vals cR ∧
      (∀ a, a ∈ addrs cn → m.heap[a]? = some none) ∧ Owns m2 L cn ∧
      m2.heap.length = m.heap.length ∧
      (∀ a, a ∈ addrs cL → m2.heap[a]? = some none) ∧
      (∀ K cK, K ≠ L → Owns m K cK → (∀ a, a ∈ addrs cL → a ∉ addrs cK) → Owns m2 K cK) := by
  obtain ⟨m1, cn, hcopy, hvals, hfree, hown1, hmod1⟩ := construct_copy_effect hb hR hmem
  have hL1 : Owns m1 L cL := hL.after_construct hmod1 hfree
  have hLlt := hL.lt_length
  have hlen1 : m1.objs.length = m.objs.length + 1 := by
    rw [hmod1.2.1, newObject_length]
  obtain ⟨ms, hsw, hheaps, hlens, hsL, hsT, hsrest⟩ := swap_effect hL1 hown1
  obtain ⟨mc, hcl, _, hmodc, hfreedc⟩ := Clear_effect hsT
  have hcn_cL : ∀ a, a ∈ addrs cn → a ∉ addrs cL := by
    intro a ha hmem2
    obtain ⟨o, _, hs, _⟩ := hL
    exact hs.not_mem_of_free (hfree a ha) hmem2
  have hkeep : ∀ K cK, K ≠ L → Owns m K cK → (∀ a, a ∈ addrs cL → a ∉ addrs cK) →
      Owns mc K cK := by
    intro K cK hK hoK hdis
    have hKlt := hoK.lt_length
    have hKT : K ≠ m.objs.length := Nat.ne_of_lt hKlt
    obtain ⟨o, hobj, hs, hsz⟩ := hoK.after_construct hmod1 hfree
    have hoKs : Owns ms K cK := by
      refine ⟨o, ?_, ?_, hsz⟩
      · rw [hsrest K hK hKT]
        exact hobj
      · rw [hheaps]
        exact hs
    apply hoKs.frame hmodc hKT
    intro a ha hmem2
    exact hdis a hmem2 ha
  have hLc : Owns mc L cn := by
    apply hsL.frame hmodc (Nat.ne_of_lt hLlt)
    intro a ha hmem2
    exact hcn_cL a ha hmem2
  have hlenc : mc.objs.length = m.objs.length + 1 := by
    rw [hmodc.2.1, hlens, hlen1]
  refine ⟨dropObject mc, cn, ?_, hvals, hfree, ?_, ?_, hfreedc, ?_⟩
  · simp only [operator_assign, ne_eq, hne, not_false_eq_true, if_true, hcopy, hsw, destructor,
      hcl]
  · apply hLc.after_dropObject
    rw [hlenc]
    simpa using hLlt
  · show mc.heap.length = m.heap.length
    rw [hmodc.1, hheaps, hmod1.1]
    rfl
  · intro K cK hK hoK hdis
    apply (hkeep K cK hK hoK hdis).after_dropObject
    rw [hlenc]
    simpa using hoK.lt_length

theorem equalLists_self [BEq T] (hrefl : ∀ x : T, (x == x) = true) (xs : List T) :
    equalLists xs xs = true := by
  induction xs with
  | nil => rfl
  | cons x xs ih => simp [equalLists, hrefl x, ih]

/-- A sequence compares equal to itself with `std::equal` exactly when each of its
elements compares equal to itself with `==`. -/
theorem equalLists_self_iff [BEq T] (xs : List T) :
    equalLists xs xs = true ↔ ∀ x, x ∈ xs → (x == x) = true := by
  induction xs with
  | nil => simp [equalLists]
  | cons x xs ih =>
    by_cases hx : (x == x) = true
    · simp [equalLists, hx, ih]
    · simp [equalLists, hx]

/-- C11 (as amended): copy construction and copy assignment copy the values. For a list
`R` with chain `cR` and enough free cells for a copy: the copy-constructed list, and any
list `L` after `L = R`, has the element sequence of `R` in the same order and the same
`GetSize()`, and `R` itself keeps its nodes, elements and size; `operator==` between the
copy and `R` returns, and it returns `true` exactly when every element of `R` compares
equal to itself with the elements' `==` (so it is `true` for every element type with a
reflexive `==`). -/
theorem copy_produces_equal_values [Inhabited T] [BEq T] (m : Mem T) (L R : Nat)
    (cL cR : List (Nat × T)) (hb : HeapBounded m) (hL : Owns m L cL) (hR : Owns m R cR)
    (hmem : cR.length ≤ freeCells m.heap)
    (hdis : L ≠ R → ∀ a, a ∈ addrs cL → a ∉ addrs cR) :
    (∃ m2 copy r, construct_copy m R = .done m2 copy ∧
      elements m2 copy = some (vals cR) ∧ GetSize m2 copy = some cR.length ∧
      Owns m2 R cR ∧ elements m2 R = elements m R ∧ GetSize m2 R = GetSize m R ∧
      elements m2 copy = elements m2 R ∧ GetSize m2 copy = GetSize m2 R ∧
      operator_eq m2 copy R = some r ∧
      (r = true ↔ ∀ x, x ∈ vals cR → (x == x) = true)) ∧
    (∃ m2 r, operator_assign m L R = .done m2 () ∧
      elements m2 L = some (vals cR) ∧ GetSize m2 L = some cR.length ∧
      Owns m2 R cR ∧ elements m2 R = elements m R ∧ GetSize m2 R = GetSize m R ∧
      elements m2 L = elements m2 R ∧ GetSize m2 L = GetSize m2 R ∧
      operator_eq m2 L R = some r ∧
      (r = true ↔ ∀ x, x ∈ vals cR → (x == x) = true)) := by
  have hfin : ∀ {m2 : Mem T} {K : Nat} {cn : List (Nat × T)}, Owns m2 K cn →
      vals cn = vals cR → Owns m2 R cR →
      elements m2 K = some (vals cR) ∧ GetSize m2 K = some cR.length ∧
      Owns m2 R cR ∧ elements m2 R = elements m R ∧ GetSize m2 R = GetSize m R ∧
      elements m2 K = elements m2 R ∧ GetSize m2 K = GetSize m2 R ∧
      operator_eq m2 K R = some (equalLists (vals cR) (vals cR)) ∧
      (equalLists (vals cR) (vals cR) = true ↔ ∀ x, x ∈ vals cR → (x == x) = true) := by
    intro m2 K cn hown hvals hR2
    have hlen : cn.length = cR.length := by
      rw [← vals_length cn, hvals, vals_length]
    refine ⟨?_, ?_, hR2, ?_, ?_, ?_, ?_, ?_, equalLists_self_iff _⟩
    · rw [hown.elements, hvals]
    · rw [hown.getSize, hlen]
    · rw [hR2.elements, hR.elements]
    · rw [hR2.getSize, hR.getSize]
    · rw [hown.elements, hR2.elements, hvals]
    · rw [hown.getSize, hR2.getSize, hlen]
    · rw [operator_eq_owned hown hR2, hvals]
  constructor
  · obtain ⟨m2, cn, hcopy, hvals, hfree, hown, hmod⟩ := construct_copy_effect hb hR hmem
    have hR2 : Owns m2 R cR := hR.after_construct hmod hfree
    exact ⟨m2, m.objs.length, equalLists (vals cR) (vals cR), hcopy, hfin hown hvals hR2⟩
  · by_cases hne : L = R
    · subst hne
      have hc := hL.chain_unique hR
      subst hc
      exact ⟨m, equalLists (vals cL) (vals cL), by simp [operator_assign], hfin hL rfl hL⟩
    · obtain ⟨m2, cn, hassign, hvals, _, hown, _, _, hkeep⟩ :=
        operator_assign_effect hb hL hR hne hmem
      have hR2 : Owns m2 R cR := hkeep R cR (Ne.symm hne) hR (hdis hne)
      exact ⟨m2, equalLists (vals cR) (vals cR), hassign, hfin hown hvals hR2⟩

theorem nat_beq_refl (x : Nat) : (x == x) = true := by
  simp

/-- Witness for C11: copying `[1, 2, 3]` and assigning it to the list `[4, 5]`; the copy
compares equal to the original. -/
theorem copy_produces_equal_values_witness :
    ((∃ m2 copy r, construct_copy sampleMem 0 = .done m2 copy ∧
      elements m2 copy = some (vals sampleChain) ∧ GetSize m2 copy = some sampleChain.length ∧
      Owns m2 0 sampleChain ∧ elements m2 0 = elements sampleMem 0 ∧
      GetSize m2 0 = GetSize sampleMem 0 ∧
      elements m2 copy = elements m2 0 ∧ GetSize m2 copy = GetSize m2 0 ∧
      operator_eq m2 copy 0 = some r ∧
      (r = true ↔ ∀ x, x ∈ vals sampleChain → (x == x) = true)) ∧
    (∃ m2 r, operator_assign sampleMem 1 0 = .done m2 () ∧
      elements m2 1 = some (vals sampleChain) ∧ GetSize m2 1 = some sampleChain.length ∧
      Owns m2 0 sampleChain ∧ elements m2 0 = elements sampleMem 0 ∧
      GetSize m2 0 = GetSize sampleMem 0 ∧
      elements m2 1 = elements m2 0 ∧ GetSize m2 1 = GetSize m2 0 ∧
      operator_eq m2 1 0 = some r ∧
      (r = true ↔ ∀ x, x ∈ vals sampleChain → (x == x) = true))) ∧
    operator_eq copiedMem 1 0 = some true :=
  ⟨copy_produces_equal_values sampleMem 1 0 sampleChain2 sampleChain sampleMem_bounded
    sampleMem_owns2 sampleMem_owns (by decide) (fun _ => by decide), by decide⟩

/-- Counterexample to C11 as first stated ("so `L == R` holds afterwards", for every
list): for the one-element list `[NaN]` of an element type whose `==` is not reflexive,
the copy-constructed list and the assigned-to list have the same elements and size as
the original, yet `operator==` between the copy and the original is `false`. -/
theorem copy_of_nan_list_not_equal :
    HeapBounded nanMem ∧ Owns nanMem 0 [(0, Dbl.nan)] ∧ Owns nanMem 1 [] ∧
    (construct_copy nanMem 0 = .done nanCopied 2 ∧
      elements nanCopied 2 = some [Dbl.nan] ∧ elements nanCopied 0 = some [Dbl.nan] ∧
      GetSize nanCopied 2 = some 1 ∧ GetSize nanCopied 0 = some 1 ∧
      operator_eq nanCopied 2 0 = some false ∧ operator_eq nanCopied 2 0 ≠ some true) ∧
    (operator_assign nanMem 1 0 = .done nanAssigned () ∧
      elements nanAssigned 1 = some [Dbl.nan] ∧ elements nanAssigned 0 = some [Dbl.nan] ∧
      GetSize nanAssigned 1 = some 1 ∧ GetSize nanAssigned 0 = some 1 ∧
      operator_eq nanAssigned 1 0 = some false ∧ operator_eq nanAssigned 1 0 ≠ some true) :=
  ⟨by show (3 : Nat) < 2 ^ 64; norm_num,
    ⟨⟨⟨.finite 0, .cell 0⟩, 1⟩, rfl, ⟨rfl, .null, rfl, rfl⟩, rfl⟩,
    ⟨⟨⟨.finite 0, .null⟩, 0⟩, rfl, rfl, rfl⟩,
    ⟨rfl, rfl, rfl, rfl, rfl, by decide, by decide⟩,
    ⟨rfl, rfl, rfl, rfl, rfl, by decide, by decide⟩⟩

/-! ## Exception safety of the assignment -/

/-- The assignment throws only when the construction of the temporary copy throws, and
then with the memory that construction left. -/
theorem operator_assign_throws [Inhabited T] {m m2 : Mem T} {L R : Nat}
    (h : operator_assign m L R = .bad_alloc m2) :
    L ≠ R ∧ construct_copy m R = .bad_alloc m2 := by
  unfold operator_assign at h
  by_cases hne : L = R
  · simp [hne] at h
  · refine ⟨hne, ?_⟩
    simp only [ne_eq, hne, not_false_eq_true, if_true] at h
    cases hcopy : construct_copy m R with
    | undefined => simp [hcopy] at h
    | bad_alloc m1 =>
      simp only [hcopy, Res.bad_alloc.injEq] at h
      rw [h]
    | done m1 temp =>
      simp only [hcopy] at h
      cases hsw : swap m1 L temp with
      | none => simp [hsw] at h
      | some m3 =>
        simp only [hsw] at h
        cases hd : destructor m3 temp with
        | none => simp [hd] at h
        | some m4 => simp [hd] at h

/-- C16: strong exception safety of the assignment. If a node creation fails while
`operator=` builds the temporary copy of the right-hand side `R`, the call throws
`std::bad_alloc` and both the assigned-to list `L` and `R` have exactly the nodes,
element sequence and `GetSize()` they had before; no list object is touched (only cells
that were free have been written), the target being modified only by the `swap` that
follows a completed copy. The failure occurs exactly when `R` has more elements than
there are free cells. -/
theorem assignment_strong_exception_safety [Inhabited T] (m : Mem T) (L R : Nat)
    (cL cR : List (Nat × T)) (hb : HeapBounded m) (hL : Owns m L cL) (hR : Owns m R cR)
    (hne : L ≠ R) :
    (∀ m2, operator_assign m L R = .bad_alloc m2 →
      construct_copy m R = .bad_alloc m2 ∧ freeCells m.heap < cR.length ∧
      m2.objs = m.objs ∧
      (∀ a : Nat, m2.heap[a]? = m.heap[a]? ∨ m.heap[a]? = some none) ∧
      Owns m2 L cL ∧ Owns m2 R cR ∧
      elements m2 L = elements m L ∧ GetSize m2 L = GetSize m L ∧
      elements m2 R = elements m R ∧ GetSize m2 R = GetSize m R) ∧
    (freeCells m.heap < cR.length → ∃ m2, operator_assign m L R = .bad_alloc m2) := by
  have hcases := construct_values_cases hb (vals cR)
  rw [← construct_copy_eq_values hR, vals_length] at hcases
  constructor
  · intro m2 h
    obtain ⟨_, hcopy⟩ := operator_assign_throws h
    rcases hcases with ⟨m3, cn, hdone, _⟩ | ⟨m3, hbad, hobjs, _, hheap, hlt⟩
    · rw [hcopy] at hdone
      cases hdone
    · rw [hcopy] at hbad
      cases hbad
      have hL2 := hL.after_leak hobjs hheap
      have hR2 := hR.after_leak hobjs hheap
      refine ⟨hcopy, hlt, hobjs, hheap, hL2, hR2, ?_, ?_, ?_, ?_⟩
      · rw [hL2.elements, hL.elements]
      · rw [hL2.getSize, hL.getSize]
      · rw [hR2.elements, hR.elements]
      · rw [hR2.getSize, hR.getSize]
  · intro hlt
    rcases hcases with ⟨m3, cn, _, _, _, _, _, hle⟩ | ⟨m3, hbad, _⟩
    · omega
    · refine ⟨m3, ?_⟩
      simp only [operator_assign, ne_eq, hne, not_false_eq_true, if_true, hbad]

theorem tightMem_bounded : HeapBounded tightMem := by
  show (6 : Nat) < 2 ^ 64
  norm_num

theorem tightMem_owns : Owns tightMem 0 sampleChain :=
  ⟨⟨⟨0, .cell 0⟩, 3⟩, rfl, ⟨rfl, .cell 1, rfl, rfl, .cell 2, rfl, rfl, .null, rfl, rfl⟩, rfl⟩

theorem tightMem_owns2 : Owns tightMem 1 sampleChain2 :=
  ⟨⟨⟨0, .cell 3⟩, 2⟩, rfl, ⟨rfl, .cell 4, rfl, rfl, .null, rfl, rfl⟩, rfl⟩

/-- Witness for C16: assigning `[1, 2, 3]` to the list `[4, 5]` with a single free cell. -/
theorem assignment_strong_exception_safety_witness :
    ((∀ m2, operator_assign tightMem 1 0 = .bad_alloc m2 →
      construct_copy tightMem 0 = .bad_alloc m2 ∧
      freeCells tightMem.heap < sampleChain.length ∧
      m2.objs = tightMem.objs ∧
      (∀ a : Nat, m2.heap[a]? = tightMem.heap[a]? ∨ tightMem.heap[a]? = some none) ∧
      Owns m2 1 sampleChain2 ∧ Owns m2 0 sampleChain ∧
      elements m2 1 = elements tightMem 1 ∧ GetSize m2 1 = GetSize tightMem 1 ∧
      elements m2 0 = elements tightMem 0 ∧ GetSize m2 0 = GetSize tightMem 0) ∧
    (freeCells tightMem.heap < sampleChain.length →
      ∃ m2, operator_assign tightMem 1 0 = .bad_alloc m2)) ∧
    (∃ m2, operator_assign tightMem 1 0 = .bad_alloc m2 ∧
      elements m2 1 = some [4, 5] ∧ GetSize m2 1 = some 2 ∧
      elements m2 0 = some [1, 2, 3] ∧ GetSize m2 0 = some 3) :=
  ⟨assignment_strong_exception_safety tightMem 1 0 sampleChain2 sampleChain tightMem_bounded
    tightMem_owns2 tightMem_owns (by decide),
    ⟨{ tightMem with heap := tightMem.heap.set 5 (some ⟨1, .null⟩) }, by rfl, by decide,
      by decide, by decide, by decide⟩⟩

/-! ## Independence of a copy -/

/-- A valid position of a list cuts the chain the list owns in two. -/
theorem ValidPos.cut {m : Mem T} {this : Nat} {pos : NodePtr} {c : List (Nat × T)}
    (hv : ValidPos m this pos) (ho : Owns m this c) :
    ∃ c1 c2, c = c1 ++ c2 ∧ IsPos this c1 pos := by
  rcases hv with rfl | ⟨d, a, hd, ha, rfl⟩
  · exact ⟨[], c, rfl, IsPos.sentinel this⟩
  · have e := hd.chain_unique ho
    subst e
    obtain ⟨y, hy, hya⟩ := List.mem_map.1 ha
    obtain ⟨c0, c2, hc⟩ := List.append_of_mem hy
    obtain ⟨a2, v⟩ := y
    simp only at hya
    subst hya
    refine ⟨c0 ++ [(a2, v)], c2, ?_, IsPos.last this c0 a2 v⟩
    rw [List.append_assoc]
    exact hc

/-- What one mutating call on a list can touch: besides the list object, only nodes of
the list and formerly free cells; and the nodes of the list afterwards are former nodes
of the list or formerly free cells. -/
theorem Mutation.effect {this : Nat} {m m2 : Mem T} (h : Mutation this m m2)
    (hb : HeapBounded m) {c : List (Nat × T)} (ho : Owns m this c) :
    ∃ A c2, Modifies A this m m2 ∧ Owns m2 this c2 ∧
      (∀ a, a ∈ A → a ∈ addrs c ∨ m.heap[a]? = some none) ∧
      (∀ a, a ∈ addrs c2 → a ∈ addrs c ∨ m.heap[a]? = some none) := by
  have hins : ∀ {pos r : NodePtr} {v : T} {m3 : Mem T}, ValidPos m this pos →
      InsertAfter m this pos v = .done m3 r →
      ∃ A c2, Modifies A this m m3 ∧ Owns m3 this c2 ∧
        (∀ a, a ∈ A → a ∈ addrs c ∨ m.heap[a]? = some none) ∧
        (∀ a, a ∈ addrs c2 → a ∈ addrs c ∨ m.heap[a]? = some none) := by
    intro pos r v m3 hv hi
    obtain ⟨c1, c2, hc, hp⟩ := hv.cut ho
    subst hc
    by_cases hfree : ∃ f : Nat, m.heap[f]? = some none
    · obtain ⟨f, hf⟩ := hfree
      obtain ⟨a, m4, ha, hi2, hown, hmod⟩ := InsertAfter_effect hb ho hp v hf
      rw [hi] at hi2
      cases hi2
      refine ⟨a :: addrs c1, c1 ++ (a, v) :: c2, hmod, hown, ?_, ?_⟩
      · intro x hx
        rcases List.mem_cons.1 hx with rfl | hx
        · exact Or.inr ha
        · exact Or.inl (by rw [addrs_append]; exact List.mem_append_left _ hx)
      · intro x hx
        simp only [addrs, List.map_append, List.map_cons, List.mem_append, List.mem_cons] at hx ⊢
        rcases hx with hx | rfl | hx
        · exact Or.inl (Or.inl hx)
        · exact Or.inr ha
        · exact Or.inl (Or.inr hx)
    · have hfull : ∀ f : Nat, m.heap[f]? ≠ some none := fun f hf => hfree ⟨f, hf⟩
      rw [InsertAfter_no_memory ho hp v hfull] at hi
      cases hi
  have hera : ∀ {pos r : NodePtr} {b : Nat} {m3 : Mem T}, ValidPos m this pos →
      m.next pos = some (.cell b) → EraseAfter m this pos = some (m3, r) →
      ∃ A c2, Modifies A this m m3 ∧ Owns m3 this c2 ∧
        (∀ a, a ∈ A → a ∈ addrs c ∨ m.heap[a]? = some none) ∧
        (∀ a, a ∈ addrs c2 → a ∈ addrs c ∨ m.heap[a]? = some none) := by
    intro pos r b m3 hv hnext he
    obtain ⟨c1, c2, hc, hp⟩ := hv.cut ho
    subst hc
    obtain ⟨o, hobj, hs, hsz⟩ := ho
    have hn := (next_at_pos hobj hs hp).1
    rw [hnext] at hn
    cases c2 with
    | nil => simp [headPtr] at hn
    | cons y c2 =>
      obtain ⟨b2, vb⟩ := y
      simp only [headPtr, Option.some.injEq, NodePtr.cell.injEq] at hn
      subst hn
      have ho : Owns m this (c1 ++ (b, vb) :: c2) := ⟨o, hobj, hs, hsz⟩
      obtain ⟨m4, he2, hown, hmod, _⟩ := EraseAfter_effect hb ho hp
      rw [he] at he2
      cases he2
      refine ⟨b :: addrs c1, c1 ++ c2, hmod, hown, ?_, ?_⟩
      · intro x hx
        simp only [addrs, List.map_append, List.map_cons, List.mem_append, List.mem_cons] at hx ⊢
        rcases hx with rfl | hx
        · exact Or.inl (Or.inr (Or.inl rfl))
        · exact Or.inl (Or.inl hx)
      · intro x hx
        simp only [addrs, List.map_append, List.map_cons, List.mem_append, List.mem_cons] at hx ⊢
        rcases hx with hx | hx
        · exact Or.inl (Or.inl hx)
        · exact Or.inl (Or.inr (Or.inr hx))
  cases h with
  | pushFront v hp =>
    rw [PushFront_eq_InsertAfter] at hp
    cases hi : InsertAfter m this (before_begin m this) v with
    | done m3 r =>
      rw [hi] at hp
      cases hp
      exact hins (Or.inl rfl) hi
    | bad_alloc m3 =>
      rw [hi] at hp
      cases hp
    | undefined =>
      rw [hi] at hp
      cases hp
  | popFront hp =>
    cases c with
    | nil =>
      rw [PopFront_empty ho] at hp
      cases hp
      refine ⟨[], [], Modifies.refl _ _ _, ho, ?_, ?_⟩
      · intro a ha
        simp at ha
      · intro a ha
        simp [addrs] at ha
    | cons y c =>
      obtain ⟨b, vb⟩ := y
      obtain ⟨m3, hpop, her, _⟩ := PopFront_effect hb ho
      rw [hp] at hpop
      cases hpop
      obtain ⟨o, hobj, hs, hsz⟩ := ho
      have hfirst : m.next (.sentinel this) = some (.cell b) := by
        rw [next_sentinel hobj, hs.1]
      exact hera (Or.inl rfl) hfirst her
  | insertAfter pos v r hv hi => exact hins hv hi
  | eraseAfter pos r b hv hnext he => exact hera hv hnext he
  | clear hc =>
    obtain ⟨m3, hcl, hown, hmod, _⟩ := Clear_effect ho
    rw [hc] at hcl
    cases hcl
    refine ⟨addrs c, [], hmod, hown, ?_, ?_⟩
    · intro a ha
      exact Or.inl ha
    · intro a ha
      simp [addrs] at ha

/-- Two lists with disjoint chains: any sequence of mutating calls on the second one
leaves the first one with the very same nodes. -/
theorem Mutations.keeps_other {L1 L2 : Nat} {m m2 : Mem T} (h : Mutations L2 m m2)
    (hne : L1 ≠ L2) (hb : HeapBounded m) {c1 c2 : List (Nat × T)} (h1 : Owns m L1 c1)
    (h2 : Owns m L2 c2) (hdis : ∀ a, a ∈ addrs c2 → a ∉ addrs c1) :
    HeapBounded m2 ∧ Owns m2 L1 c1 ∧
      ∃ d, Owns m2 L2 d ∧ ∀ a, a ∈ addrs d → a ∉ addrs c1 := by
  induction h with
  | done => exact ⟨hb, h1, c2, h2, hdis⟩
  | step _ hstep ih =>
    rename_i mb mc hprev
    obtain ⟨hbm, h1m, d, h2m, hdm⟩ := ih
    obtain ⟨A, d2, hmod, hown, hA, hd2⟩ := hstep.effect hbm h2m
    have hnot : ∀ a : Nat, (a ∈ addrs d ∨ mb.heap[a]? = some none) → a ∉ addrs c1 := by
      intro a ha hmem
      rcases ha with ha | ha
      · exact hdm a ha hmem
      · obtain ⟨o, _, hs, _⟩ := h1m
        exact hs.not_mem_of_free ha hmem
    refine ⟨?_, ?_, d2, hown, ?_⟩
    · show _ < SIZE_MODULUS
      rw [hmod.1]
      exact hbm
    · apply h1m.frame hmod hne
      intro a ha hmemA
      exact hnot a (hA a hmemA) ha
    · intro a ha
      exact hnot a (hd2 a ha)

/-- C12: copy independence. Let `L2` be a copy of the list `L1` (made by the copy
constructor, or by assigning `L1` to an existing list `L`), enough cells being free for
the copy. The copy shares no node with `L1`, and after any sequence of mutating calls on
the copy (`PushFront`, `PopFront`, `InsertAfter`, `EraseAfter`, `Clear`) the list `L1`
still owns the same nodes, so its `GetSize()` and element sequence are unchanged. -/
theorem copy_independence [Inhabited T] (m : Mem T) (L1 L : Nat) (c1 cL : List (Nat × T))
    (hb : HeapBounded m) (h1 : Owns m L1 c1) (hL : Owns m L cL) (hne : L ≠ L1)
    (hdis : ∀ a, a ∈ addrs cL → a ∉ addrs c1) (hmem : c1.length ≤ freeCells m.heap) :
    (∃ m1 L2 c2, construct_copy m L1 = .done m1 L2 ∧ L2 ≠ L1 ∧
      Owns m1 L1 c1 ∧ Owns m1 L2 c2 ∧ vals c2 = vals c1 ∧
      (∀ a, a ∈ addrs c2 → a ∉ addrs c1) ∧
      ∀ m2, Mutations L2 m1 m2 →
        Owns m2 L1 c1 ∧ elements m2 L1 = some (vals c1) ∧ GetSize m2 L1 = some c1.length) ∧
    (∃ m1 c2, operator_assign m L L1 = .done m1 () ∧
      Owns m1 L1 c1 ∧ Owns m1 L c2 ∧ vals c2 = vals c1 ∧
      (∀ a, a ∈ addrs c2 → a ∉ addrs c1) ∧
      ∀ m2, Mutations L m1 m2 →
        Owns m2 L1 c1 ∧ elements m2 L1 = some (vals c1) ∧ GetSize m2 L1 = some c1.length) := by
  have hfresh : ∀ {c2 : List (Nat × T)}, (∀ a, a ∈ addrs c2 → m.heap[a]? = some none) →
      ∀ a, a ∈ addrs c2 → a ∉ addrs c1 := by
    intro c2 hfree a ha hmem2
    obtain ⟨o, _, hs, _⟩ := h1
    exact hs.not_mem_of_free (hfree a ha) hmem2
  constructor
  · obtain ⟨m1, c2, hcopy, hvals, hfree, hown, hmod⟩ := construct_copy_effect hb h1 hmem
    have h1b : Owns m1 L1 c1 := h1.after_construct hmod hfree
    have hL2 : m.objs.length ≠ L1 := Ne.symm (Nat.ne_of_lt h1.lt_length)
    have hbm : HeapBounded m1 := by
      show m1.heap.length < SIZE_MODULUS
      rw [hmod.1]
      exact hb
    refine ⟨m1, m.objs.length, c2, hcopy, hL2, h1b, hown, hvals, hfresh hfree, ?_⟩
    intro m2 hmut
    obtain ⟨_, hkeep, _⟩ := hmut.keeps_other (Ne.symm hL2) hbm h1b hown (hfresh hfree)
    exact ⟨hkeep, hkeep.elements, hkeep.getSize⟩
  · obtain ⟨m1, c2, hassign, hvals, hfree, hown, hlen, _, hkeepall⟩ :=
      operator_assign_effect hb hL h1 hne hmem
    have h1b : Owns m1 L1 c1 := hkeepall L1 c1 (Ne.symm hne) h1 hdis
    have hbm : HeapBounded m1 := by
      show m1.heap.length < SIZE_MODULUS
      rw [hlen]
      exact hb
    refine ⟨m1, c2, hassign, h1b, hown, hvals, hfresh hfree, ?_⟩
    intro m2 hmut
    obtain ⟨_, hkeep, _⟩ := hmut.keeps_other (Ne.symm hne) hbm h1b hown (hfresh hfree)
    exact ⟨hkeep, hkeep.elements, hkeep.getSize⟩

/-- Witness for C12: `L1 = [1, 2, 3]`, `L2` its copy, `L2.PushFront(9)` leaves `L1` equal
to `[1, 2, 3]` with size `3`. -/
theorem copy_independence_witness :
    ((∃ m1 L2 c2, construct_copy sampleMem 0 = .done m1 L2 ∧ L2 ≠ 0 ∧
      Owns m1 0 sampleChain ∧ Owns m1 L2 c2 ∧ vals c2 = vals sampleChain ∧
      (∀ a, a ∈ addrs c2 → a ∉ addrs sampleChain) ∧
      ∀ m2, Mutations L2 m1 m2 →
        Owns m2 0 sampleChain ∧ elements m2 0 = some (vals sampleChain) ∧
          GetSize m2 0 = some sampleChain.length) ∧
    (∃ m1 c2, operator_assign sampleMem 1 0 = .done m1 () ∧
      Owns m1 0 sampleChain ∧ Owns m1 1 c2 ∧ vals c2 = vals sampleChain ∧
      (∀ a, a ∈ addrs c2 → a ∉ addrs sampleChain) ∧
      ∀ m2, Mutations 1 m1 m2 →
        Owns m2 0 sampleChain ∧ elements m2 0 = some (vals sampleChain) ∧
          GetSize m2 0 = some sampleChain.length)) ∧
    construct_copy builtMem 0 = .done copiedMem 1 ∧
    PushFront copiedMem 1 9 = .done pushedMem () ∧
    Mutations 1 copiedMem pushedMem ∧
    elements pushedMem 1 = some [9, 1, 2, 3] ∧
    elements pushedMem 0 = some [1, 2, 3] ∧ GetSize pushedMem 0 = some 3 :=
  ⟨copy_independence sampleMem 0 1 sampleChain sampleChain2 sampleMem_bounded sampleMem_owns
    sampleMem_owns2 (by decide) (by decide) (by decide),
    by rfl, by rfl,
    Mutations.step (Mutations.done copiedMem) (Mutation.pushFront 9 (by rfl)),
    by decide, by decide, by decide⟩

end SingleLinkedList
